import Mathlib

/-!
# yapi2go: schema-to-declaration transformation

A shallow embedding of `src/main.go` (package `main` of XiaCo/yapi2go) and the
properties of its specification, settled against that embedding.

Conventions of the embedding

* A Go `string` is its byte sequence (`GoString`, a list of byte values); the
  literal `str "array"` is the UTF-8 encoding of the Lean literal.  Go indexes
  and slices strings by byte (`word[0]`, `word[1:]`), and the regular
  expression of `FilterRune` only ever matches ASCII bytes, so bytes are the
  right granularity.
* A Go `map[string]*Field` is an association list.  The order of the list is
  the order in which a `range` statement of `Array2Object` visits the map; Go
  leaves that order unspecified and it can differ from one `range` to the
  next, so two lists with the same entries in another order are the same Go
  map.  A `nil` map and an empty map are both `[]` (the program only ever
  ranges over the map).  A value of the map is a pointer, `Option Field`:
  `none` is the nil pointer `json.Unmarshal` stores for a JSON `null`, and
  dereferencing it is a run-time panic (`Fatal.nilPointer`).  The elements of
  `Kinds` are pointers in the same way.
* `log.Panicln` and `log.Fatalf` end the process; a function that can reach one
  returns `Except Fatal _`.
* `Array2Object` mutates the tree in place.  Its embedding returns the tree as
  it stands after the call, seen from the receiver: the nodes the receiver
  reaches through `SubField` and through `Items` (the children of an array
  node are the very nodes its element descriptor points to, so the descriptor
  sees them normalized too).  The input is a tree without sharing, as
  `json.Unmarshal` builds it.
* The library decoder `json.Unmarshal` is a parameter of the functions that
  call it (`GetReqBody`, `GetRespBody`, `Unmarshal`); the flag
  `classification` is a parameter of `Unmarshal`.
-/

namespace Yapi2go

/-! ## Strings -/

/-- Go string: the sequence of its bytes (each below 256). -/
abbrev GoString := List Nat

/-- Go conversion `string(r)` of a rune: its UTF-8 encoding, `U+FFFD` for a
surrogate or an out-of-range value. -/
def utf8EncodeRune (r : Nat) : GoString :=
  if r < 0x80 then [r]
  else if r < 0x800 then [0xC0 + r / 64, 0x80 + r % 64]
  else if (0xD800 ≤ r ∧ r < 0xE000) ∨ 0x10FFFF < r then [0xEF, 0xBF, 0xBD]
  else if r < 0x10000 then [0xE0 + r / 4096, 0x80 + r / 64 % 64, 0x80 + r % 64]
  else [0xF0 + r / 262144, 0x80 + r / 4096 % 64, 0x80 + r / 64 % 64, 0x80 + r % 64]

/-- The bytes of a string literal of the source (UTF-8). -/
def str (s : String) : GoString :=
  (s.data.map fun c => utf8EncodeRune c.toNat).flatten

/-- Fatal terminations of the process (`log.Panicln`, `log.Fatalf`, `panic`, a
run-time panic nobody recovers from), with the value the message reports. -/
inductive Fatal where
  | missingItems
  | illegalName (text : GoString)
  | unknownType (yapiType : GoString)
  | nilPointer
  | sliceBounds
  | malformedJSON (text : GoString)
  | emptySelection (allKindName : List GoString)
deriving DecidableEq, Repr

/-! ## Type mapping table (`YAPIType`, `TypeConvert`) -/

/-- The table `YAPIType` of main.go, lines 18-25. -/
def YAPIType : List (GoString × GoString) :=
  [ (str "string", str "string"),
    (str "array", str "array"),
    (str "object", str "object"),
    (str "number", str "int"),
    (str "integer", str "int"),
    (str "boolean", str "bool") ]

/-- Go map lookup `m[k]` with the `exist` flag. -/
def mapGet {α : Type} : List (GoString × α) → GoString → Option α
  | [], _ => none
  | e :: rest, k => if e.1 = k then some e.2 else mapGet rest k

/-- Function `TypeConvert` of main.go, lines 237-244: the table entry, or `log.Fatalf`
naming the type. -/
def TypeConvert (yapiType : GoString) : Except Fatal GoString :=
  match mapGet YAPIType yapiType with
  | some value => .ok value
  | none => .error (.unknownType yapiType)

/-! ## Identifier sanitizer (`FilterRune`) -/

/-- The class `\w` of Go's regexp (RE2): ASCII digits, letters and underscore.
A byte of a multi-byte or invalid UTF-8 sequence is 0x80 or more and never in
the class. -/
def isWord (b : Nat) : Bool :=
  (48 ≤ b && b ≤ 57) || (65 ≤ b && b ≤ 90) || b == 95 || (97 ≤ b && b ≤ 122)

/-- The call `regexp.MustCompile("[\\w]+").FindString(text)`: the leftmost match, taken
greedily; the empty string when nothing matches. -/
def findWord (text : GoString) : GoString :=
  (text.dropWhile fun b => !isWord b).takeWhile isWord

/-- Function `FilterRune` of main.go, lines 247-254. -/
def FilterRune (text : GoString) : Except Fatal GoString :=
  let result := findWord text
  if result = [] then .error (.illegalName text) else .ok result

/-! ## `UpperFirst` -/

/-- Library function `unicode.ToUpper` on the code points below 256, the only ones the
conversion `rune(word[0])` of a byte produces (Go's Unicode case tables:
ASCII and Latin-1 letters, the micro sign and y with diaeresis). -/
def unicodeToUpper (r : Nat) : Nat :=
  if 97 ≤ r ∧ r ≤ 122 then r - 32
  else if r = 0xB5 then 0x39C
  else if (0xE0 ≤ r ∧ r ≤ 0xF6) ∨ (0xF8 ≤ r ∧ r ≤ 0xFE) then r - 32
  else if r = 0xFF then 0x178
  else r

/-- Function `UpperFirst` of main.go, lines 227-234: the first byte, upper-cased as a
rune and re-encoded, followed by the bytes from index 1. -/
def UpperFirst (word : GoString) : GoString :=
  match word with
  | [] => []
  | b :: rest => utf8EncodeRune (unicodeToUpper b) ++ rest

/-! ## Field model -/

/-- Type `Field` of main.go, lines 61-67.  `Type_` is the Go field `Type`; the
values of `SubField` are pointers, `none` being nil. -/
structure Field where
  Type_ : GoString
  Items : Option Field
  SubField : List (GoString × Option Field)
  Description : GoString
  Required : List GoString

/-- The loop of `IsRequired`. -/
def isRequiredLoop : List GoString → GoString → Bool
  | [], _ => false
  | v :: rest, field => if v = field then true else isRequiredLoop rest field

/-- Method `Field.IsRequired` of main.go, lines 101-108. -/
def Field.IsRequired (f : Field) (field : GoString) : Bool :=
  isRequiredLoop f.Required field

/-! ## Array normalization (`Array2Object`) -/

/-- Go map assignment `m[k] = v`: overwrite the entry of `k`, or add one. -/
def mapSet {α : Type} (m : List (GoString × α)) (k : GoString) (v : α) :
    List (GoString × α) :=
  match m with
  | [] => [(k, v)]
  | e :: rest => if e.1 = k then (k, v) :: rest else e :: mapSet rest k v

/-- The renaming loop of `Array2Object` (lines 78-81) over the entries still to
visit, `m` being the map built so far. -/
def rekeyLoop {α : Type} :
    List (GoString × α) → List (GoString × α) → Except Fatal (List (GoString × α))
  | [], m => .ok m
  | (key, value) :: rest, m =>
    match FilterRune key with
    | .error e => .error e
    | .ok name => rekeyLoop rest (mapSet m name value)

/-- The recursion loop of `Array2Object` (lines 83-85) over the rebuilt map:
each value is a child pointer together with the outcome of the call
`subF.Array2Object()` on it; the first failure ends the process. -/
def runChildren :
    List (GoString × (Option Field × Except Fatal (Option Field))) →
      Except Fatal (List (GoString × Option Field))
  | [] => .ok []
  | (name, (_, r)) :: rest =>
    match r with
    | .error e => .error e
    | .ok c =>
      match runChildren rest with
      | .error e => .error e
      | .ok cs => .ok ((name, c) :: cs)

/-- The children map of the element descriptor after the pass: same keys, same
pointers.  A node that is still in the rebuilt map (no later key was renamed
to the same name) has been normalized in place; one that was overwritten there
was never visited. -/
def descriptorChildren :
    List (GoString × (Option Field × Except Fatal (Option Field))) →
      List (GoString × Option Field)
  | [] => []
  | (key, (c, r)) :: rest =>
    (key,
      if rest.any (fun e => findWord e.1 = findWord key) then c
      else match r with
        | .ok c' => c'
        | .error _ => c) :: descriptorChildren rest

/-- The two loops of `Array2Object` (lines 78-85) on the children map to
rename, each entry carrying its pointer and the outcome of the pass on it. -/
def rebuild (pending : List (GoString × (Option Field × Except Fatal (Option Field)))) :
    Except Fatal (List (GoString × Option Field)) :=
  match rekeyLoop pending [] with
  | .error e => .error e
  | .ok m => runChildren m

mutual
/-- Method `Field.Array2Object` of main.go, lines 69-86, on a receiver that is
not nil.  The pass on a child is a function of that child alone, so the
outcome for every child of the map to rename is listed first
(`Array2ObjectAll`) and the loops then move these outcomes around the way the
code moves the pointers; only the children left in the rebuilt map are run. -/
def Array2Object : Field → Except Fatal Field
  | ⟨ty, items, sub, desc, req⟩ =>
    if ty = str "array" then
      match items with
      | none => .error .missingItems
      | some ⟨ity, iitems, isub, idesc, ireq⟩ =>
        match rebuild (Array2ObjectAll isub) with
        | .error e => .error e
        | .ok children =>
          .ok ⟨ty, some ⟨ity, iitems, descriptorChildren (Array2ObjectAll isub), idesc, ireq⟩,
               children, idesc, ireq⟩
    else
      match rebuild (Array2ObjectAll sub) with
      | .error e => .error e
      | .ok children => .ok ⟨ty, items, children, desc, req⟩
/-- Each entry of a children map with its pointer and the outcome of the call
`subF.Array2Object()` on that pointer: a nil receiver is dereferenced by
`f.Type` (line 70), a run-time panic. -/
def Array2ObjectAll :
    List (GoString × Option Field) →
      List (GoString × (Option Field × Except Fatal (Option Field)))
  | [] => []
  | (key, none) :: rest => (key, (none, .error .nilPointer)) :: Array2ObjectAll rest
  | (key, some c) :: rest =>
    (key, (some c,
      match Array2Object c with
      | .error e => .error e
      | .ok c' => .ok (some c'))) :: Array2ObjectAll rest
end

/-- The call `p.Array2Object()` on a pointer: the pointer after the call, or
the run-time panic of a nil receiver. -/
def Array2ObjectPtr : Option Field → Except Fatal (Option Field)
  | none => .error .nilPointer
  | some c =>
    match Array2Object c with
    | .error e => .error e
    | .ok c' => .ok (some c')

/-! ## Notions used to state the properties of the pass -/

/-- The map the renaming loop builds from `m` when no name is illegal. -/
def rekeyed {α : Type} : List (GoString × α) → List (GoString × α) → List (GoString × α)
  | [], m => m
  | (key, value) :: rest, m => rekeyed rest (mapSet m (findWord key) value)

/-- The keys of a children map. -/
def keys {α : Type} (m : List (GoString × α)) : List GoString :=
  m.map Prod.fst

/-- The children map the pass renames at a node: the one of the element
descriptor for an array node (none when the descriptor is absent), the node's
own otherwise. -/
def hoisted (f : Field) : Option (List (GoString × Option Field)) :=
  if f.Type_ = str "array" then f.Items.map Field.SubField else some f.SubField

mutual
/-- The nodes of a tree reached from the root through children maps, the root
first: the nodes the renderer can traverse.  A nil value of a map is no
node. -/
def Field.nodes : Field → List Field
  | ⟨ty, items, sub, desc, req⟩ => ⟨ty, items, sub, desc, req⟩ :: nodesAll sub
/-- The nodes reached from the values of a children map. -/
def nodesAll : List (GoString × Option Field) → List Field
  | [] => []
  | (_, none) :: rest => nodesAll rest
  | (_, some c) :: rest => c.nodes ++ nodesAll rest
end

mutual
/-- The keys stay distinct after sanitization at every node the pass visits:
at the root and, recursively, at every child of the map it renames, no two
keys of that map are renamed to the same name. -/
def keysStayDistinct : Field → Bool
  | ⟨ty, items, sub, _, _⟩ =>
    if ty = str "array" then
      match items with
      | none => true
      | some ⟨_, _, isub, _, _⟩ =>
        decide ((isub.map fun e => findWord e.1).Nodup) && keysStayDistinctAll isub
    else decide ((sub.map fun e => findWord e.1).Nodup) && keysStayDistinctAll sub
/-- The same for every node a children map points to. -/
def keysStayDistinctAll : List (GoString × Option Field) → Bool
  | [] => true
  | (_, none) :: rest => keysStayDistinctAll rest
  | (_, some c) :: rest => keysStayDistinct c && keysStayDistinctAll rest
end

mutual
/-- Some visited node is malformed: the root or, recursively, a child of the
map the pass renames is array-typed with no element descriptor, or has in
that map a key without any word character. -/
def malformed : Field → Bool
  | ⟨ty, items, sub, _, _⟩ =>
    if ty = str "array" then
      match items with
      | none => true
      | some ⟨_, _, isub, _, _⟩ =>
        isub.any (fun e => e.1.all fun b => !isWord b) || malformedAny isub
    else sub.any (fun e => e.1.all fun b => !isWord b) || malformedAny sub
/-- The same for some node a children map points to. -/
def malformedAny : List (GoString × Option Field) → Bool
  | [] => false
  | (_, none) :: rest => malformedAny rest
  | (_, some c) :: rest => malformed c || malformedAny rest
end

mutual
/-- Some visited children map holds a nil value: at the root or, recursively,
at a child of the map the pass renames, that map has a value that is nil (a
JSON `null` property). -/
def nullChild : Field → Bool
  | ⟨ty, items, sub, _, _⟩ =>
    if ty = str "array" then
      match items with
      | none => false
      | some ⟨_, _, isub, _, _⟩ => nullChildAny isub
    else nullChildAny sub
/-- The same for a children map and the nodes it points to. -/
def nullChildAny : List (GoString × Option Field) → Bool
  | [] => false
  | (_, none) :: _ => true
  | (_, some c) :: rest => nullChild c || nullChildAny rest
end

/-- Legal identifier: non-empty, only ASCII letters, digits and underscore. -/
def legalIdent (name : GoString) : Bool :=
  !name.isEmpty && name.all isWord

mutual
/-- The keys of element descriptors stay distinct after sanitization: at every
array-typed node the pass visits (the root and, recursively, the children of
the map it renames), no two keys of the descriptor's children map are renamed
to the same name. -/
def descriptorKeysDistinct : Field → Bool
  | ⟨ty, items, sub, _, _⟩ =>
    if ty = str "array" then
      match items with
      | none => true
      | some ⟨_, _, isub, _, _⟩ =>
        decide ((isub.map fun e => findWord e.1).Nodup) && descriptorKeysDistinctAll isub
    else descriptorKeysDistinctAll sub
/-- The same for every node a children map points to. -/
def descriptorKeysDistinctAll : List (GoString × Option Field) → Bool
  | [] => true
  | (_, none) :: rest => descriptorKeysDistinctAll rest
  | (_, some c) :: rest => descriptorKeysDistinct c && descriptorKeysDistinctAll rest
end

/-! ## Renderer (the template `generateStruct`) -/

/-- Order `<` of Go strings, byte by byte: text/template visits the keys of a
map in this order. -/
def bytesLt : GoString → GoString → Bool
  | [], [] => false
  | [], _ :: _ => true
  | _ :: _, [] => false
  | a :: as, b :: bs => decide (a < b) || (a == b && bytesLt as bs)

/-- Insertion of an entry into a list of entries sorted by key. -/
def insertByKey {α : Type} (e : GoString × α) : List (GoString × α) → List (GoString × α)
  | [] => [e]
  | x :: xs => if bytesLt e.1 x.1 then e :: x :: xs else x :: insertByKey e xs

/-- The entries of a map in the order of `range` in a template: sorted by
key. -/
def sortByKey {α : Type} : List (GoString × α) → List (GoString × α)
  | [] => []
  | e :: rest => insertByKey e (sortByKey rest)

/-- The tag and the comment that end the line of a field (main.go, lines
49-51); inside the `range` the dot is the element, so `.IsRequired` and
`.Description` are those of `$subField`. -/
def fieldTag (key : GoString) (subField : Field) : GoString :=
  if subField.IsRequired key then
    str "`json:\"" ++ key ++ str "\" binding:\"required\"` // " ++ subField.Description
  else
    str "`json:\"" ++ key ++ str "\"` // " ++ subField.Description

/-- The body of the `range` of `generateStruct` (main.go, lines 48-51) for the
entry `$key`, `$subField`.  `nested` is the expansion of the template on
`$subField`, used when its type is object or array.  On a nil `$subField` the
evaluation of `$subField.Type` fails, `Execute` returns the error and
`template` panics. -/
def fieldLine (key : GoString) (subField : Option Field) (nested : Except Fatal GoString) :
    Except Fatal GoString :=
  match subField with
  | none => .error .nilPointer
  | some c =>
    match TypeConvert c.Type_ with
    | .error e => .error e
    | .ok t =>
      let typeText : Except Fatal GoString :=
        if t = str "object" ∨ t = str "array" then
          match nested with
          | .error e => .error e
          | .ok s => .ok (str "\t" ++ s ++ str " ")
        else .ok (str " " ++ t)
      match typeText with
      | .error e => .error e
      | .ok tt => .ok (str "\n\t\t" ++ UpperFirst key ++ str " " ++ tt ++ fieldTag key c)

/-- The `range` of `generateStruct` over the entries in visiting order, each
with its pointer and the expansion of the template on it; the first failure
ends the process. -/
def fieldLines :
    List (GoString × (Option Field × Except Fatal GoString)) → Except Fatal GoString
  | [] => .ok []
  | (key, (subField, nested)) :: rest =>
    match fieldLine key subField nested with
    | .error e => .error e
    | .ok line =>
      match fieldLines rest with
      | .error e => .error e
      | .ok more => .ok (line ++ more)

mutual
/-- The template `generateStruct` of main.go, lines 45-54, with the white
space its trim markers leave.  As for `Array2Object`, the expansion on every
child is listed first and the `range` then picks them in key order. -/
def generateStruct : Field → Except Fatal GoString
  | ⟨ty, _, sub, _, _⟩ =>
    match TypeConvert ty with
    | .error e => .error e
    | .ok t =>
      match fieldLines (sortByKey (generateStructAll sub)) with
      | .error e => .error e
      | .ok lines =>
        .ok ((if t = str "array" then str "[]" else []) ++ str "struct \x7b" ++ lines ++
          str "\n\t\x7d")
/-- Each entry of a children map with its pointer and the expansion of the
template on the node it points to (none is used for a nil pointer). -/
def generateStructAll :
    List (GoString × Option Field) → List (GoString × (Option Field × Except Fatal GoString))
  | [] => []
  | (key, none) :: rest => (key, (none, .error .nilPointer)) :: generateStructAll rest
  | (key, some c) :: rest => (key, (some c, generateStruct c)) :: generateStructAll rest
end

/-- The expansion of the template on the node a pointer points to; a nil
pointer has none. -/
def generateStructPtr : Option Field → Except Fatal GoString
  | none => .error .nilPointer
  | some c => generateStruct c

/-- The type name is in the table `YAPIType`. -/
def inVocabulary (yapiType : GoString) : Bool :=
  (mapGet YAPIType yapiType).isSome

mutual
/-- Every type the renderer meets is in the vocabulary: the type of the node
the template is expanded on and, for each of its children, which must be
there, the type of the child and, when that type is object or array, the
types met in the child in turn. -/
def typesKnown : Field → Bool
  | ⟨ty, _, sub, _, _⟩ => inVocabulary ty && typesKnownAll sub
/-- The same for the children of a map. -/
def typesKnownAll : List (GoString × Option Field) → Bool
  | [] => true
  | (_, none) :: _ => false
  | (_, some c) :: rest =>
    (if c.Type_ = str "object" ∨ c.Type_ = str "array" then typesKnown c
      else inVocabulary c.Type_) && typesKnownAll rest
end

/-! ## Relations between a tree and its normalized form -/

mutual
/-- The second tree is the first with the children keys sanitized and nothing
else changed, at every node reached through children maps: same type, element
descriptor, description and required list, and each child kept, in turn
renamed only, under the key `FilterRune` gives for its key. -/
def renamedOnly : Field → Field → Prop
  | ⟨ty, items, sub, desc, req⟩, g =>
    g.Type_ = ty ∧ g.Items = items ∧ g.Description = desc ∧ g.Required = req ∧
      renamedOnlyAll sub g.SubField
/-- The same for the entries of two children maps, pairwise. -/
def renamedOnlyAll : List (GoString × Option Field) → List (GoString × Option Field) → Prop
  | [], l => l = []
  | (key, none) :: rest, l =>
    ∃ name rest', l = (name, none) :: rest' ∧ FilterRune key = .ok name ∧
      renamedOnlyAll rest rest'
  | (key, some c) :: rest, l =>
    ∃ name c' rest', l = (name, some c') :: rest' ∧ FilterRune key = .ok name ∧
      renamedOnly c c' ∧ renamedOnlyAll rest rest'
end

mutual
/-- Two embeddings of the same Go tree: equal up to the order in which the
entries of each map are listed. -/
def sameTree : Field → Field → Prop
  | ⟨ty, items, sub, desc, req⟩, g =>
    g.Type_ = ty ∧ sameItems items g.Items ∧ sameMap sub g.SubField ∧
      g.Description = desc ∧ g.Required = req
/-- The same for two pointers (element descriptors, values of a children
map): both nil, or both pointing to the same tree. -/
def sameItems : Option Field → Option Field → Prop
  | none, o => o = none
  | some a, o => ∃ b, o = some b ∧ sameTree a b
/-- The same for two children maps: each entry of the first is found in the
second, and the other entries correspond. -/
def sameMap : List (GoString × Option Field) → List (GoString × Option Field) → Prop
  | [], l => l = []
  | (key, none) :: rest, l =>
    ∃ l1 l2, l = l1 ++ (key, none) :: l2 ∧ sameMap rest (l1 ++ l2)
  | (key, some c) :: rest, l =>
    ∃ c' l1 l2, l = l1 ++ (key, some c') :: l2 ∧ sameTree c c' ∧ sameMap rest (l1 ++ l2)
end

/-! ## Sample trees -/

/-- A node of a primitive type, as `json.Unmarshal` builds it from
`{"type": t}`. -/
def primitive (t : String) : Field :=
  ⟨str t, none, [], [], []⟩

/-- Body `{type:"object", properties:{"id":{type:"integer"}}, required:["id"]}`. -/
def scenario1 : Field :=
  ⟨str "object", none, [(str "id", some (primitive "integer"))], [], [str "id"]⟩

/-- Body whose child "id" is an object that lists "id" in its own required
list, while the body lists nothing. -/
def requiredByChild : Field :=
  ⟨str "object", none,
    [(str "id", some ⟨str "object", none, [], [], [str "id"]⟩)], [], []⟩

/-- An array whose elements carry a decorated key: `{type:"array",
items:{type:"object", description:"node", required:["id"],
properties:{"* nodeNetwork":{type:"string"}, "id":{type:"integer"}}}}`. -/
def decorated : Field :=
  ⟨str "array",
    some ⟨str "object", none,
      [(str "* nodeNetwork", some (primitive "string")), (str "id", some (primitive "integer"))],
      str "node", [str "id"]⟩,
    [], [], []⟩

/-- The tree `decorated` after the pass. -/
def decoratedAfter : Field :=
  ⟨str "array",
    some ⟨str "object", none,
      [(str "* nodeNetwork", some (primitive "string")), (str "id", some (primitive "integer"))],
      str "node", [str "id"]⟩,
    [(str "nodeNetwork", some (primitive "string")), (str "id", some (primitive "integer"))],
    str "node", [str "id"]⟩

/-- An array-typed node without element descriptor: `{type:"array"}`. -/
def arrayWithoutItems : Field :=
  ⟨str "array", none, [], [], []⟩

/-- An object with a child that is an array without element descriptor. -/
def objectWithBadArray : Field :=
  ⟨str "object", none, [(str "list", some arrayWithoutItems)], [], []⟩

/-- An array of arrays of objects: `{type:"array", items:{type:"array",
items:{type:"object", properties:{"x":{type:"string"}}}}}`. -/
def nestedArrays : Field :=
  ⟨str "array",
    some ⟨str "array",
      some ⟨str "object", none, [(str "x", some (primitive "string"))], [], []⟩,
      [], [], []⟩,
    [], [], []⟩

/-- An object with two keys that sanitize to the same name:
`{type:"object", properties:{"a":{type:"string"}, "* a":{type:"integer"}}}`. -/
def twoKeys : Field :=
  ⟨str "object", none,
    [(str "a", some (primitive "string")), (str "* a", some (primitive "integer"))], [], []⟩

/-- An object whose keys are legal identifiers. -/
def plainObject : Field :=
  ⟨str "object", none,
    [(str "id", some (primitive "integer")),
     (str "owner", some ⟨str "object", none, [(str "name", some (primitive "string"))],
        str "who", [str "name"]⟩)],
    [], [str "id"]⟩

/-- An array whose element descriptor has two keys that sanitize to the same
name, listed in the order in which the first pass visits them. -/
def clash : Field :=
  ⟨str "array",
    some ⟨str "object", none,
      [(str "a", some (primitive "string")), (str "* a", some (primitive "integer"))], [], []⟩,
    [], [], []⟩

/-- The tree `clash` after one pass: the entry visited last took the name. -/
def clashOnce : Field :=
  ⟨str "array",
    some ⟨str "object", none,
      [(str "a", some (primitive "string")), (str "* a", some (primitive "integer"))], [], []⟩,
    [(str "a", some (primitive "integer"))], [], []⟩

/-- The tree `clashOnce`, the map of its element descriptor listed in the
order in which a second pass may visit it. -/
def clashOnceReordered : Field :=
  ⟨str "array",
    some ⟨str "object", none,
      [(str "* a", some (primitive "integer")), (str "a", some (primitive "string"))], [], []⟩,
    [(str "a", some (primitive "integer"))], [], []⟩

/-- The outcome of the second pass in that order. -/
def clashTwice : Field :=
  ⟨str "array",
    some ⟨str "object", none,
      [(str "* a", some (primitive "integer")), (str "a", some (primitive "string"))], [], []⟩,
    [(str "a", some (primitive "string"))], [], []⟩

/-- The tree `twoKeys` after the pass, its entries visited in the order
listed: one child is left, the one visited last. -/
def twoKeysAfter : Field :=
  ⟨str "object", none, [(str "a", some (primitive "integer"))], [], []⟩

/-- An array of objects one of whose fields is an object with a decorated
key. -/
def nestedDecorated : Field :=
  ⟨str "array",
    some ⟨str "object", none,
      [(str "owner",
        some ⟨str "object", none, [(str "* name", some (primitive "string"))], str "who", []⟩)],
      str "item", [str "owner"]⟩,
    [], [], []⟩

/-- The tree `nestedDecorated` after the pass. -/
def nestedDecoratedAfter : Field :=
  ⟨str "array",
    some ⟨str "object", none,
      [(str "owner",
        some ⟨str "object", none, [(str "name", some (primitive "string"))], str "who", []⟩)],
      str "item", [str "owner"]⟩,
    [(str "owner",
      some ⟨str "object", none, [(str "name", some (primitive "string"))], str "who", []⟩)],
    str "item", [str "owner"]⟩

/-! ## Api, Body, Kind and the top-level rendering -/

/-- Type `Api` of main.go, lines 110-116; `ReqBody` and `RespBody` are the raw
schema texts `req_body_other` and `res_body`. -/
structure Api where
  Method : GoString
  Path : GoString
  Title : GoString
  ReqBody : GoString
  RespBody : GoString

/-- Type `Body` of main.go, lines 88-91.  The embedded `*Field` is nil when the
body text sets none of the fields of `Field` (as the texts `null` and the empty
object do). -/
structure Body where
  Field : Option Field
  Api : Api

/-- Type `Kind` of main.go, lines 177-180. -/
structure Kind where
  Name : GoString
  Apis : List Api

/-- Method `Body.GetReqStructName` of main.go, lines 93-95; the slice
`Path[1:]` of an empty path is out of range. -/
def Body.GetReqStructName (b : Body) : Except Fatal GoString :=
  match b.Api.Path with
  | [] => .error .sliceBounds
  | _ :: rest => .ok (UpperFirst rest ++ str "ReqDto")

/-- Method `Body.GetRespStructName` of main.go, lines 97-99. -/
def Body.GetRespStructName (b : Body) : Except Fatal GoString :=
  match b.Api.Path with
  | [] => .error .sliceBounds
  | _ :: rest => .ok (UpperFirst rest ++ str "RespRto")

/-- The two template texts of main.go, lines 55-58: they differ in the method
that names the declaration. -/
inductive TemplateText where
  | ReqBodyText
  | RespBodyText
deriving DecidableEq, Repr

/-- The declaration name the template text asks for. -/
def TemplateText.structName (base : TemplateText) (b : Body) : Except Fatal GoString :=
  match base with
  | .ReqBodyText => b.GetReqStructName
  | .RespBodyText => b.GetRespStructName

/-- Method `Body.template` of main.go, lines 144-160: the pass on the embedded
tree (a nil one is dereferenced), then the execution of the template text:
the comment block of `common`, the header `type <name> ` and, the tree being
there, the template `generateStruct` on it. -/
def Body.template (b : Body) (base : TemplateText) : Except Fatal GoString :=
  match b.Field with
  | none => .error .nilPointer
  | some f =>
    match Array2Object f with
    | .error e => .error e
    | .ok g =>
      match base.structName b with
      | .error e => .error e
      | .ok name =>
        match generateStruct g with
        | .error e => .error e
        | .ok s =>
          .ok (str "// title: " ++ b.Api.Title ++ str "\n// method: " ++ b.Api.Method ++
            str "    path: " ++ b.Api.Path ++ str "\n" ++ str "type " ++ name ++ str " " ++
            s ++ str "\n")

/-- Method `Api.GetReqBody` of main.go, lines 118-129.  The decoder
`json.Unmarshal` of the body text into a `Body` is the parameter `unmarshal`:
no value when the text is rejected, else the embedded tree, nil or not. -/
def Api.GetReqBody (unmarshal : GoString → Option (Option Field)) (a : Api) :
    Except Fatal (Option Body) :=
  if a.ReqBody = [] then .ok none
  else
    match unmarshal a.ReqBody with
    | none => .error (.malformedJSON a.ReqBody)
    | some field => .ok (some ⟨field, a⟩)

/-- Method `Api.GetRespBody` of main.go, lines 131-142. -/
def Api.GetRespBody (unmarshal : GoString → Option (Option Field)) (a : Api) :
    Except Fatal (Option Body) :=
  if a.RespBody = [] then .ok none
  else
    match unmarshal a.RespBody with
    | none => .error (.malformedJSON a.RespBody)
    | some field => .ok (some ⟨field, a⟩)

/-- One statement of `TemplateReqStruct`: the body has been fetched (a failure
of the fetch ends the process) and, `if body != nil`, its rendering is
appended to `result`. -/
def declarationStep (fetched : Except Fatal (Option Body)) (result : List GoString)
    (base : TemplateText) : Except Fatal (List GoString) :=
  match fetched with
  | .error e => .error e
  | .ok none => .ok result
  | .ok (some b) =>
    match b.template base with
    | .error e => .error e
    | .ok text => .ok (result ++ [text])

/-- Method `Api.TemplateReqStruct` of main.go, lines 162-171. -/
def Api.TemplateReqStruct (unmarshal : GoString → Option (Option Field)) (a : Api) :
    Except Fatal (List GoString) :=
  match declarationStep (a.GetReqBody unmarshal) [] .ReqBodyText with
  | .error e => .error e
  | .ok result => declarationStep (a.GetRespBody unmarshal) result .RespBodyText

/-- The loop of `Unmarshal` (main.go, lines 212-220) over the pointers still to
visit, with the slices `result` and `allKindName` built so far; `kind.Name` on
a nil pointer is a run-time panic. -/
def unmarshalLoop (classification : GoString) :
    List (Option Kind) → List Kind → List GoString →
      Except Fatal (List Kind × List GoString)
  | [], result, allKindName => .ok (result, allKindName)
  | none :: _, _, _ => .error .nilPointer
  | some kind :: rest, result, allKindName =>
    if classification ≠ [] ∧ classification ≠ kind.Name then
      unmarshalLoop classification rest result (allKindName ++ [kind.Name])
    else
      unmarshalLoop classification rest (result ++ [kind]) (allKindName ++ [kind.Name])

/-- Function `Unmarshal` of main.go, lines 205-225, the flag `classification`
being a parameter.  The decoder `json.Unmarshal` of the document into `Kinds`
is the parameter `decode` (no value when the text is rejected); `Kinds` is a
slice of pointers, `none` being the nil pointer stored for a JSON `null`.  The
pointers of the result have all been dereferenced, so the result is listed as
the kinds they point to. -/
def Unmarshal (decode : GoString → Option (List (Option Kind)))
    (classification apiText : GoString) : Except Fatal (List Kind) :=
  match decode apiText with
  | none => .error (.malformedJSON apiText)
  | some temp =>
    match unmarshalLoop classification temp [] [] with
    | .error e => .error e
    | .ok ([], allKindName) => .error (.emptySelection allKindName)
    | .ok (kind :: result, _) => .ok (kind :: result)

/-! ## Sample documents -/

/-- Body `{type:"array", items:{type:"object",
properties:{"name":{type:"string"}}, required:[]}}` of scenario 2. -/
def scenario2 : Field :=
  ⟨str "array",
    some ⟨str "object", none, [(str "name", some (primitive "string"))], [], []⟩,
    [], [], []⟩

/-- The tree `scenario2` after the pass. -/
def scenario2After : Field :=
  ⟨str "array",
    some ⟨str "object", none, [(str "name", some (primitive "string"))], [], []⟩,
    [(str "name", some (primitive "string"))], [], []⟩

/-- What `json.Unmarshal` gives on some body texts: the bodies of scenarios 1
and 2, a body of an unknown type, the empty object (no field of `Field` is
set, the embedded pointer stays nil); a text that is not JSON is rejected. -/
def sampleUnmarshal (text : GoString) : Option (Option Field) :=
  if text = str ("\x7b\"type\":\"object\",\"properties\":\x7b\"id\":" ++
      "\x7b\"type\":\"integer\"\x7d\x7d,\"required\":[\"id\"]\x7d") then some (some scenario1)
  else if text = str ("\x7b\"type\":\"array\",\"items\":\x7b\"type\":\"object\"," ++
      "\"properties\":\x7b\"name\":\x7b\"type\":\"string\"\x7d\x7d,\"required\":[]\x7d\x7d") then
    some (some scenario2)
  else if text = str "\x7b\"type\":\"date\"\x7d" then some (some (primitive "date"))
  else if text = str "\x7b\x7d" then some none
  else none

/-- An Api with an empty request body and the body of scenario 2 as response
body. -/
def responseOnlyApi : Api :=
  ⟨str "GET", str "/users", str "list users", str "",
    str ("\x7b\"type\":\"array\",\"items\":\x7b\"type\":\"object\"," ++
      "\"properties\":\x7b\"name\":\x7b\"type\":\"string\"\x7d\x7d,\"required\":[]\x7d\x7d")⟩

/-- An Api with both bodies empty. -/
def noBodyApi : Api :=
  ⟨str "GET", str "/ping", str "ping", str "", str ""⟩

/-- An Api with the body of scenario 1 as request body and the body of
scenario 2 as response body. -/
def bothBodiesApi : Api :=
  ⟨str "POST", str "/users", str "add user",
    str ("\x7b\"type\":\"object\",\"properties\":\x7b\"id\":" ++
      "\x7b\"type\":\"integer\"\x7d\x7d,\"required\":[\"id\"]\x7d"),
    str ("\x7b\"type\":\"array\",\"items\":\x7b\"type\":\"object\"," ++
      "\"properties\":\x7b\"name\":\x7b\"type\":\"string\"\x7d\x7d,\"required\":[]\x7d\x7d")⟩

/-- An Api whose request body parses and has a type outside the vocabulary. -/
def unknownTypeApi : Api :=
  ⟨str "POST", str "/when", str "when", str "\x7b\"type\":\"date\"\x7d", str ""⟩

/-- An Api whose request body is the empty object. -/
def emptyObjectApi : Api :=
  ⟨str "POST", str "/none", str "none", str "\x7b\x7d", str ""⟩

/-- A document of three kinds, as decoded. -/
def sampleKinds : List (Option Kind) :=
  [some ⟨str "user", [bothBodiesApi]⟩, some ⟨str "system", [noBodyApi]⟩,
    some ⟨str "user", []⟩]

/-- A document whose second element is `null`: `[{"name":"user"}, null]`. -/
def kindsWithNull : List (Option Kind) :=
  [some ⟨str "user", []⟩, none]

/-- A decoder that accepts two document texts. -/
def sampleDecode (text : GoString) : Option (List (Option Kind)) :=
  if text = str "doc" then some sampleKinds
  else if text = str "[\x7b\"name\":\"user\"\x7d,null]" then some kindsWithNull
  else none

/-- An object with a `null` property: `{type:"object", properties:{"a":null}}`. -/
def nullProperty : Field :=
  ⟨str "object", none, [(str "a", none)], [], []⟩

/-- An object with a nested object and a nested array of objects:
`{type:"object", properties:{"owner":{type:"object", description:"who",
properties:{"name":{type:"string"}}}, "tags":{type:"array",
items:{type:"object", properties:{"id":{type:"integer"}}}}, "age":{type:"number"}}}`. -/
def nestedBody : Field :=
  ⟨str "object", none,
    [(str "owner", some ⟨str "object", none, [(str "name", some (primitive "string"))],
        str "who", []⟩),
     (str "tags", some ⟨str "array",
        some ⟨str "object", none, [(str "id", some (primitive "integer"))], [], []⟩,
        [], [], []⟩),
     (str "age", some (primitive "number"))],
    [], []⟩

/-- The tree `nestedBody` after the pass. -/
def nestedBodyAfter : Field :=
  ⟨str "object", none,
    [(str "owner", some ⟨str "object", none, [(str "name", some (primitive "string"))],
        str "who", []⟩),
     (str "tags", some ⟨str "array",
        some ⟨str "object", none, [(str "id", some (primitive "integer"))], [], []⟩,
        [(str "id", some (primitive "integer"))], [], []⟩),
     (str "age", some (primitive "number"))],
    [], []⟩

/-- An object with the keys "id" and "Id". -/
def caseClash : Field :=
  ⟨str "object", none,
    [(str "Id", some (primitive "string")), (str "id", some (primitive "integer"))], [], []⟩

/-- An object whose required list names a decorated key. -/
def decoratedRequired : Field :=
  ⟨str "object", none, [(str "* nodeNetwork", some (primitive "string"))], [],
    [str "* nodeNetwork"]⟩

/-- The tree `decoratedRequired` after the pass. -/
def decoratedRequiredAfter : Field :=
  ⟨str "object", none, [(str "nodeNetwork", some (primitive "string"))], [],
    [str "* nodeNetwork"]⟩

/-! # Properties -/

/-! ## The sanitizer -/

theorem findWord_cons (b : Nat) (t : GoString) :
    findWord (b :: t) = if isWord b then b :: t.takeWhile isWord else findWord t := by
  unfold findWord
  cases h : isWord b <;> simp [List.dropWhile, List.takeWhile, h]

theorem findWord_word (b : Nat) (hb : b ∈ findWord t) : isWord b = true := by
  unfold findWord at hb
  exact List.mem_takeWhile_imp hb

theorem findWord_eq_nil_iff (t : GoString) :
    findWord t = [] ↔ ∀ b ∈ t, isWord b = false := by
  induction t with
  | nil => simp [findWord]
  | cons b t ih =>
    rw [findWord_cons]
    cases h : isWord b <;> simp [h, ih]

theorem findWord_of_legal (t : GoString) (h : ∀ b ∈ t, isWord b = true) : findWord t = t := by
  cases t with
  | nil => simp [findWord]
  | cons b t =>
    rw [findWord_cons]
    have hb : isWord b = true := h b (List.mem_cons_self _ _)
    simp only [hb, if_true]
    congr 1
    exact List.takeWhile_eq_self_iff.mpr fun x hx => h x (List.mem_cons_of_mem _ hx)

theorem findWord_idem (t : GoString) : findWord (findWord t) = findWord t :=
  findWord_of_legal _ fun _ hb => findWord_word _ hb

theorem FilterRune_ok_iff (t r : GoString) :
    FilterRune t = .ok r ↔ findWord t = r ∧ r ≠ [] := by
  unfold FilterRune
  by_cases h : findWord t = []
  · simp only [h, if_true]
    constructor
    · intro h'; cases h'
    · rintro ⟨rfl, h2⟩; exact absurd rfl h2
  · simp only [h, if_false]
    constructor
    · intro h'; cases h'; exact ⟨rfl, h⟩
    · rintro ⟨rfl, _⟩; rfl

theorem FilterRune_error_iff (t : GoString) (e : Fatal) :
    FilterRune t = .error e ↔ findWord t = [] ∧ e = .illegalName t := by
  by_cases h : findWord t = []
  · simp [FilterRune, h, eq_comm]
  · simp [FilterRune, h]

/-! ## Map assignment and the renaming loop -/

section MapLemmas
variable {α : Type}

theorem keys_mapSet (m : List (GoString × α)) (k : GoString) (v : α) (k' : GoString) :
    k' ∈ keys (mapSet m k v) ↔ k' = k ∨ k' ∈ keys m := by
  induction m with
  | nil => simp [mapSet, keys]
  | cons e rest ih =>
    unfold mapSet
    by_cases h : e.1 = k
    · simp only [h, if_true]
      simp only [keys, List.map_cons, List.mem_cons, h]
      tauto
    · simp only [h, if_false]
      simp only [keys, List.map_cons, List.mem_cons] at ih ⊢
      rw [ih]
      tauto

theorem nodup_mapSet (m : List (GoString × α)) (k : GoString) (v : α)
    (h : (keys m).Nodup) : (keys (mapSet m k v)).Nodup := by
  induction m with
  | nil => simp [mapSet, keys]
  | cons e rest ih =>
    have hn : e.1 ∉ keys rest ∧ (keys rest).Nodup := by
      simpa [keys] using h
    unfold mapSet
    by_cases hk : e.1 = k
    · simp only [hk, if_true]
      have : keys ((k, v) :: rest) = k :: keys rest := rfl
      rw [this, List.nodup_cons]
      exact ⟨hk ▸ hn.1, hn.2⟩
    · simp only [hk, if_false]
      have : keys (e :: mapSet rest k v) = e.1 :: keys (mapSet rest k v) := rfl
      rw [this, List.nodup_cons]
      refine ⟨?_, ih hn.2⟩
      rw [keys_mapSet]
      rintro (h1 | h1)
      · exact hk h1
      · exact hn.1 h1

theorem mem_mapSet (m : List (GoString × α)) (k : GoString) (v : α)
    (h : (keys m).Nodup) (k' : GoString) (v' : α) :
    (k', v') ∈ mapSet m k v ↔ (k' = k ∧ v' = v) ∨ (k' ≠ k ∧ (k', v') ∈ m) := by
  induction m with
  | nil => simp [mapSet]
  | cons e rest ih =>
    have hn : e.1 ∉ keys rest ∧ (keys rest).Nodup := by
      simpa [keys] using h
    obtain ⟨ek, ev⟩ := e
    unfold mapSet
    by_cases hk : ek = k
    · subst hk
      simp only [if_true, List.mem_cons, Prod.mk.injEq]
      constructor
      · rintro (⟨h1, h2⟩ | h1)
        · exact Or.inl ⟨h1, h2⟩
        · by_cases hkk : k' = ek
          · subst hkk
            exact absurd (List.mem_map_of_mem Prod.fst h1) hn.1
          · exact Or.inr ⟨hkk, Or.inr h1⟩
      · rintro (⟨h1, h2⟩ | ⟨h1, h2 | h2⟩)
        · exact Or.inl ⟨h1, h2⟩
        · exact absurd h2.1 h1
        · exact Or.inr h2
    · simp only [hk, if_false, List.mem_cons, Prod.mk.injEq]
      rw [ih hn.2]
      constructor
      · rintro (⟨h1, h2⟩ | ⟨h1, h2⟩ | ⟨h1, h2⟩)
        · exact Or.inr ⟨fun h3 => hk (h1 ▸ h3), Or.inl ⟨h1, h2⟩⟩
        · exact Or.inl ⟨h1, h2⟩
        · exact Or.inr ⟨h1, Or.inr h2⟩
      · rintro (⟨h1, h2⟩ | ⟨h1, ⟨h2, h3⟩ | h2⟩)
        · exact Or.inr (Or.inl ⟨h1, h2⟩)
        · exact Or.inl ⟨h2, h3⟩
        · exact Or.inr (Or.inr ⟨h1, h2⟩)

theorem mapSet_of_not_mem (m : List (GoString × α)) (k : GoString) (v : α)
    (h : k ∉ keys m) : mapSet m k v = m ++ [(k, v)] := by
  induction m with
  | nil => simp [mapSet]
  | cons e rest ih =>
    have h1 : e.1 ≠ k ∧ k ∉ keys rest := by
      simp only [keys, List.map_cons, List.mem_cons, not_or] at h
      exact ⟨fun h2 => h.1 h2.symm, h.2⟩
    unfold mapSet
    simp only [h1.1, if_false, List.cons_append]
    rw [ih h1.2]

theorem rekeyLoop_ok (src m : List (GoString × α))
    (h : ∀ e ∈ src, findWord e.1 ≠ []) : rekeyLoop src m = .ok (rekeyed src m) := by
  induction src generalizing m with
  | nil => rfl
  | cons e rest ih =>
    obtain ⟨key, value⟩ := e
    have h1 : FilterRune key = .ok (findWord key) :=
      (FilterRune_ok_iff _ _).mpr ⟨rfl, h (key, value) (List.mem_cons_self _ _)⟩
    simp only [rekeyLoop, h1, rekeyed]
    exact ih _ fun e he => h e (List.mem_cons_of_mem _ he)

theorem rekeyLoop_error (src m : List (GoString × α))
    (h : ∃ e ∈ src, findWord e.1 = []) :
    ∃ key ∈ keys src, findWord key = [] ∧ rekeyLoop src m = .error (.illegalName key) := by
  induction src generalizing m with
  | nil => simp at h
  | cons e rest ih =>
    obtain ⟨key, value⟩ := e
    by_cases hk : findWord key = []
    · refine ⟨key, by simp [keys], hk, ?_⟩
      have h1 : FilterRune key = .error (.illegalName key) :=
        (FilterRune_error_iff _ _).mpr ⟨hk, rfl⟩
      simp only [rekeyLoop, h1]
    · have h1 : FilterRune key = .ok (findWord key) := (FilterRune_ok_iff _ _).mpr ⟨rfl, hk⟩
      have h2 : ∃ e ∈ rest, findWord e.1 = [] := by
        obtain ⟨e, he, he2⟩ := h
        rcases List.mem_cons.mp he with rfl | he
        · exact absurd he2 hk
        · exact ⟨e, he, he2⟩
      obtain ⟨key', hkey', h3, h4⟩ := ih (mapSet m (findWord key) value) h2
      refine ⟨key', by simp only [keys, List.map_cons, List.mem_cons]; exact Or.inr hkey', h3, ?_⟩
      simp only [rekeyLoop, h1]
      exact h4

theorem rekeyLoop_ok_iff (src m m' : List (GoString × α)) :
    rekeyLoop src m = .ok m' ↔ (∀ e ∈ src, findWord e.1 ≠ []) ∧ m' = rekeyed src m := by
  constructor
  · intro h
    by_cases hall : ∀ e ∈ src, findWord e.1 ≠ []
    · rw [rekeyLoop_ok src m hall] at h
      cases h
      exact ⟨hall, rfl⟩
    · have hex : ∃ e ∈ src, findWord e.1 = [] := by
        by_contra hne
        exact hall fun e he h0 => hne ⟨e, he, h0⟩
      obtain ⟨key, _, _, h2⟩ := rekeyLoop_error src m hex
      rw [h2] at h
      cases h
  · rintro ⟨h1, rfl⟩
    exact rekeyLoop_ok src m h1

theorem keys_rekeyed (src m : List (GoString × α)) (name : GoString) :
    name ∈ keys (rekeyed src m) ↔ name ∈ keys m ∨ ∃ e ∈ src, findWord e.1 = name := by
  induction src generalizing m with
  | nil => simp [rekeyed]
  | cons e rest ih =>
    obtain ⟨key, value⟩ := e
    simp only [rekeyed]
    rw [ih, keys_mapSet]
    constructor
    · rintro ((h | h) | ⟨e, he, h⟩)
      · exact Or.inr ⟨(key, value), List.mem_cons_self _ _, h.symm⟩
      · exact Or.inl h
      · exact Or.inr ⟨e, List.mem_cons_of_mem _ he, h⟩
    · rintro (h | ⟨e, he, h⟩)
      · exact Or.inl (Or.inr h)
      · rcases List.mem_cons.mp he with rfl | he
        · exact Or.inl (Or.inl h.symm)
        · exact Or.inr ⟨e, he, h⟩

theorem nodup_rekeyed (src m : List (GoString × α)) (h : (keys m).Nodup) :
    (keys (rekeyed src m)).Nodup := by
  induction src generalizing m with
  | nil => simpa [rekeyed] using h
  | cons e rest ih =>
    obtain ⟨key, value⟩ := e
    simp only [rekeyed]
    exact ih _ (nodup_mapSet m _ _ h)

/-- Every entry of the rebuilt map is the last entry of the source renamed to
its name (or an entry of the initial map that no source key was renamed to). -/
theorem mem_rekeyed (src m : List (GoString × α)) (h : (keys m).Nodup)
    (name : GoString) (v : α) (hm : (name, v) ∈ rekeyed src m) :
    ((name, v) ∈ m ∧ ∀ e ∈ src, findWord e.1 ≠ name) ∨
    ∃ l1 key l2, src = l1 ++ (key, v) :: l2 ∧ findWord key = name ∧
      ∀ e ∈ l2, findWord e.1 ≠ name := by
  induction src generalizing m with
  | nil => exact Or.inl ⟨by simpa [rekeyed] using hm, by simp⟩
  | cons e rest ih =>
    obtain ⟨key, value⟩ := e
    simp only [rekeyed] at hm
    rcases ih _ (nodup_mapSet m _ _ h) hm with ⟨h1, h2⟩ | ⟨l1, key', l2, h1, h2, h3⟩
    · rcases (mem_mapSet m _ _ h _ _).mp h1 with ⟨h3, h4⟩ | ⟨h3, h4⟩
      · subst h4
        exact Or.inr ⟨[], key, rest, rfl, h3.symm, h2⟩
      · refine Or.inl ⟨h4, fun e he => ?_⟩
        rcases List.mem_cons.mp he with rfl | he
        · exact fun h5 => h3 h5.symm
        · exact h2 e he
    · exact Or.inr ⟨(key, value) :: l1, key', l2, by rw [h1]; rfl, h2, h3⟩

theorem rekeyed_of_nodup (src m : List (GoString × α))
    (h : (keys m ++ src.map fun e => findWord e.1).Nodup) :
    rekeyed src m = m ++ src.map fun e => (findWord e.1, e.2) := by
  induction src generalizing m with
  | nil => simp [rekeyed]
  | cons e rest ih =>
    obtain ⟨key, value⟩ := e
    simp only [rekeyed, List.map_cons]
    have hnot : findWord key ∉ keys m := by
      intro hmem
      have := List.nodup_append.mp h
      exact this.2.2 hmem (by simp)
    rw [mapSet_of_not_mem m _ _ hnot]
    have hk : keys (m ++ [(findWord key, value)]) = keys m ++ [findWord key] := by
      simp [keys]
    rw [ih]
    · simp
    · rw [hk]
      simpa using h

end MapLemmas

/-! ## The recursion loop and the element descriptor -/

theorem runChildren_ok_iff (m : List (GoString × (Option Field × Except Fatal (Option Field))))
    (cs : List (GoString × Option Field)) :
    runChildren m = .ok cs ↔
      m.map (fun e => (e.1, e.2.2)) = cs.map fun e => (e.1, Except.ok e.2) := by
  induction m generalizing cs with
  | nil =>
    cases cs with
    | nil => simp [runChildren]
    | cons c cs => simp [runChildren]
  | cons x rest ih =>
    obtain ⟨name, c0, r⟩ := x
    cases r with
    | error e =>
      simp only [runChildren, List.map_cons]
      constructor
      · intro h; cases h
      · intro h
        cases cs with
        | nil => simp at h
        | cons c cs => simp at h
    | ok c =>
      simp only [runChildren, List.map_cons]
      cases hr : runChildren rest with
      | error e =>
        simp only
        constructor
        · intro h; cases h
        · intro h
          cases cs with
          | nil => simp at h
          | cons c1 cs =>
            simp only [List.map_cons, List.cons.injEq] at h
            rw [(ih cs).mpr h.2] at hr
            cases hr
      | ok cs0 =>
        simp only
        have h0 := (ih cs0).mp hr
        constructor
        · intro h
          cases h
          simp [h0]
        · intro h
          cases cs with
          | nil => simp at h
          | cons c1 cs =>
            simp only [List.map_cons, List.cons.injEq, Prod.mk.injEq, Except.ok.injEq] at h
            have h2 : runChildren rest = .ok cs := (ih cs).mpr h.2
            rw [hr] at h2
            cases h2
            obtain ⟨n1, c1'⟩ := c1
            simp only at h
            rw [h.1.1, h.1.2]

theorem runChildren_error_iff
    (m : List (GoString × (Option Field × Except Fatal (Option Field)))) :
    (∃ e, runChildren m = .error e) ↔ ∃ x ∈ m, ∃ e, x.2.2 = .error e := by
  induction m with
  | nil => simp [runChildren]
  | cons x rest ih =>
    obtain ⟨name, c0, r⟩ := x
    cases r with
    | error e =>
      simp only [runChildren]
      constructor
      · intro _; exact ⟨_, List.mem_cons_self _ _, e, rfl⟩
      · intro _; exact ⟨e, rfl⟩
    | ok c =>
      simp only [runChildren]
      cases hr : runChildren rest with
      | error e =>
        simp only
        have h1 := ih.mp ⟨e, hr⟩
        constructor
        · intro _
          obtain ⟨x, hx, h2⟩ := h1
          exact ⟨x, List.mem_cons_of_mem _ hx, h2⟩
        · intro _; exact ⟨e, rfl⟩
      | ok cs0 =>
        simp only
        constructor
        · rintro ⟨e, h⟩; cases h
        · rintro ⟨x, hx, e, h2⟩
          rcases List.mem_cons.mp hx with rfl | hx
          · cases h2
          · obtain ⟨e', h3⟩ := ih.mpr ⟨x, hx, e, h2⟩
            rw [hr] at h3
            cases h3

theorem Array2ObjectPtr_ok_iff (o o' : Option Field) :
    Array2ObjectPtr o = .ok o' ↔
      ∃ c c', o = some c ∧ o' = some c' ∧ Array2Object c = .ok c' := by
  cases o with
  | none =>
    simp only [Array2ObjectPtr]
    constructor
    · intro h; cases h
    · rintro ⟨c, c', h, _⟩; cases h
  | some c =>
    simp only [Array2ObjectPtr]
    cases hc : Array2Object c with
    | error e =>
      simp only
      constructor
      · intro h; cases h
      · rintro ⟨c1, c', h1, _, h3⟩
        cases h1
        rw [hc] at h3
        cases h3
    | ok g =>
      simp only [Except.ok.injEq]
      constructor
      · intro h; exact ⟨c, g, rfl, h.symm, hc⟩
      · rintro ⟨c1, c', h1, h2, h3⟩
        cases h1
        rw [hc] at h3
        cases h3
        exact h2.symm

theorem Array2ObjectPtr_error_iff (o : Option Field) :
    (∃ e, Array2ObjectPtr o = .error e) ↔
      o = none ∨ ∃ c, o = some c ∧ ∃ e, Array2Object c = .error e := by
  cases o with
  | none => simp [Array2ObjectPtr]
  | some c =>
    simp only [Array2ObjectPtr]
    cases hc : Array2Object c with
    | error e =>
      simp only
      constructor
      · intro _; exact Or.inr ⟨c, rfl, e, hc⟩
      · intro _; exact ⟨e, rfl⟩
    | ok g =>
      simp only
      constructor
      · rintro ⟨e, h⟩; cases h
      · rintro (h | ⟨c1, h1, e, h2⟩)
        · cases h
        · cases h1
          rw [hc] at h2
          cases h2

theorem Array2ObjectAll_eq (l : List (GoString × Option Field)) :
    Array2ObjectAll l = l.map fun e => (e.1, (e.2, Array2ObjectPtr e.2)) := by
  induction l with
  | nil => simp [Array2ObjectAll]
  | cons e rest ih =>
    obtain ⟨k, c⟩ := e
    cases c with
    | none => simp [Array2ObjectAll, Array2ObjectPtr, ih]
    | some c => simp [Array2ObjectAll, Array2ObjectPtr, ih]

theorem keys_descriptorChildren
    (p : List (GoString × (Option Field × Except Fatal (Option Field)))) :
    keys (descriptorChildren p) = keys p := by
  induction p with
  | nil => rfl
  | cons x rest ih =>
    obtain ⟨key, c, r⟩ := x
    simp only [descriptorChildren, keys, List.map_cons] at ih ⊢
    rw [ih]

theorem descriptorChildren_append
    (p q : List (GoString × (Option Field × Except Fatal (Option Field))))
    (e : GoString × Option Field) (h : e ∈ descriptorChildren q) :
    e ∈ descriptorChildren (p ++ q) := by
  induction p with
  | nil => simpa using h
  | cons x rest ih =>
    obtain ⟨key, c, r⟩ := x
    simp only [List.cons_append, descriptorChildren]
    exact List.mem_cons_of_mem _ ih

theorem descriptorChildren_of_nodup (src : List (GoString × Option Field))
    (G : Option Field → Except Fatal (Option Field))
    (h : (src.map fun e => findWord e.1).Nodup) :
    descriptorChildren (src.map fun e => (e.1, (e.2, G e.2))) =
      src.map fun e => (e.1, match G e.2 with | .ok c' => c' | .error _ => e.2) := by
  induction src with
  | nil => rfl
  | cons e rest ih =>
    obtain ⟨key, c⟩ := e
    have hn : findWord key ∉ (rest.map fun e => findWord e.1) ∧
        (rest.map fun e => findWord e.1).Nodup := by
      simpa using h
    simp only [List.map_cons, descriptorChildren]
    rw [ih hn.2]
    have hany : (List.map (fun e => (e.1, (e.2, G e.2))) rest).any
        (fun e => decide (findWord e.1 = findWord key)) = false := by
      rw [List.any_eq_false]
      intro x hx
      obtain ⟨e, he, rfl⟩ := List.mem_map.mp hx
      simp only [decide_eq_true_eq]
      intro heq
      exact hn.1 (List.mem_map.mpr ⟨e, he, heq⟩)
    rw [hany]
    rfl

/-! ## Unfolding `Array2Object` -/

theorem hoisted_none_iff (f : Field) :
    hoisted f = none ↔ f.Type_ = str "array" ∧ f.Items = none := by
  unfold hoisted
  by_cases h : f.Type_ = str "array"
  · simp [h]
  · simp [h]

theorem Array2Object_cases (f : Field) :
    (f.Type_ = str "array" ∧ f.Items = none ∧ hoisted f = none ∧
      Array2Object f = .error .missingItems) ∨
    (∃ I, f.Type_ = str "array" ∧ f.Items = some I ∧ hoisted f = some I.SubField ∧
      Array2Object f =
        match rebuild (Array2ObjectAll I.SubField) with
        | .error e => .error e
        | .ok children =>
          .ok ⟨f.Type_,
               some ⟨I.Type_, I.Items, descriptorChildren (Array2ObjectAll I.SubField),
                     I.Description, I.Required⟩,
               children, I.Description, I.Required⟩) ∨
    (f.Type_ ≠ str "array" ∧ hoisted f = some f.SubField ∧
      Array2Object f =
        match rebuild (Array2ObjectAll f.SubField) with
        | .error e => .error e
        | .ok children => .ok ⟨f.Type_, f.Items, children, f.Description, f.Required⟩) := by
  obtain ⟨ty, items, sub, desc, req⟩ := f
  by_cases h : ty = str "array"
  · cases items with
    | none =>
      refine Or.inl ⟨h, rfl, by simp [hoisted, h], ?_⟩
      rw [Array2Object.eq_1]; simp only [h, if_true]
    | some I =>
      refine Or.inr (Or.inl ⟨I, h, rfl, by simp [hoisted, h], ?_⟩)
      obtain ⟨a, b, c, d, e⟩ := I
      rw [Array2Object.eq_2]; simp only [h, if_true]
  · refine Or.inr (Or.inr ⟨h, by simp [hoisted, h], ?_⟩)
    cases items with
    | none => rw [Array2Object.eq_1]; simp only [h, if_false]
    | some I => obtain ⟨a, b, c, d, e⟩ := I; rw [Array2Object.eq_2]; simp only [h, if_false]

theorem rebuild_ok_iff (src children : List (GoString × Option Field)) :
    rebuild (Array2ObjectAll src) = .ok children ↔
      (∀ e ∈ src, findWord e.1 ≠ []) ∧
      runChildren (rekeyed (Array2ObjectAll src) []) = .ok children := by
  have hkeys : (∀ e ∈ Array2ObjectAll src, findWord e.1 ≠ []) ↔
      ∀ e ∈ src, findWord e.1 ≠ [] := by
    rw [Array2ObjectAll_eq]
    constructor
    · intro h e he
      exact h _ (List.mem_map_of_mem _ he)
    · intro h x hx
      obtain ⟨e, he, rfl⟩ := List.mem_map.mp hx
      exact h e he
  unfold rebuild
  cases hr : rekeyLoop (Array2ObjectAll src) [] with
  | error e =>
    simp only
    constructor
    · intro h; cases h
    · rintro ⟨h1, _⟩
      rw [rekeyLoop_ok _ _ (hkeys.mpr h1)] at hr
      cases hr
  | ok m =>
    simp only
    obtain ⟨h1, h2⟩ := (rekeyLoop_ok_iff _ _ _).mp hr
    rw [← h2]
    constructor
    · intro h; exact ⟨hkeys.mp h1, h⟩
    · intro h; exact h.2

/-- Induction along the visits of the pass: a property holds of every tree if
it holds of a node whenever it holds of the nodes the map renamed there points
to. -/
theorem visit_induction (P : Field → Prop)
    (step : ∀ f,
      (∀ src, hoisted f = some src → ∀ e ∈ src, ∀ c, e.2 = some c → P c) → P f) :
    ∀ f, P f := by
  have key : ∀ f : Field, P f ∧ ∀ e ∈ f.SubField, ∀ c, e.2 = some c → P c := by
    intro f
    refine @Field.rec
      (fun f => P f ∧ ∀ e ∈ f.SubField, ∀ c, e.2 = some c → P c)
      (fun o => ∀ I, o = some I → P I ∧ ∀ e ∈ I.SubField, ∀ c, e.2 = some c → P c)
      (fun l => ∀ e ∈ l, ∀ c, e.2 = some c → P c)
      (fun p => ∀ c, p.2 = some c → P c)
      ?_ ?_ ?_ ?_ ?_ ?_ f
    · intro ty items sub desc req hitems hsub
      refine ⟨step _ ?_, hsub⟩
      intro src hsrc e he
      unfold hoisted at hsrc
      by_cases h : ty = str "array"
      · simp only [h, if_true] at hsrc
        cases items with
        | none => simp at hsrc
        | some I =>
          simp only [Option.map_some', Option.some.injEq] at hsrc
          subst hsrc
          exact (hitems I rfl).2 e he
      · simp only [h, if_false, Option.some.injEq] at hsrc
        subst hsrc
        exact hsub e he
    · intro I h; cases h
    · intro val hval I h
      cases h
      exact hval
    · intro e he; cases he
    · intro head tail hh ht e he
      rcases List.mem_cons.mp he with rfl | he
      · exact hh
      · exact ht e he
    · intro k o ho c hc
      exact (ho c hc).1
  exact fun f => (key f).1

/-! ## What the two loops leave in the rebuilt map -/

/-- The children of a node after a successful pass: distinct names; each child
is the normalized form of the last entry of the renamed map that takes its
name, and is the node the element descriptor holds under the original key;
every original key is renamed to one of the names. -/
theorem rebuild_spec (src children : List (GoString × Option Field))
    (h : rebuild (Array2ObjectAll src) = .ok children) :
    (keys children).Nodup ∧
    (∀ e' ∈ children, ∃ l1 key c l2, src = l1 ++ (key, c) :: l2 ∧
      findWord key = e'.1 ∧ Array2ObjectPtr c = .ok e'.2 ∧
      (∀ e ∈ l2, findWord e.1 ≠ e'.1) ∧
      (key, e'.2) ∈ descriptorChildren (Array2ObjectAll src)) ∧
    (∀ e ∈ src, findWord e.1 ≠ [] ∧ findWord e.1 ∈ keys children) := by
  obtain ⟨h1, h2⟩ := (rebuild_ok_iff src children).mp h
  have h3 := (runChildren_ok_iff _ _).mp h2
  have hk : keys children = keys (rekeyed (Array2ObjectAll src) []) := by
    have := congrArg (List.map Prod.fst) h3
    simp only [List.map_map] at this
    exact this.symm
  refine ⟨?_, ?_, ?_⟩
  · rw [hk]
    exact nodup_rekeyed _ _ (by simp [keys])
  · intro e' he'
    have hmem : (e'.1, (Except.ok e'.2 : Except Fatal (Option Field))) ∈
        (rekeyed (Array2ObjectAll src) []).map (fun e => (e.1, e.2.2)) := by
      rw [h3]
      exact List.mem_map.mpr ⟨e', he', rfl⟩
    obtain ⟨x, hx, hxe⟩ := List.mem_map.mp hmem
    obtain ⟨name, c, r⟩ := x
    simp only [Prod.mk.injEq] at hxe
    obtain ⟨hname, hr⟩ := hxe
    subst hname
    subst hr
    rcases mem_rekeyed (Array2ObjectAll src) [] (by simp [keys]) _ _ hx with
      ⟨h4, _⟩ | ⟨l1, key, l2, h4, h5, h6⟩
    · cases h4
    · have h7 := h4
      rw [Array2ObjectAll_eq] at h7
      obtain ⟨s1, s2', hs, hs1, hs2⟩ := List.map_eq_append_iff.mp h7
      obtain ⟨a, s2, hs3, ha, hs4⟩ := List.map_eq_cons_iff.mp hs2
      obtain ⟨akey, ac⟩ := a
      simp only [Prod.mk.injEq] at ha
      obtain ⟨hk1, hc1, hr1⟩ := ha
      subst hk1
      subst hc1
      refine ⟨s1, akey, ac, s2, by rw [hs, hs3], h5, hr1, ?_, ?_⟩
      · intro e he
        have : (e.1, (e.2, Array2ObjectPtr e.2)) ∈ l2 := by
          rw [← hs4]
          exact List.mem_map.mpr ⟨e, he, rfl⟩
        exact h6 _ this
      · rw [h4]
        apply descriptorChildren_append
        have hany : l2.any (fun e => decide (findWord e.1 = findWord akey)) = false := by
          rw [List.any_eq_false]
          intro x hx2
          simp only [decide_eq_true_eq]
          rw [h5]
          exact h6 x hx2
        simp only [descriptorChildren, hany]
        simp
  · intro e he
    refine ⟨h1 e he, ?_⟩
    rw [hk, keys_rekeyed]
    refine Or.inr ⟨(e.1, (e.2, Array2ObjectPtr e.2)), ?_, rfl⟩
    rw [Array2ObjectAll_eq]
    exact List.mem_map.mpr ⟨e, he, rfl⟩

/-- Without a collision of names the two loops are a plain map over the
entries. -/
theorem rebuild_of_nodup (src : List (GoString × Option Field))
    (hn : (src.map fun e => findWord e.1).Nodup) (children : List (GoString × Option Field)) :
    rebuild (Array2ObjectAll src) = .ok children ↔
      (∀ e ∈ src, findWord e.1 ≠ []) ∧
      src.map (fun e => (findWord e.1, Array2ObjectPtr e.2)) =
        children.map fun e => (e.1, Except.ok e.2) := by
  rw [rebuild_ok_iff, runChildren_ok_iff]
  have hclosed : rekeyed (Array2ObjectAll src) [] =
      (Array2ObjectAll src).map fun e => (findWord e.1, e.2) := by
    rw [rekeyed_of_nodup]
    · simp
    · rw [Array2ObjectAll_eq]
      simpa [keys, Function.comp_def] using hn
  rw [hclosed, Array2ObjectAll_eq]
  simp only [List.map_map, Function.comp_def]

theorem rebuild_error_of_nodup (src : List (GoString × Option Field))
    (hn : (src.map fun e => findWord e.1).Nodup) :
    (∃ e, rebuild (Array2ObjectAll src) = .error e) ↔
      ∃ x ∈ src, findWord x.1 = [] ∨ ∃ e, Array2ObjectPtr x.2 = .error e := by
  have hclosed : rekeyed (Array2ObjectAll src) [] =
      (Array2ObjectAll src).map fun e => (findWord e.1, e.2) := by
    rw [rekeyed_of_nodup]
    · simp
    · rw [Array2ObjectAll_eq]
      simpa [keys, Function.comp_def] using hn
  by_cases hall : ∀ e ∈ src, findWord e.1 ≠ []
  · have hall' : ∀ e ∈ Array2ObjectAll src, findWord e.1 ≠ [] := by
      rw [Array2ObjectAll_eq]
      intro x hx
      obtain ⟨e, he, rfl⟩ := List.mem_map.mp hx
      exact hall e he
    unfold rebuild
    rw [rekeyLoop_ok _ _ hall']
    simp only
    rw [runChildren_error_iff, hclosed, Array2ObjectAll_eq]
    constructor
    · rintro ⟨x, hx, e, he⟩
      simp only [List.map_map, List.mem_map, Function.comp_def] at hx
      obtain ⟨a, ha, rfl⟩ := hx
      exact ⟨a, ha, Or.inr ⟨e, he⟩⟩
    · rintro ⟨x, hx, h | ⟨e, he⟩⟩
      · exact absurd h (hall x hx)
      · refine ⟨(findWord x.1, (x.2, Array2ObjectPtr x.2)), ?_, e, he⟩
        simp only [List.map_map, List.mem_map, Function.comp_def]
        exact ⟨x, hx, rfl⟩
  · have hex : ∃ e ∈ Array2ObjectAll src, findWord e.1 = [] := by
      rw [Array2ObjectAll_eq]
      by_contra hne
      apply hall
      intro e he h0
      exact hne ⟨_, List.mem_map.mpr ⟨e, he, rfl⟩, h0⟩
    obtain ⟨key, _, _, h2⟩ := rekeyLoop_error (Array2ObjectAll src) [] hex
    constructor
    · intro _
      by_contra hne
      apply hall
      intro e he h0
      exact hne ⟨e, he, Or.inl h0⟩
    · intro _
      refine ⟨.illegalName key, ?_⟩
      unfold rebuild
      rw [h2]

/-! ## Unfolding the notions defined along the visits -/

theorem nodes_eq (f : Field) : f.nodes = f :: nodesAll f.SubField := by
  obtain ⟨ty, items, sub, desc, req⟩ := f
  rw [Field.nodes]

theorem mem_nodesAll (l : List (GoString × Option Field)) (n : Field) :
    n ∈ nodesAll l ↔ ∃ e ∈ l, ∃ c, e.2 = some c ∧ n ∈ c.nodes := by
  induction l with
  | nil => simp [nodesAll]
  | cons e rest ih =>
    obtain ⟨k, c⟩ := e
    cases c with
    | none => simp [nodesAll, ih]
    | some c => simp [nodesAll, ih]

theorem keysStayDistinctAll_iff (l : List (GoString × Option Field)) :
    keysStayDistinctAll l = true ↔
      ∀ e ∈ l, ∀ c, e.2 = some c → keysStayDistinct c = true := by
  induction l with
  | nil => simp [keysStayDistinctAll]
  | cons e rest ih =>
    obtain ⟨k, c⟩ := e
    cases c with
    | none => simp [keysStayDistinctAll, ih]
    | some c => simp [keysStayDistinctAll, ih]

theorem keysStayDistinct_iff (f : Field) :
    keysStayDistinct f = true ↔
      ∀ src, hoisted f = some src →
        (src.map fun e => findWord e.1).Nodup ∧
        ∀ e ∈ src, ∀ c, e.2 = some c → keysStayDistinct c = true := by
  obtain ⟨ty, items, sub, desc, req⟩ := f
  by_cases h : ty = str "array"
  · cases items with
    | none => simp [keysStayDistinct, hoisted, h]
    | some I =>
      obtain ⟨a, b, c, d, e⟩ := I
      rw [keysStayDistinct]
      simp only [h, if_true, hoisted, Option.map_some', Option.some.injEq, forall_eq',
        Bool.and_eq_true, decide_eq_true_eq, keysStayDistinctAll_iff]
  · cases items with
    | none =>
      rw [keysStayDistinct]
      simp only [h, if_false, hoisted, Option.some.injEq, forall_eq',
        Bool.and_eq_true, decide_eq_true_eq, keysStayDistinctAll_iff]
    | some I =>
      obtain ⟨a, b, c, d, e⟩ := I
      rw [keysStayDistinct]
      simp only [h, if_false, hoisted, Option.some.injEq, forall_eq',
        Bool.and_eq_true, decide_eq_true_eq, keysStayDistinctAll_iff]

theorem malformedAny_iff (l : List (GoString × Option Field)) :
    malformedAny l = true ↔ ∃ e ∈ l, ∃ c, e.2 = some c ∧ malformed c = true := by
  induction l with
  | nil => simp [malformedAny]
  | cons e rest ih =>
    obtain ⟨k, c⟩ := e
    cases c with
    | none => simp [malformedAny, ih]
    | some c => simp [malformedAny, ih]

theorem malformed_iff (f : Field) :
    malformed f = true ↔
      hoisted f = none ∨
      ∃ src, hoisted f = some src ∧
        ∃ e ∈ src, (∀ b ∈ e.1, isWord b = false) ∨
          ∃ c, e.2 = some c ∧ malformed c = true := by
  obtain ⟨ty, items, sub, desc, req⟩ := f
  have key : ∀ l : List (GoString × Option Field),
      ((l.any (fun e => e.1.all fun b => !isWord b) || malformedAny l) = true) ↔
        ∃ e ∈ l, (∀ b ∈ e.1, isWord b = false) ∨
          ∃ c, e.2 = some c ∧ malformed c = true := by
    intro l
    rw [Bool.or_eq_true, malformedAny_iff]
    simp only [List.any_eq_true, List.all_eq_true, Bool.not_eq_true']
    constructor
    · rintro (⟨e, he, h1⟩ | ⟨e, he, h1⟩)
      · exact ⟨e, he, Or.inl h1⟩
      · exact ⟨e, he, Or.inr h1⟩
    · rintro ⟨e, he, h1 | h1⟩
      · exact Or.inl ⟨e, he, h1⟩
      · exact Or.inr ⟨e, he, h1⟩
  by_cases h : ty = str "array"
  · cases items with
    | none => simp [malformed, hoisted, h]
    | some I =>
      obtain ⟨a, b, c, d, e⟩ := I
      rw [malformed]
      simp only [h, if_true, hoisted, Option.map_some', reduceCtorEq, false_or,
        Option.some.injEq, exists_eq_left', key]
  · cases items with
    | none =>
      rw [malformed]
      simp only [h, if_false, hoisted, reduceCtorEq, false_or,
        Option.some.injEq, exists_eq_left', key]
    | some I =>
      obtain ⟨a, b, c, d, e⟩ := I
      rw [malformed]
      simp only [h, if_false, hoisted, reduceCtorEq, false_or,
        Option.some.injEq, exists_eq_left', key]

theorem nullChildAny_iff (l : List (GoString × Option Field)) :
    nullChildAny l = true ↔
      ∃ e ∈ l, e.2 = none ∨ ∃ c, e.2 = some c ∧ nullChild c = true := by
  induction l with
  | nil => simp [nullChildAny]
  | cons e rest ih =>
    obtain ⟨k, c⟩ := e
    cases c with
    | none => simp [nullChildAny]
    | some c => simp [nullChildAny, ih]

theorem nullChild_iff (f : Field) :
    nullChild f = true ↔
      ∃ src, hoisted f = some src ∧
        ∃ e ∈ src, e.2 = none ∨ ∃ c, e.2 = some c ∧ nullChild c = true := by
  obtain ⟨ty, items, sub, desc, req⟩ := f
  by_cases h : ty = str "array"
  · cases items with
    | none => simp [nullChild, hoisted, h]
    | some I =>
      obtain ⟨a, b, c, d, e⟩ := I
      rw [nullChild]
      simp only [h, if_true, hoisted, Option.map_some', Option.some.injEq, exists_eq_left',
        nullChildAny_iff]
  · cases items with
    | none =>
      rw [nullChild]
      simp only [h, if_false, hoisted, Option.some.injEq, exists_eq_left', nullChildAny_iff]
    | some I =>
      obtain ⟨a, b, c, d, e⟩ := I
      rw [nullChild]
      simp only [h, if_false, hoisted, Option.some.injEq, exists_eq_left', nullChildAny_iff]

/-- The element descriptor after the pass holds, key by key, either the pointer
it held (overwritten in the rebuilt map, never visited) or the node it pointed
to, normalized. -/
theorem descriptorChildren_forall₂ (src : List (GoString × Option Field)) :
    List.Forall₂ (fun e x => x.1 = e.1 ∧ (x.2 = e.2 ∨ Array2ObjectPtr e.2 = .ok x.2))
      src (descriptorChildren (Array2ObjectAll src)) := by
  rw [Array2ObjectAll_eq]
  induction src with
  | nil => simp [descriptorChildren]
  | cons e rest ih =>
    obtain ⟨key, c⟩ := e
    simp only [List.map_cons, descriptorChildren]
    refine List.Forall₂.cons ⟨rfl, ?_⟩ ih
    split
    · exact Or.inl rfl
    · split
      · rename_i h; exact Or.inr h
      · exact Or.inl rfl

theorem descriptorKeysDistinctAll_iff (l : List (GoString × Option Field)) :
    descriptorKeysDistinctAll l = true ↔
      ∀ e ∈ l, ∀ c, e.2 = some c → descriptorKeysDistinct c = true := by
  induction l with
  | nil => simp [descriptorKeysDistinctAll]
  | cons e rest ih =>
    obtain ⟨k, c⟩ := e
    cases c with
    | none => simp [descriptorKeysDistinctAll, ih]
    | some c => simp [descriptorKeysDistinctAll, ih]

theorem descriptorKeysDistinct_iff (f : Field) :
    descriptorKeysDistinct f = true ↔
      ∀ src, hoisted f = some src →
        (f.Type_ = str "array" → (src.map fun e => findWord e.1).Nodup) ∧
        ∀ e ∈ src, ∀ c, e.2 = some c → descriptorKeysDistinct c = true := by
  obtain ⟨ty, items, sub, desc, req⟩ := f
  by_cases h : ty = str "array"
  · cases items with
    | none => simp [descriptorKeysDistinct, hoisted, h]
    | some I =>
      obtain ⟨a, b, c, d, e⟩ := I
      rw [descriptorKeysDistinct]
      simp only [h, if_true, hoisted, Option.map_some', Option.some.injEq, forall_eq',
        Bool.and_eq_true, decide_eq_true_eq, descriptorKeysDistinctAll_iff, true_implies]
  · cases items with
    | none =>
      rw [descriptorKeysDistinct]
      simp only [h, if_false, hoisted, Option.some.injEq, forall_eq',
        descriptorKeysDistinctAll_iff, false_implies, true_and]
    | some I =>
      obtain ⟨a, b, c, d, e⟩ := I
      rw [descriptorKeysDistinct]
      simp only [h, if_false, hoisted, Option.some.injEq, forall_eq',
        descriptorKeysDistinctAll_iff, false_implies, true_and]

/-! ## Pairwise relations between children maps -/

theorem map_eq_map_iff_forall₂ {α β γ : Type} (F : α → γ) (G : β → γ)
    (l1 : List α) (l2 : List β) :
    l1.map F = l2.map G ↔ List.Forall₂ (fun a b => F a = G b) l1 l2 := by
  induction l1 generalizing l2 with
  | nil =>
    cases l2 with
    | nil => simp
    | cons b l2 => simp
  | cons a l1 ih =>
    cases l2 with
    | nil => simp
    | cons b l2 => simp [ih]

theorem forall₂_imp_mem {α β : Type} {R S : α → β → Prop} {l1 : List α} {l2 : List β}
    (h : List.Forall₂ R l1 l2) (H : ∀ a ∈ l1, ∀ b ∈ l2, R a b → S a b) :
    List.Forall₂ S l1 l2 := by
  induction h with
  | nil => exact List.Forall₂.nil
  | cons hab _ ih =>
    refine List.Forall₂.cons (H _ (List.mem_cons_self _ _) _ (List.mem_cons_self _ _) hab) ?_
    exact ih fun a ha b hb => H a (List.mem_cons_of_mem _ ha) b (List.mem_cons_of_mem _ hb)

theorem forall₂_mem_right {α β : Type} {R : α → β → Prop} {l1 : List α} {l2 : List β}
    (h : List.Forall₂ R l1 l2) : ∀ b ∈ l2, ∃ a ∈ l1, R a b := by
  induction h with
  | nil => intro b hb; cases hb
  | cons hab _ ih =>
    intro b hb
    rcases List.mem_cons.mp hb with rfl | hb
    · exact ⟨_, List.mem_cons_self _ _, hab⟩
    · obtain ⟨a, ha, hr⟩ := ih b hb
      exact ⟨a, List.mem_cons_of_mem _ ha, hr⟩

theorem forall₂_mem_left {α β : Type} {R : α → β → Prop} {l1 : List α} {l2 : List β}
    (h : List.Forall₂ R l1 l2) : ∀ a ∈ l1, ∃ b ∈ l2, R a b := by
  induction h with
  | nil => intro a ha; cases ha
  | cons hab _ ih =>
    intro a ha
    rcases List.mem_cons.mp ha with rfl | ha
    · exact ⟨_, List.mem_cons_self _ _, hab⟩
    · obtain ⟨b, hb, hr⟩ := ih a ha
      exact ⟨b, List.mem_cons_of_mem _ hb, hr⟩

theorem forall₂_join {α β γ : Type} {A : α → β → Prop} {B : α → γ → Prop}
    {l : List α} {m : List β} {n : List γ}
    (h1 : List.Forall₂ A l m) (h2 : List.Forall₂ B l n) :
    List.Forall₂ (fun x y => ∃ a ∈ l, A a x ∧ B a y) m n := by
  induction h1 generalizing n with
  | nil => cases h2; exact List.Forall₂.nil
  | cons hab _ ih =>
    cases h2 with
    | cons hac h2' =>
      refine List.Forall₂.cons ⟨_, List.mem_cons_self _ _, hab, hac⟩ ?_
      exact (ih h2').imp fun x y ⟨a, ha, h⟩ => ⟨a, List.mem_cons_of_mem _ ha, h⟩

/-- Without a collision of names the rebuilt map holds, entry by entry, the
child normalized under its sanitized key. -/
theorem rebuild_forall₂ (src : List (GoString × Option Field))
    (hn : (src.map fun e => findWord e.1).Nodup) (children : List (GoString × Option Field)) :
    rebuild (Array2ObjectAll src) = .ok children ↔
      List.Forall₂ (fun e e' => FilterRune e.1 = .ok e'.1 ∧ Array2ObjectPtr e.2 = .ok e'.2)
        src children := by
  rw [rebuild_of_nodup src hn, map_eq_map_iff_forall₂]
  constructor
  · rintro ⟨h1, h2⟩
    refine forall₂_imp_mem h2 ?_
    intro a ha b _ hab
    simp only [Prod.mk.injEq] at hab
    exact ⟨(FilterRune_ok_iff _ _).mpr ⟨hab.1, hab.1 ▸ h1 a ha⟩, hab.2⟩
  · intro h
    constructor
    · intro e he
      obtain ⟨b, _, hb, _⟩ := forall₂_mem_left h e he
      obtain ⟨h1, h2⟩ := (FilterRune_ok_iff _ _).mp hb
      rw [h1]
      exact h2
    · refine h.imp ?_
      rintro a b ⟨h1, h2⟩
      rw [((FilterRune_ok_iff _ _).mp h1).1, h2]

/-- Without a collision, and when the pass succeeds on every child, the element
descriptor holds each child normalized under its original key. -/
theorem descriptor_forall₂ (src : List (GoString × Option Field))
    (hn : (src.map fun e => findWord e.1).Nodup)
    (hall : ∀ e ∈ src, ∃ c', Array2ObjectPtr e.2 = .ok c') :
    List.Forall₂ (fun e x => x.1 = e.1 ∧ Array2ObjectPtr e.2 = .ok x.2)
      src (descriptorChildren (Array2ObjectAll src)) := by
  rw [Array2ObjectAll_eq, descriptorChildren_of_nodup src Array2ObjectPtr hn]
  rw [List.forall₂_map_right_iff, List.forall₂_same]
  intro e he
  obtain ⟨c', hc⟩ := hall e he
  simp [hc]

theorem descriptor_fixed (dc : List (GoString × Option Field))
    (hn : (dc.map fun e => findWord e.1).Nodup)
    (hall : ∀ e ∈ dc, Array2ObjectPtr e.2 = .ok e.2) :
    descriptorChildren (Array2ObjectAll dc) = dc := by
  rw [Array2ObjectAll_eq, descriptorChildren_of_nodup dc Array2ObjectPtr hn]
  conv => rhs; rw [← List.map_id dc]
  apply List.map_congr_left
  intro e he
  simp [hall e he]

theorem renamedOnly_iff (f g : Field) :
    renamedOnly f g ↔
      g.Type_ = f.Type_ ∧ g.Items = f.Items ∧ g.Description = f.Description ∧
      g.Required = f.Required ∧ renamedOnlyAll f.SubField g.SubField := by
  obtain ⟨ty, items, sub, desc, req⟩ := f
  rw [renamedOnly]

theorem renamedOnlyAll_iff (l l' : List (GoString × Option Field)) :
    renamedOnlyAll l l' ↔
      List.Forall₂ (fun e e' => FilterRune e.1 = .ok e'.1 ∧
        ((e.2 = none ∧ e'.2 = none) ∨
          ∃ c c', e.2 = some c ∧ e'.2 = some c' ∧ renamedOnly c c')) l l' := by
  induction l generalizing l' with
  | nil =>
    rw [renamedOnlyAll]
    constructor
    · rintro rfl; exact List.Forall₂.nil
    · intro h; cases h; rfl
  | cons e rest ih =>
    obtain ⟨key, c⟩ := e
    cases c with
    | none =>
      rw [renamedOnlyAll]
      constructor
      · rintro ⟨name, rest', rfl, h1, h3⟩
        exact List.Forall₂.cons ⟨h1, Or.inl ⟨rfl, rfl⟩⟩ ((ih rest').mp h3)
      · intro h
        cases h with
        | cons hab hrest =>
          rename_i b l2
          obtain ⟨bk, bc⟩ := b
          obtain ⟨h1, h2⟩ := hab
          rcases h2 with ⟨_, h2⟩ | ⟨c, c', h2, _⟩
          · simp only at h2
            subst h2
            exact ⟨bk, l2, rfl, h1, (ih l2).mpr hrest⟩
          · cases h2
    | some c =>
      rw [renamedOnlyAll]
      constructor
      · rintro ⟨name, c', rest', rfl, h1, h2, h3⟩
        exact List.Forall₂.cons ⟨h1, Or.inr ⟨c, c', rfl, rfl, h2⟩⟩ ((ih rest').mp h3)
      · intro h
        cases h with
        | cons hab hrest =>
          rename_i b l2
          obtain ⟨bk, bc⟩ := b
          obtain ⟨h1, h2⟩ := hab
          rcases h2 with ⟨h2, _⟩ | ⟨c1, c', h2, h3, h4⟩
          · cases h2
          · simp only at h3
            subst h3
            cases h2
            exact ⟨bk, c', l2, rfl, h1, h4, (ih l2).mpr hrest⟩

theorem mem_nodes_of_child (f : Field) (e : GoString × Option Field) (he : e ∈ f.SubField)
    (c : Field) (hc : e.2 = some c) (n : Field) (hn : n ∈ c.nodes) : n ∈ f.nodes := by
  rw [nodes_eq, List.mem_cons, mem_nodesAll]
  exact Or.inr ⟨e, he, c, hc, hn⟩

theorem mem_nodes_self (f : Field) : f ∈ f.nodes := by
  rw [nodes_eq]
  exact List.mem_cons_self _ _

theorem FilterRune_of_legal (name : GoString) (h : legalIdent name = true) :
    FilterRune name = .ok name := by
  unfold legalIdent at h
  simp only [Bool.and_eq_true, Bool.not_eq_true', List.all_eq_true] at h
  obtain ⟨h1, h2⟩ := h
  have hne : name ≠ [] := by
    intro h0
    rw [h0] at h1
    simp at h1
  exact (FilterRune_ok_iff _ _).mpr ⟨findWord_of_legal name h2, hne⟩

/-- What the pass leaves at an array-typed node with an element descriptor. -/
theorem array_spec (f I g : Field)
    (hty : f.Type_ = str "array") (hI : f.Items = some I)
    (h : Array2Object f = .ok g) :
    g.Required = I.Required ∧ g.Description = I.Description ∧
    (∀ name, name ∈ keys g.SubField ↔
      ∃ key ∈ keys I.SubField, FilterRune key = .ok name) ∧
    (∀ e' ∈ g.SubField, ∃ e ∈ I.SubField,
      FilterRune e.1 = .ok e'.1 ∧ Array2ObjectPtr e.2 = .ok e'.2) ∧
    g.Type_ = str "array" ∧
    ∃ I', g.Items = some I' ∧ I'.Type_ = I.Type_ ∧ I'.Items = I.Items ∧
      I'.Description = I.Description ∧ I'.Required = I.Required ∧
      keys I'.SubField = keys I.SubField ∧
      List.Forall₂ (fun e x => x.1 = e.1 ∧ (x.2 = e.2 ∨ Array2ObjectPtr e.2 = .ok x.2))
        I.SubField I'.SubField ∧
      ∀ e' ∈ g.SubField, ∃ key, (key, e'.2) ∈ I'.SubField ∧ FilterRune key = .ok e'.1 := by
  rcases Array2Object_cases f with ⟨_, h2, _, _⟩ | ⟨J, _, h2, _, h4⟩ | ⟨h1, _, _⟩
  · rw [hI] at h2; cases h2
  · rw [hI] at h2
    cases h2
    rw [h4] at h
    cases hr : rebuild (Array2ObjectAll I.SubField) with
    | error e => rw [hr] at h; cases h
    | ok children =>
      rw [hr] at h
      simp only [Except.ok.injEq] at h
      subst h
      obtain ⟨_, s2, s3⟩ := rebuild_spec _ _ hr
      have hne : ∀ e' ∈ children, e'.1 ≠ [] := by
        intro e' he'
        obtain ⟨l1, key, c, l2, hsrc, hk, _, _, _⟩ := s2 e' he'
        rw [← hk]
        exact (s3 (key, c) (by rw [hsrc]; simp)).1
      refine ⟨rfl, rfl, ?_, ?_, hty, _, rfl, rfl, rfl, rfl, rfl, ?_, ?_, ?_⟩
      · intro name
        constructor
        · intro hname
          obtain ⟨e', he', rfl⟩ := List.mem_map.mp hname
          obtain ⟨l1, key, c, l2, hsrc, hk, _, _, _⟩ := s2 e' he'
          refine ⟨key, ?_, (FilterRune_ok_iff _ _).mpr ⟨hk, hne e' he'⟩⟩
          rw [hsrc]
          simp [keys]
        · rintro ⟨key, hkey, hf⟩
          obtain ⟨e, he, rfl⟩ := List.mem_map.mp hkey
          rw [← ((FilterRune_ok_iff _ _).mp hf).1]
          exact (s3 e he).2
      · intro e' he'
        obtain ⟨l1, key, c, l2, hsrc, hk, hc, _, _⟩ := s2 e' he'
        exact ⟨(key, c), by rw [hsrc]; simp,
          (FilterRune_ok_iff _ _).mpr ⟨hk, hne e' he'⟩, hc⟩
      · rw [keys_descriptorChildren, Array2ObjectAll_eq]
        simp [keys, Function.comp_def]
      · exact descriptorChildren_forall₂ _
      · intro e' he'
        obtain ⟨l1, key, c, l2, _, hk, _, _, hd⟩ := s2 e' he'
        exact ⟨key, hd, (FilterRune_ok_iff _ _).mpr ⟨hk, hne e' he'⟩⟩
  · exact absurd hty h1

/-! ## The pass does not depend on the order in which maps are listed -/

theorem sameTree_iff (f g : Field) :
    sameTree f g ↔
      g.Type_ = f.Type_ ∧ sameItems f.Items g.Items ∧ sameMap f.SubField g.SubField ∧
      g.Description = f.Description ∧ g.Required = f.Required := by
  obtain ⟨ty, items, sub, desc, req⟩ := f
  rw [sameTree]

theorem sameItems_none (o : Option Field) : sameItems none o ↔ o = none := by
  simp only [sameItems]

theorem sameItems_some (a : Field) (o : Option Field) :
    sameItems (some a) o ↔ ∃ b, o = some b ∧ sameTree a b := by
  simp only [sameItems]

theorem sameMap_cons (key : GoString) (c : Option Field)
    (rest l : List (GoString × Option Field)) :
    sameMap ((key, c) :: rest) l ↔
      ∃ c' l1 l2, l = l1 ++ (key, c') :: l2 ∧ sameItems c c' ∧ sameMap rest (l1 ++ l2) := by
  cases c with
  | none =>
    rw [sameMap]
    constructor
    · rintro ⟨l1, l2, h1, h2⟩
      exact ⟨none, l1, l2, h1, (sameItems_none _).mpr rfl, h2⟩
    · rintro ⟨c', l1, l2, h1, h2, h3⟩
      rw [(sameItems_none _).mp h2] at h1
      exact ⟨l1, l2, h1, h3⟩
  | some c =>
    rw [sameMap]
    constructor
    · rintro ⟨c', l1, l2, h1, h2, h3⟩
      exact ⟨some c', l1, l2, h1, (sameItems_some _ _).mpr ⟨c', rfl, h2⟩, h3⟩
    · rintro ⟨c', l1, l2, h1, h2, h3⟩
      obtain ⟨b, hb, h4⟩ := (sameItems_some _ _).mp h2
      subst hb
      exact ⟨b, l1, l2, h1, h4, h3⟩

theorem sameMap_nil (l : List (GoString × Option Field)) : sameMap [] l ↔ l = [] := by
  rw [sameMap]

theorem sameMap_keys_perm (l l' : List (GoString × Option Field)) (h : sameMap l l') :
    (keys l').Perm (keys l) := by
  induction l generalizing l' with
  | nil =>
    rw [sameMap_nil] at h
    subst h
    exact List.Perm.refl _
  | cons e rest ih =>
    obtain ⟨key, c⟩ := e
    obtain ⟨c', l1, l2, rfl, _, h3⟩ := (sameMap_cons _ _ _ _).mp h
    have h4 := ih _ h3
    simp only [keys, List.map_append, List.map_cons] at h4 ⊢
    exact List.perm_middle.trans (List.Perm.cons _ h4)

theorem forall₂_append_left {α β : Type} {R : α → β → Prop} (l1 l2 : List α) (B : List β)
    (h : List.Forall₂ R (l1 ++ l2) B) :
    ∃ B1 B2, B = B1 ++ B2 ∧ List.Forall₂ R l1 B1 ∧ List.Forall₂ R l2 B2 := by
  induction l1 generalizing B with
  | nil => exact ⟨[], B, rfl, List.Forall₂.nil, h⟩
  | cons a l1 ih =>
    cases h with
    | cons hab hrest =>
      obtain ⟨B1, B2, rfl, h1, h2⟩ := ih _ hrest
      exact ⟨_ :: B1, B2, rfl, List.Forall₂.cons hab h1, h2⟩

theorem forall₂_append {α β : Type} {R : α → β → Prop} {l1 l2 : List α} {B1 B2 : List β}
    (h1 : List.Forall₂ R l1 B1) (h2 : List.Forall₂ R l2 B2) :
    List.Forall₂ R (l1 ++ l2) (B1 ++ B2) := by
  induction h1 with
  | nil => exact h2
  | cons hab _ ih => exact List.Forall₂.cons hab ih

/-- Entries listed in another order are normalized to entries listed in
another order, whatever function `κ` renames the keys. -/
theorem sameMap_normalized (κ : GoString → GoString) (src : List (GoString × Option Field)) :
    ∀ src' A, sameMap src src' →
      List.Forall₂ (fun e x => x.1 = κ e.1 ∧ Array2ObjectPtr e.2 = .ok x.2) src A →
      (∀ e ∈ src, ∀ a' b, Array2ObjectPtr e.2 = .ok a' → sameItems e.2 b →
        ∃ b', Array2ObjectPtr b = .ok b' ∧ sameItems a' b') →
      ∃ B, List.Forall₂ (fun e x => x.1 = κ e.1 ∧ Array2ObjectPtr e.2 = .ok x.2) src' B ∧
        sameMap A B := by
  induction src with
  | nil =>
    intro src' A hs hA _
    rw [sameMap_nil] at hs
    subst hs
    cases hA
    exact ⟨[], List.Forall₂.nil, (sameMap_nil _).mpr rfl⟩
  | cons e rest ih =>
    intro src' A hs hA hch
    obtain ⟨key, c⟩ := e
    obtain ⟨c', l1, l2, rfl, hcc, hrest⟩ := (sameMap_cons _ _ _ _).mp hs
    cases hA with
    | cons hx hA' =>
      rename_i x A'
      obtain ⟨hx1, hx2⟩ := hx
      obtain ⟨B0, hB0, hAB0⟩ := ih (l1 ++ l2) A' hrest hA'
        (fun e he => hch e (List.mem_cons_of_mem _ he))
      obtain ⟨B1, B2, rfl, hB1, hB2⟩ := forall₂_append_left l1 l2 B0 hB0
      obtain ⟨b', hb1, hb2⟩ := hch (key, c) (List.mem_cons_self _ _) x.2 c' hx2 hcc
      refine ⟨B1 ++ (κ key, b') :: B2, ?_, ?_⟩
      · exact forall₂_append hB1 (List.Forall₂.cons ⟨rfl, hb1⟩ hB2)
      · obtain ⟨x1, x2⟩ := x
        simp only at hx1
        subst hx1
        exact (sameMap_cons _ _ _ _).mpr ⟨b', B1, B2, rfl, hb2, hAB0⟩

theorem normalized_unique (κ : GoString → GoString) (src : List (GoString × Option Field))
    (A B : List (GoString × Option Field))
    (hA : List.Forall₂ (fun e x => x.1 = κ e.1 ∧ Array2ObjectPtr e.2 = .ok x.2) src A)
    (hB : List.Forall₂ (fun e x => x.1 = κ e.1 ∧ Array2ObjectPtr e.2 = .ok x.2) src B) :
    A = B := by
  refine List.right_unique_forall₂' ?_ hA hB
  rintro e ⟨x1, x2⟩ ⟨y1, y2⟩ ⟨h1, h2⟩ ⟨h3, h4⟩
  simp only at h1 h2 h3 h4
  rw [h2] at h4
  rw [h1, h3, Except.ok.inj h4]

/-- The two loops on a map listed in another order: same outcome up to the
order, when no two keys collide. -/
theorem rebuild_sameMap (src src' children : List (GoString × Option Field))
    (hn : (src.map fun e => findWord e.1).Nodup) (hs : sameMap src src')
    (hr : rebuild (Array2ObjectAll src) = .ok children)
    (hch : ∀ e ∈ src, ∀ a' b, Array2ObjectPtr e.2 = .ok a' → sameItems e.2 b →
      ∃ b', Array2ObjectPtr b = .ok b' ∧ sameItems a' b') :
    ∃ children', rebuild (Array2ObjectAll src') = .ok children' ∧
      sameMap children children' ∧
      sameMap (descriptorChildren (Array2ObjectAll src))
        (descriptorChildren (Array2ObjectAll src')) := by
  have hF := (rebuild_forall₂ _ hn children).mp hr
  have hperm := sameMap_keys_perm _ _ hs
  have hn' : (src'.map fun e => findWord e.1).Nodup := by
    have h1 : (src'.map fun e => findWord e.1) = (keys src').map findWord := by
      simp [keys, Function.comp_def]
    have h2 : (src.map fun e => findWord e.1) = (keys src).map findWord := by
      simp [keys, Function.comp_def]
    rw [h1]
    rw [h2] at hn
    exact (hperm.map findWord).nodup_iff.mpr hn
  have hne : ∀ e ∈ src, findWord e.1 ≠ [] := by
    intro e he
    obtain ⟨b, _, hb, _⟩ := forall₂_mem_left hF e he
    obtain ⟨h1, h2⟩ := (FilterRune_ok_iff _ _).mp hb
    rw [h1]
    exact h2
  have hne' : ∀ e ∈ src', findWord e.1 ≠ [] := by
    intro e he
    have : e.1 ∈ keys src := hperm.subset (List.mem_map_of_mem Prod.fst he)
    obtain ⟨e0, he0, hk⟩ := List.mem_map.mp this
    rw [← hk]
    exact hne e0 he0
  have hF1 : List.Forall₂ (fun e x => x.1 = findWord e.1 ∧ Array2ObjectPtr e.2 = .ok x.2)
      src children := by
    refine hF.imp ?_
    rintro a b ⟨h1, h2⟩
    exact ⟨((FilterRune_ok_iff _ _).mp h1).1.symm, h2⟩
  obtain ⟨B, hB, hAB⟩ := sameMap_normalized findWord src src' children hs hF1 hch
  have hall : ∀ e ∈ src, ∃ c', Array2ObjectPtr e.2 = .ok c' := by
    intro e he
    obtain ⟨b, _, _, hb⟩ := forall₂_mem_left hF e he
    exact ⟨b.2, hb⟩
  have hall' : ∀ e ∈ src', ∃ c', Array2ObjectPtr e.2 = .ok c' := by
    intro e he
    obtain ⟨b, _, _, hb⟩ := forall₂_mem_left hB e he
    exact ⟨b.2, hb⟩
  have hD := descriptor_forall₂ _ hn hall
  have hD' := descriptor_forall₂ _ hn' hall'
  obtain ⟨D, hD1, hD2⟩ := sameMap_normalized id src src' _ hs hD hch
  have hDeq : D = descriptorChildren (Array2ObjectAll src') :=
    normalized_unique id src' _ _ hD1 hD'
  refine ⟨B, ?_, hAB, hDeq ▸ hD2⟩
  rw [rebuild_forall₂ _ hn']
  refine forall₂_imp_mem hB ?_
  rintro a ha b _ ⟨h1, h2⟩
  exact ⟨(FilterRune_ok_iff _ _).mpr ⟨h1.symm, h1 ▸ hne' a ha⟩, h2⟩

/-- From the nodes to the pointers: what holds of the pass on the node a
pointer points to holds of the call on the pointer. -/
theorem samePtr_normalized (o : Option Field)
    (h : ∀ c, o = some c → ∀ a' b, Array2Object c = .ok a' → sameTree c b →
      ∃ b', Array2Object b = .ok b' ∧ sameTree a' b') :
    ∀ a' b, Array2ObjectPtr o = .ok a' → sameItems o b →
      ∃ b', Array2ObjectPtr b = .ok b' ∧ sameItems a' b' := by
  intro a' b ha hb
  obtain ⟨c, c', rfl, rfl, hc⟩ := (Array2ObjectPtr_ok_iff _ _).mp ha
  obtain ⟨b0, rfl, hcb⟩ := (sameItems_some _ _).mp hb
  obtain ⟨b0', h1, h2⟩ := h c rfl c' b0 hc hcb
  exact ⟨some b0', (Array2ObjectPtr_ok_iff _ _).mpr ⟨b0, b0', rfl, rfl, h1⟩,
    (sameItems_some _ _).mpr ⟨b0', rfl, h2⟩⟩

/-- The pass on a tree listed in another order gives the same tree up to the
order, when the keys stay distinct after sanitization. -/
theorem sameTree_normalized (a : Field) :
    keysStayDistinct a = true → ∀ a' b, Array2Object a = .ok a' → sameTree a b →
      ∃ b', Array2Object b = .ok b' ∧ sameTree a' b' := by
  refine visit_induction
    (fun a => keysStayDistinct a = true → ∀ a' b, Array2Object a = .ok a' → sameTree a b →
      ∃ b', Array2Object b = .ok b' ∧ sameTree a' b') ?_ a
  intro a ih hd a' b ha hab
  obtain ⟨t1, t2, t3, t4, t5⟩ := (sameTree_iff a b).mp hab
  rcases Array2Object_cases a with ⟨_, _, _, h4⟩ | ⟨I, h1, h2, h3, h4⟩ | ⟨h1, h3, h4⟩
  · rw [h4] at ha; cases ha
  · rw [h4] at ha
    cases hr : rebuild (Array2ObjectAll I.SubField) with
    | error e => rw [hr] at ha; cases ha
    | ok children =>
      rw [hr] at ha
      simp only [Except.ok.injEq] at ha
      obtain ⟨hnd, hdc⟩ := (keysStayDistinct_iff a).mp hd _ h3
      rw [h2] at t2
      rw [sameItems] at t2
      obtain ⟨J, hJ, hIJ⟩ := t2
      obtain ⟨j1, j2, j3, j4, j5⟩ := (sameTree_iff I J).mp hIJ
      obtain ⟨children', hr', hc1, hc2⟩ := rebuild_sameMap _ _ children hnd j3 hr
        (fun e he => samePtr_normalized e.2 fun c hc => ih _ h3 e he c hc (hdc e he c hc))
      rcases Array2Object_cases b with ⟨_, k2, _, _⟩ | ⟨J', _, k2, _, k4⟩ | ⟨k1, _, _⟩
      · rw [hJ] at k2; cases k2
      · rw [hJ] at k2
        cases k2
        rw [k4, hr']
        refine ⟨_, rfl, ?_⟩
        subst ha
        rw [sameTree_iff]
        refine ⟨t1, ?_, hc1, j4, j5⟩
        rw [sameItems]
        refine ⟨_, rfl, ?_⟩
        rw [sameTree_iff]
        exact ⟨j1, j2, hc2, j4, j5⟩
      · exact absurd (t1.trans h1) k1
  · rw [h4] at ha
    cases hr : rebuild (Array2ObjectAll a.SubField) with
    | error e => rw [hr] at ha; cases ha
    | ok children =>
      rw [hr] at ha
      simp only [Except.ok.injEq] at ha
      obtain ⟨hnd, hdc⟩ := (keysStayDistinct_iff a).mp hd _ h3
      obtain ⟨children', hr', hc1, _⟩ := rebuild_sameMap _ _ children hnd t3 hr
        (fun e he => samePtr_normalized e.2 fun c hc => ih _ h3 e he c hc (hdc e he c hc))
      have hbT : b.Type_ ≠ str "array" := fun hb => h1 (t1 ▸ hb)
      rcases Array2Object_cases b with ⟨k1, _, _, _⟩ | ⟨J', k1, _, _, _⟩ | ⟨_, _, k4⟩
      · exact absurd k1 hbT
      · exact absurd k1 hbT
      · rw [k4, hr']
        refine ⟨_, rfl, ?_⟩
        subst ha
        rw [sameTree_iff]
        exact ⟨t1, t2, hc1, t4, t5⟩

/-! ## The children of a node after a successful pass -/

/-- After the two loops every value of the rebuilt map points to a node: the
normalized form of a node the renamed map pointed to, under a key renamed to
its name. -/
theorem rebuild_child (src children : List (GoString × Option Field))
    (hr : rebuild (Array2ObjectAll src) = .ok children) :
    ∀ e' ∈ children, ∃ key c c', (key, some c) ∈ src ∧ e'.2 = some c' ∧
      findWord key = e'.1 ∧ findWord key ≠ [] ∧ Array2Object c = .ok c' := by
  intro e' he'
  obtain ⟨_, s2, s3⟩ := rebuild_spec _ _ hr
  obtain ⟨l1, key, o, l2, hs, hk, hc, _, _⟩ := s2 e' he'
  obtain ⟨c, c', rfl, h2, h3⟩ := (Array2ObjectPtr_ok_iff _ _).mp hc
  have hmem : (key, some c) ∈ src := by rw [hs]; simp
  exact ⟨key, c, c', hmem, h2, hk, (s3 _ hmem).1, h3⟩

/-- What a successful pass leaves as children, the node being an array with an
element descriptor or not. -/
theorem Array2Object_children (f g : Field) (h : Array2Object f = .ok g) :
    ∃ src, hoisted f = some src ∧ rebuild (Array2ObjectAll src) = .ok g.SubField := by
  rcases Array2Object_cases f with ⟨_, _, _, h4⟩ | ⟨I, _, _, h3, h4⟩ | ⟨_, h3, h4⟩
  · rw [h4] at h; cases h
  · rw [h4] at h
    cases hr : rebuild (Array2ObjectAll I.SubField) with
    | error e => rw [hr] at h; cases h
    | ok children =>
      rw [hr] at h
      simp only [Except.ok.injEq] at h
      subst h
      exact ⟨_, h3, hr⟩
  · rw [h4] at h
    cases hr : rebuild (Array2ObjectAll f.SubField) with
    | error e => rw [hr] at h; cases h
    | ok children =>
      rw [hr] at h
      simp only [Except.ok.injEq] at h
      subst h
      exact ⟨_, h3, hr⟩

/-- After a successful pass every value of every children map reached from the
root points to a node. -/
theorem nodes_present (f : Field) :
    ∀ g, Array2Object f = .ok g →
      ∀ n ∈ g.nodes, ∀ e ∈ n.SubField, ∃ c, e.2 = some c := by
  refine visit_induction
    (fun f => ∀ g, Array2Object f = .ok g → ∀ n ∈ g.nodes, ∀ e ∈ n.SubField,
      ∃ c, e.2 = some c) ?_ f
  intro f ih g h n hn e he
  obtain ⟨src, hsrc, hr⟩ := Array2Object_children f g h
  rw [nodes_eq, List.mem_cons, mem_nodesAll] at hn
  rcases hn with rfl | ⟨e', he', c', hc', hn⟩
  · obtain ⟨_, _, c1, _, h2, _⟩ := rebuild_child _ _ hr e he
    exact ⟨c1, h2⟩
  · obtain ⟨key, c, c1, hmem, h2, _, _, h3⟩ := rebuild_child _ _ hr e' he'
    rw [hc'] at h2
    cases h2
    exact ih src hsrc _ hmem c rfl c' h3 n hn e he

/-- C3: for an array-typed node `f` with element descriptor `I`, after a
successful `Array2Object` the node has the required list and the description
of `I`; the keys of its children map are exactly the sanitized keys of the
children map of `I`; every child is a node, the normalized form of a child of
`I` taken under its sanitized key; the type is still "array"; and the element
descriptor is still there with its own type, descriptor, description, required
list and keys, holding under each key the pointer it held (the node normalized
in place when it was adopted). -/
theorem Array2Object_hoists (f I g : Field)
    (hty : f.Type_ = str "array") (hI : f.Items = some I)
    (h : Array2Object f = .ok g) :
    g.Required = I.Required ∧ g.Description = I.Description ∧
    (∀ name, name ∈ keys g.SubField ↔
      ∃ key ∈ keys I.SubField, FilterRune key = .ok name) ∧
    (∀ e' ∈ g.SubField, ∃ e ∈ I.SubField, ∃ c c', e.2 = some c ∧ e'.2 = some c' ∧
      FilterRune e.1 = .ok e'.1 ∧ Array2Object c = .ok c') ∧
    g.Type_ = str "array" ∧
    ∃ I', g.Items = some I' ∧ I'.Type_ = I.Type_ ∧ I'.Items = I.Items ∧
      I'.Description = I.Description ∧ I'.Required = I.Required ∧
      keys I'.SubField = keys I.SubField ∧
      List.Forall₂ (fun e x => x.1 = e.1 ∧ (x.2 = e.2 ∨
          ∃ c c', e.2 = some c ∧ x.2 = some c' ∧ Array2Object c = .ok c'))
        I.SubField I'.SubField ∧
      ∀ e' ∈ g.SubField, ∃ key, (key, e'.2) ∈ I'.SubField ∧ FilterRune key = .ok e'.1 := by
  obtain ⟨a1, a2, a3, a4, a5, I', b1, b2, b3, b4, b5, b6, b7, b8⟩ := array_spec f I g hty hI h
  refine ⟨a1, a2, a3, ?_, a5, I', b1, b2, b3, b4, b5, b6, ?_, b8⟩
  · intro e' he'
    obtain ⟨e, he, h1, h2⟩ := a4 e' he'
    obtain ⟨c, c', h3, h4, h5⟩ := (Array2ObjectPtr_ok_iff _ _).mp h2
    exact ⟨e, he, c, c', h3, h4, h1, h5⟩
  · refine b7.imp ?_
    rintro e x ⟨h1, h2 | h2⟩
    · exact ⟨h1, Or.inl h2⟩
    · exact ⟨h1, Or.inr ((Array2ObjectPtr_ok_iff _ _).mp h2)⟩

/-- C6: after a successful `Array2Object` on a root, every key of every
children map reached from the root through children maps is a sanitized
identifier: non-empty, made of word characters only, and left as it is by
`FilterRune`; and every value of these maps points to a node, so that the
nodes reached are all the renderer traverses. -/
theorem Array2Object_keys_sanitized (f g : Field) (h : Array2Object f = .ok g) :
    (∀ n ∈ g.nodes, ∀ name ∈ keys n.SubField,
      name ≠ [] ∧ (∀ b ∈ name, isWord b = true) ∧ FilterRune name = .ok name) ∧
    ∀ n ∈ g.nodes, ∀ e ∈ n.SubField, ∃ c, e.2 = some c := by
  refine ⟨?_, nodes_present f g h⟩
  revert g
  refine visit_induction
    (fun f => ∀ g, Array2Object f = .ok g → ∀ n ∈ g.nodes, ∀ name ∈ keys n.SubField,
      name ≠ [] ∧ (∀ b ∈ name, isWord b = true) ∧ FilterRune name = .ok name) ?_ f
  intro f ih g h n hn name hname
  obtain ⟨src, hsrc, hr⟩ := Array2Object_children f g h
  rw [nodes_eq, List.mem_cons, mem_nodesAll] at hn
  rcases hn with rfl | ⟨e', he', c', hc', hn⟩
  · obtain ⟨e', he', rfl⟩ := List.mem_map.mp hname
    obtain ⟨key, c, c1, _, _, hk, h0, _⟩ := rebuild_child _ _ hr e' he'
    rw [← hk]
    refine ⟨h0, fun b hb => findWord_word b hb, ?_⟩
    exact (FilterRune_ok_iff _ _).mpr ⟨findWord_idem key, h0⟩
  · obtain ⟨key, c, c1, hmem, h2, _, _, h3⟩ := rebuild_child _ _ hr e' he'
    rw [hc'] at h2
    cases h2
    exact ih src hsrc _ hmem c rfl c' h3 n hn name hname

/-- C7 (counterexample): an object with the one property "a", whose value is
`null`.  No node is array-typed, the key is a legal identifier, no node is
malformed, and yet the pass ends the process: it dereferences the nil
child. -/
theorem Array2Object_fails_on_null_child :
    (∀ n ∈ nullProperty.nodes, n.Type_ ≠ str "array") ∧
    keys nullProperty.SubField = [str "a"] ∧ legalIdent (str "a") = true ∧
    keysStayDistinct nullProperty = true ∧ malformed nullProperty = false ∧
    Array2Object nullProperty = .error .nilPointer :=
  ⟨by decide, rfl, rfl, rfl, rfl, rfl⟩

/-- C7 (as the code has it): `Array2Object` on an array-typed node without
element descriptor fails (missing items); on a tree whose keys stay distinct
after sanitization at every visited node it fails if and only if some visited
node is array-typed without element descriptor, or has in the map renamed
there a key without any word character or a nil value; so on such a tree
without nil value in the visited maps it fails if and only if some visited
node is malformed. -/
theorem Array2Object_fails_iff (f : Field) :
    (f.Type_ = str "array" → f.Items = none → Array2Object f = .error .missingItems) ∧
    (keysStayDistinct f = true →
      ((∃ e, Array2Object f = .error e) ↔ (malformed f = true ∨ nullChild f = true))) ∧
    (keysStayDistinct f = true → nullChild f = false →
      ((∃ e, Array2Object f = .error e) ↔ malformed f = true)) := by
  have second : ∀ f, keysStayDistinct f = true →
      ((∃ e, Array2Object f = .error e) ↔ (malformed f = true ∨ nullChild f = true)) := by
    intro f
    refine visit_induction
      (fun f => keysStayDistinct f = true →
        ((∃ e, Array2Object f = .error e) ↔ (malformed f = true ∨ nullChild f = true))) ?_ f
    intro f ih hd
    rw [keysStayDistinct_iff] at hd
    rw [malformed_iff, nullChild_iff]
    have main : ∀ src, hoisted f = some src →
        ((∃ e, rebuild (Array2ObjectAll src) = .error e) ↔
          ((∃ e ∈ src, (∀ b ∈ e.1, isWord b = false) ∨
              ∃ c, e.2 = some c ∧ malformed c = true) ∨
            ∃ e ∈ src, e.2 = none ∨ ∃ c, e.2 = some c ∧ nullChild c = true)) := by
      intro src hsrc
      obtain ⟨hn, hall⟩ := hd src hsrc
      rw [rebuild_error_of_nodup src hn]
      constructor
      · rintro ⟨x, hx, h1 | h1⟩
        · exact Or.inl ⟨x, hx, Or.inl ((findWord_eq_nil_iff _).mp h1)⟩
        · rcases (Array2ObjectPtr_error_iff _).mp h1 with h2 | ⟨c, hc, h2⟩
          · exact Or.inr ⟨x, hx, Or.inl h2⟩
          · rcases (ih src hsrc x hx c hc (hall x hx c hc)).mp h2 with h3 | h3
            · exact Or.inl ⟨x, hx, Or.inr ⟨c, hc, h3⟩⟩
            · exact Or.inr ⟨x, hx, Or.inr ⟨c, hc, h3⟩⟩
      · rintro (⟨x, hx, h1 | ⟨c, hc, h1⟩⟩ | ⟨x, hx, h1 | ⟨c, hc, h1⟩⟩)
        · exact ⟨x, hx, Or.inl ((findWord_eq_nil_iff _).mpr h1)⟩
        · exact ⟨x, hx, Or.inr ((Array2ObjectPtr_error_iff _).mpr
            (Or.inr ⟨c, hc, (ih src hsrc x hx c hc (hall x hx c hc)).mpr (Or.inl h1)⟩))⟩
        · exact ⟨x, hx, Or.inr ((Array2ObjectPtr_error_iff _).mpr (Or.inl h1))⟩
        · exact ⟨x, hx, Or.inr ((Array2ObjectPtr_error_iff _).mpr
            (Or.inr ⟨c, hc, (ih src hsrc x hx c hc (hall x hx c hc)).mpr (Or.inr h1)⟩))⟩
    rcases Array2Object_cases f with ⟨_, _, h3, h4⟩ | ⟨I, _, _, h3, h4⟩ | ⟨_, h3, h4⟩
    · constructor
      · intro _; exact Or.inl (Or.inl h3)
      · intro _; exact ⟨_, h4⟩
    · rw [h4, h3]
      simp only [reduceCtorEq, false_or, Option.some.injEq, exists_eq_left']
      rw [← main _ h3]
      cases hr : rebuild (Array2ObjectAll I.SubField) with
      | error e => simp
      | ok children => simp
    · rw [h4, h3]
      simp only [reduceCtorEq, false_or, Option.some.injEq, exists_eq_left']
      rw [← main _ h3]
      cases hr : rebuild (Array2ObjectAll f.SubField) with
      | error e => simp
      | ok children => simp
  refine ⟨?_, second f, ?_⟩
  · intro hty hI
    rcases Array2Object_cases f with ⟨_, _, _, h4⟩ | ⟨I, _, h2, _, _⟩ | ⟨h1, _, _⟩
    · exact h4
    · rw [hI] at h2; cases h2
    · exact absurd hty h1
  · intro hd hnull
    rw [second f hd, hnull]
    simp

theorem TypeConvert_eq_ite (t : GoString) :
    TypeConvert t =
      if str "string" = t then .ok (str "string")
      else if str "array" = t then .ok (str "array")
      else if str "object" = t then .ok (str "object")
      else if str "number" = t then .ok (str "int")
      else if str "integer" = t then .ok (str "int")
      else if str "boolean" = t then .ok (str "bool")
      else .error (.unknownType t) := by
  have hget : mapGet YAPIType t =
      if str "string" = t then some (str "string")
      else if str "array" = t then some (str "array")
      else if str "object" = t then some (str "object")
      else if str "number" = t then some (str "int")
      else if str "integer" = t then some (str "int")
      else if str "boolean" = t then some (str "bool")
      else none := rfl
  unfold TypeConvert
  rw [hget]
  split_ifs <;> rfl

/-- C8: `TypeConvert` maps string, array, object, number, integer, boolean to
string, array, object, int, int, bool; it succeeds on these six names only, and
on every other name, such as "date" or the empty string, it ends the process
naming the type. -/
theorem TypeConvert_vocabulary (t : GoString) :
    TypeConvert (str "string") = .ok (str "string") ∧
    TypeConvert (str "array") = .ok (str "array") ∧
    TypeConvert (str "object") = .ok (str "object") ∧
    TypeConvert (str "number") = .ok (str "int") ∧
    TypeConvert (str "integer") = .ok (str "int") ∧
    TypeConvert (str "boolean") = .ok (str "bool") ∧
    ((∃ r, TypeConvert t = .ok r) ↔
      t ∈ [str "string", str "array", str "object", str "number", str "integer",
           str "boolean"]) ∧
    (TypeConvert t = .error (.unknownType t) ↔
      t ∉ [str "string", str "array", str "object", str "number", str "integer",
           str "boolean"]) ∧
    TypeConvert (str "date") = .error (.unknownType (str "date")) ∧
    TypeConvert (str "") = .error (.unknownType (str "")) := by
  refine ⟨rfl, rfl, rfl, rfl, rfl, rfl, ?_, ?_, rfl, rfl⟩
  · rw [TypeConvert_eq_ite]
    split_ifs with h1 h2 h3 h4 h5 h6
    · exact ⟨fun _ => by rw [← h1]; decide, fun _ => ⟨_, rfl⟩⟩
    · exact ⟨fun _ => by rw [← h2]; decide, fun _ => ⟨_, rfl⟩⟩
    · exact ⟨fun _ => by rw [← h3]; decide, fun _ => ⟨_, rfl⟩⟩
    · exact ⟨fun _ => by rw [← h4]; decide, fun _ => ⟨_, rfl⟩⟩
    · exact ⟨fun _ => by rw [← h5]; decide, fun _ => ⟨_, rfl⟩⟩
    · exact ⟨fun _ => by rw [← h6]; decide, fun _ => ⟨_, rfl⟩⟩
    · constructor
      · rintro ⟨r, hr⟩; cases hr
      · intro hmem
        simp only [List.mem_cons, List.mem_singleton, List.not_mem_nil, or_false] at hmem
        rcases hmem with h | h | h | h | h | h
        · exact absurd h.symm h1
        · exact absurd h.symm h2
        · exact absurd h.symm h3
        · exact absurd h.symm h4
        · exact absurd h.symm h5
        · exact absurd h.symm h6
  · rw [TypeConvert_eq_ite]
    split_ifs with h1 h2 h3 h4 h5 h6
    · exact ⟨fun h => (by cases h), fun h => absurd (by rw [← h1]; decide) h⟩
    · exact ⟨fun h => (by cases h), fun h => absurd (by rw [← h2]; decide) h⟩
    · exact ⟨fun h => (by cases h), fun h => absurd (by rw [← h3]; decide) h⟩
    · exact ⟨fun h => (by cases h), fun h => absurd (by rw [← h4]; decide) h⟩
    · exact ⟨fun h => (by cases h), fun h => absurd (by rw [← h5]; decide) h⟩
    · exact ⟨fun h => (by cases h), fun h => absurd (by rw [← h6]; decide) h⟩
    · refine ⟨fun _ => ?_, fun _ => rfl⟩
      simp only [List.mem_cons, List.mem_singleton, List.not_mem_nil, or_false, not_or]
      exact ⟨fun h => h1 h.symm, fun h => h2 h.symm, fun h => h3 h.symm,
        fun h => h4 h.symm, fun h => h5 h.symm, fun h => h6 h.symm⟩

/-- C9: on a text with at least one word character `FilterRune` returns the
leftmost maximal run of word characters: the result is non-empty, made of word
characters only, and the text is a part without word character, then the
result, then a rest that is empty or starts with a non-word character. -/
theorem FilterRune_leftmost_run (text : GoString) (h : ∃ b ∈ text, isWord b = true) :
    ∃ r pre post, FilterRune text = .ok r ∧ r ≠ [] ∧ (∀ b ∈ r, isWord b = true) ∧
      text = pre ++ r ++ post ∧ (∀ b ∈ pre, isWord b = false) ∧
      (post = [] ∨ ∃ b rest, post = b :: rest ∧ isWord b = false) := by
  have hne : findWord text ≠ [] := by
    intro h0
    obtain ⟨b, hb, hw⟩ := h
    rw [(findWord_eq_nil_iff text).mp h0 b hb] at hw
    cases hw
  refine ⟨findWord text, text.takeWhile (fun b => !isWord b),
    (text.dropWhile fun b => !isWord b).dropWhile isWord,
    (FilterRune_ok_iff _ _).mpr ⟨rfl, hne⟩, hne, fun b hb => findWord_word b hb, ?_, ?_, ?_⟩
  · unfold findWord
    rw [List.append_assoc, List.takeWhile_append_dropWhile, List.takeWhile_append_dropWhile]
  · intro b hb
    have := List.mem_takeWhile_imp hb
    simpa using this
  · cases hd : List.dropWhile isWord (text.dropWhile fun b => !isWord b) with
    | nil => exact Or.inl rfl
    | cons b rest =>
      refine Or.inr ⟨b, rest, rfl, ?_⟩
      have h1 := List.head_dropWhile_not isWord (text.dropWhile fun b => !isWord b)
        (by rw [hd]; simp)
      simpa [hd] using h1

/-- C10: `FilterRune` ends the process, naming the text, exactly when the text
has no word character, as the empty string, a fully symbolic name and a
whitespace-only name have none; on every other text it succeeds. -/
theorem FilterRune_fails_iff (text : GoString) :
    ((∃ e, FilterRune text = .error e) ↔ ∀ b ∈ text, isWord b = false) ∧
    (FilterRune text = .error (.illegalName text) ↔ ∀ b ∈ text, isWord b = false) ∧
    ((∃ r, FilterRune text = .ok r) ↔ ∃ b ∈ text, isWord b = true) ∧
    FilterRune (str "") = .error (.illegalName (str "")) ∧
    FilterRune (str "*-$") = .error (.illegalName (str "*-$")) ∧
    FilterRune (str " \t ") = .error (.illegalName (str " \t ")) := by
  refine ⟨?_, ?_, ?_, rfl, rfl, rfl⟩
  · rw [← findWord_eq_nil_iff]
    constructor
    · rintro ⟨e, he⟩
      exact ((FilterRune_error_iff _ _).mp he).1
    · intro h0
      exact ⟨_, (FilterRune_error_iff _ _).mpr ⟨h0, rfl⟩⟩
  · rw [← findWord_eq_nil_iff, FilterRune_error_iff]
    simp
  · constructor
    · rintro ⟨r, hr⟩
      obtain ⟨h1, h2⟩ := (FilterRune_ok_iff _ _).mp hr
      by_contra hne
      apply h2
      rw [← h1, findWord_eq_nil_iff]
      intro b hb
      cases hw : isWord b with
      | false => rfl
      | true => exact absurd ⟨b, hb, hw⟩ hne
    · rintro ⟨b, hb, hw⟩
      refine ⟨findWord text, (FilterRune_ok_iff _ _).mpr ⟨rfl, ?_⟩⟩
      intro h0
      rw [(findWord_eq_nil_iff text).mp h0 b hb] at hw
      cases hw

/-- C4 (as the code has it): after a successful pass on a root, every
array-typed node reached from the root through children maps has an element
descriptor, the required list and the description of that descriptor, holds
as children nodes the descriptor holds (each under the sanitized form of the
descriptor's key), and has a child name for every key of the descriptor. -/
theorem Array2Object_hoists_at_visited_nodes (f g : Field) (h : Array2Object f = .ok g) :
    ∀ n ∈ g.nodes, n.Type_ = str "array" →
      ∃ I, n.Items = some I ∧ n.Required = I.Required ∧ n.Description = I.Description ∧
        (∀ e ∈ n.SubField, ∃ key, (key, e.2) ∈ I.SubField ∧ FilterRune key = .ok e.1) ∧
        (∀ x ∈ I.SubField, ∃ name ∈ keys n.SubField, FilterRune x.1 = .ok name) := by
  revert g
  refine visit_induction
    (fun f => ∀ g, Array2Object f = .ok g → ∀ n ∈ g.nodes, n.Type_ = str "array" →
      ∃ I, n.Items = some I ∧ n.Required = I.Required ∧ n.Description = I.Description ∧
        (∀ e ∈ n.SubField, ∃ key, (key, e.2) ∈ I.SubField ∧ FilterRune key = .ok e.1) ∧
        (∀ x ∈ I.SubField, ∃ name ∈ keys n.SubField, FilterRune x.1 = .ok name)) ?_ f
  intro f ih g h n hn hty
  have below : ∀ src children, hoisted f = some src →
      rebuild (Array2ObjectAll src) = .ok children → g.SubField = children →
      n ∈ nodesAll g.SubField →
      ∃ I, n.Items = some I ∧ n.Required = I.Required ∧ n.Description = I.Description ∧
        (∀ e ∈ n.SubField, ∃ key, (key, e.2) ∈ I.SubField ∧ FilterRune key = .ok e.1) ∧
        (∀ x ∈ I.SubField, ∃ name ∈ keys n.SubField, FilterRune x.1 = .ok name) := by
    intro src children hsrc hr hg hn'
    obtain ⟨e', he', c', hc', hn''⟩ := (mem_nodesAll _ _).mp hn'
    rw [hg] at he'
    obtain ⟨key, c, c1, hmem, h2, _, _, h3⟩ := rebuild_child _ _ hr e' he'
    rw [hc'] at h2
    cases h2
    exact ih src hsrc _ hmem c rfl c' h3 n hn'' hty
  rw [nodes_eq, List.mem_cons] at hn
  rcases Array2Object_cases f with ⟨_, _, _, h4⟩ | ⟨I, h1, h2, h3, h4⟩ | ⟨h1, h3, h4⟩
  · rw [h4] at h; cases h
  · rcases hn with rfl | hn
    · obtain ⟨a1, a2, a3, _, _, I', b1, _, _, b4, b5, b6, _, b8⟩ := array_spec f I n h1 h2 h
      refine ⟨I', b1, by rw [a1, b5], by rw [a2, b4], b8, ?_⟩
      intro x hx
      have hk : x.1 ∈ keys I.SubField := by
        rw [← b6]
        exact List.mem_map_of_mem Prod.fst hx
      by_cases hne : findWord x.1 = []
      · rw [h4] at h
        cases hr : rebuild (Array2ObjectAll I.SubField) with
        | error e => rw [hr] at h; cases h
        | ok children =>
          obtain ⟨e, he, hek⟩ := List.mem_map.mp hk
          have := ((rebuild_spec _ _ hr).2.2 e he).1
          rw [hek] at this
          exact absurd hne this
      · have hf : FilterRune x.1 = .ok (findWord x.1) := (FilterRune_ok_iff _ _).mpr ⟨rfl, hne⟩
        exact ⟨findWord x.1, (a3 _).mpr ⟨x.1, hk, hf⟩, hf⟩
    · rw [h4] at h
      cases hr : rebuild (Array2ObjectAll I.SubField) with
      | error e => rw [hr] at h; cases h
      | ok children =>
        rw [hr] at h
        simp only [Except.ok.injEq] at h
        exact below _ children h3 hr (by rw [← h]) hn
  · rw [h4] at h
    cases hr : rebuild (Array2ObjectAll f.SubField) with
    | error e => rw [hr] at h; cases h
    | ok children =>
      rw [hr] at h
      simp only [Except.ok.injEq] at h
      rcases hn with rfl | hn
      · rw [← h] at hty
        exact absurd hty h1
      · exact below _ children h3 hr (by rw [← h]) hn

/-- C5 (as the code has it): on a tree without array-typed node among the nodes
reached through children maps, and whose keys stay distinct after
sanitization at every node, a successful pass changes nothing except the child
keys: at every node type, element descriptor, description and required list
are unchanged and each child is kept under the key `FilterRune` gives for its
key; and when moreover no children map holds a nil value and every key is a
legal identifier the pass succeeds and returns the input tree. -/
theorem Array2Object_without_arrays (f : Field)
    (hna : ∀ n ∈ f.nodes, n.Type_ ≠ str "array") (hd : keysStayDistinct f = true) :
    (∀ g, Array2Object f = .ok g → renamedOnly f g) ∧
    ((∀ n ∈ f.nodes, ∀ e ∈ n.SubField, e.2.isSome = true) →
      (∀ n ∈ f.nodes, ∀ name ∈ keys n.SubField, legalIdent name = true) →
      Array2Object f = .ok f) := by
  revert hna hd
  refine visit_induction
    (fun f => (∀ n ∈ f.nodes, n.Type_ ≠ str "array") → keysStayDistinct f = true →
      (∀ g, Array2Object f = .ok g → renamedOnly f g) ∧
      ((∀ n ∈ f.nodes, ∀ e ∈ n.SubField, e.2.isSome = true) →
        (∀ n ∈ f.nodes, ∀ name ∈ keys n.SubField, legalIdent name = true) →
        Array2Object f = .ok f)) ?_ f
  intro f ih hna hd
  rcases Array2Object_cases f with ⟨h1, _, _, _⟩ | ⟨I, h1, _, _, _⟩ | ⟨_, h3, h4⟩
  · exact absurd h1 (hna f (mem_nodes_self f))
  · exact absurd h1 (hna f (mem_nodes_self f))
  · obtain ⟨hnd, hdc⟩ := (keysStayDistinct_iff f).mp hd _ h3
    have ihc : ∀ e ∈ f.SubField, ∀ c, e.2 = some c →
        (∀ g, Array2Object c = .ok g → renamedOnly c g) ∧
        ((∀ n ∈ c.nodes, ∀ e ∈ n.SubField, e.2.isSome = true) →
          (∀ n ∈ c.nodes, ∀ name ∈ keys n.SubField, legalIdent name = true) →
          Array2Object c = .ok c) := fun e he c hc =>
      ih _ h3 e he c hc (fun n hn => hna n (mem_nodes_of_child f e he c hc n hn))
        (hdc e he c hc)
    constructor
    · intro g hg
      rw [h4] at hg
      cases hr : rebuild (Array2ObjectAll f.SubField) with
      | error e => rw [hr] at hg; cases hg
      | ok children =>
        rw [hr] at hg
        simp only [Except.ok.injEq] at hg
        subst hg
        rw [renamedOnly_iff]
        refine ⟨rfl, rfl, rfl, rfl, ?_⟩
        rw [renamedOnlyAll_iff]
        refine forall₂_imp_mem ((rebuild_forall₂ _ hnd children).mp hr) ?_
        rintro a ha b _ ⟨hab1, hab2⟩
        obtain ⟨c, c', h5, h6, h7⟩ := (Array2ObjectPtr_ok_iff _ _).mp hab2
        exact ⟨hab1, Or.inr ⟨c, c', h5, h6, (ihc a ha c h5).1 c' h7⟩⟩
    · intro hpresent hlegal
      have hr : rebuild (Array2ObjectAll f.SubField) = .ok f.SubField := by
        rw [rebuild_forall₂ _ hnd, List.forall₂_same]
        intro e he
        obtain ⟨c, hc⟩ := Option.isSome_iff_exists.mp (hpresent f (mem_nodes_self f) e he)
        refine ⟨FilterRune_of_legal _ ?_, ?_⟩
        · exact hlegal f (mem_nodes_self f) e.1 (List.mem_map_of_mem Prod.fst he)
        · rw [hc]
          refine (Array2ObjectPtr_ok_iff _ _).mpr ⟨c, c, rfl, rfl, (ihc e he c hc).2 ?_ ?_⟩
          · intro n hn
            exact hpresent n (mem_nodes_of_child f e he c hc n hn)
          · intro n hn
            exact hlegal n (mem_nodes_of_child f e he c hc n hn)
      rw [h4, hr]
      cases f
      rfl

/-- Idempotence of the pass for a fixed visiting order, and distinctness of
the keys of the result. -/
theorem idempotent_aux (f : Field) :
    descriptorKeysDistinct f = true → ∀ g, Array2Object f = .ok g →
      Array2Object g = .ok g ∧ keysStayDistinct g = true := by
  refine visit_induction
    (fun f => descriptorKeysDistinct f = true → ∀ g, Array2Object f = .ok g →
      Array2Object g = .ok g ∧ keysStayDistinct g = true) ?_ f
  intro f ih hd g hg
  -- what one pass gives and what a second pass does on the children
  have children_fixed : ∀ src children, hoisted f = some src →
      rebuild (Array2ObjectAll src) = .ok children →
      (children.map fun e => findWord e.1).Nodup ∧
      rebuild (Array2ObjectAll children) = .ok children ∧
      (∀ e' ∈ children, ∀ c, e'.2 = some c → keysStayDistinct c = true) ∧
      (∀ e' ∈ children, Array2ObjectPtr e'.2 = .ok e'.2) := by
    intro src children hsrc hr
    obtain ⟨_, hdc⟩ := (descriptorKeysDistinct_iff f).mp hd _ hsrc
    obtain ⟨s1, _, _⟩ := rebuild_spec _ _ hr
    have hfix : ∀ e' ∈ children,
        findWord e'.1 = e'.1 ∧ FilterRune e'.1 = .ok e'.1 ∧
          Array2ObjectPtr e'.2 = .ok e'.2 ∧ ∀ c, e'.2 = some c → keysStayDistinct c = true := by
      intro e' he'
      obtain ⟨key, c, c', hmem, h2, hk, hne, h3⟩ := rebuild_child _ _ hr e' he'
      obtain ⟨h5, h6⟩ := ih src hsrc _ hmem c rfl (hdc _ hmem c rfl) c' h3
      have hw : findWord e'.1 = e'.1 := by rw [← hk, findWord_idem]
      refine ⟨hw, (FilterRune_ok_iff _ _).mpr ⟨hw, hk ▸ hne⟩, ?_, ?_⟩
      · rw [h2]
        exact (Array2ObjectPtr_ok_iff _ _).mpr ⟨c', c', rfl, rfl, h5⟩
      · intro c1 hc1
        rw [h2] at hc1
        cases hc1
        exact h6
    have hkeys : (children.map fun e => findWord e.1) = keys children := by
      apply List.map_congr_left
      intro e' he'
      exact (hfix e' he').1
    have hnd' : (children.map fun e => findWord e.1).Nodup := by rw [hkeys]; exact s1
    refine ⟨hnd', ?_, fun e' he' => (hfix e' he').2.2.2, fun e' he' => (hfix e' he').2.2.1⟩
    rw [rebuild_forall₂ _ hnd', List.forall₂_same]
    exact fun e' he' => ⟨(hfix e' he').2.1, (hfix e' he').2.2.1⟩
  rcases Array2Object_cases f with ⟨_, _, _, h4⟩ | ⟨I, h1, h2, h3, h4⟩ | ⟨h1, h3, h4⟩
  · rw [h4] at hg; cases hg
  · rw [h4] at hg
    cases hr : rebuild (Array2ObjectAll I.SubField) with
    | error e => rw [hr] at hg; cases hg
    | ok children =>
      rw [hr] at hg
      simp only [Except.ok.injEq] at hg
      obtain ⟨hnd', hr', hdc', hfix'⟩ := children_fixed _ children h3 hr
      obtain ⟨hnd0, hdc⟩ := (descriptorKeysDistinct_iff f).mp hd _ h3
      have hnd := hnd0 h1
      have hF := (rebuild_forall₂ _ hnd children).mp hr
      have hall : ∀ e ∈ I.SubField, ∃ c', Array2ObjectPtr e.2 = .ok c' := by
        intro e he
        obtain ⟨b, _, _, hb⟩ := forall₂_mem_left hF e he
        exact ⟨b.2, hb⟩
      have hD := descriptor_forall₂ _ hnd hall
      -- the descriptor's children: same keys, the normalized nodes
      have hdkeys : ((descriptorChildren (Array2ObjectAll I.SubField)).map
          fun e => findWord e.1) = I.SubField.map fun e => findWord e.1 := by
        symm
        rw [map_eq_map_iff_forall₂]
        refine hD.imp ?_
        rintro a b ⟨hb, _⟩
        rw [hb]
      have hdnd : ((descriptorChildren (Array2ObjectAll I.SubField)).map
          fun e => findWord e.1).Nodup := by rw [hdkeys]; exact hnd
      have hJ := forall₂_join hD hF
      have hdfix : ∀ x ∈ descriptorChildren (Array2ObjectAll I.SubField),
          Array2ObjectPtr x.2 = .ok x.2 ∧ ∀ c, x.2 = some c → keysStayDistinct c = true := by
        intro x hx
        obtain ⟨e, he, _, hx2⟩ := forall₂_mem_right hD x hx
        obtain ⟨c, c', h5, h6, h7⟩ := (Array2ObjectPtr_ok_iff _ _).mp hx2
        obtain ⟨h8, h9⟩ := ih _ h3 e he c h5 (hdc e he c h5) c' h7
        refine ⟨?_, ?_⟩
        · rw [h6]
          exact (Array2ObjectPtr_ok_iff _ _).mpr ⟨c', c', rfl, rfl, h8⟩
        · intro c1 hc1
          rw [h6] at hc1
          cases hc1
          exact h9
      have hr2 : rebuild (Array2ObjectAll (descriptorChildren (Array2ObjectAll I.SubField))) =
          .ok children := by
        rw [rebuild_forall₂ _ hdnd]
        refine forall₂_imp_mem hJ ?_
        rintro x hx y hy ⟨a, _, ⟨hx1, hx2⟩, hy1, hy2⟩
        have hxy : x.2 = y.2 := by
          rw [hx2] at hy2
          exact Except.ok.inj hy2
        refine ⟨by rw [hx1]; exact hy1, ?_⟩
        rw [hxy]
        exact hfix' y hy
      have hgT : g.Type_ = str "array" := by rw [← hg]; exact h1
      subst hg
      constructor
      · rcases Array2Object_cases
          (⟨f.Type_, some ⟨I.Type_, I.Items, descriptorChildren (Array2ObjectAll I.SubField),
            I.Description, I.Required⟩, children, I.Description, I.Required⟩ : Field) with
          ⟨_, k2, _, _⟩ | ⟨J, _, k2, _, k4⟩ | ⟨k1, _, _⟩
        · cases k2
        · simp only [Option.some.injEq] at k2
          subst k2
          rw [k4]
          simp only
          rw [hr2]
          simp only
          rw [descriptor_fixed _ hdnd fun x hx => (hdfix x hx).1]
        · exact absurd hgT k1
      · rw [keysStayDistinct_iff]
        intro src hsrc
        simp only [hoisted, h1, if_true, Option.map_some', Option.some.injEq] at hsrc
        subst hsrc
        exact ⟨hdnd, fun x hx => (hdfix x hx).2⟩
  · rw [h4] at hg
    cases hr : rebuild (Array2ObjectAll f.SubField) with
    | error e => rw [hr] at hg; cases hg
    | ok children =>
      rw [hr] at hg
      simp only [Except.ok.injEq] at hg
      obtain ⟨hnd', hr', hdc', _⟩ := children_fixed _ children h3 hr
      subst hg
      constructor
      · rcases Array2Object_cases
          (⟨f.Type_, f.Items, children, f.Description, f.Required⟩ : Field) with
          ⟨k1, _, _, _⟩ | ⟨J, k1, _, _, _⟩ | ⟨_, _, k4⟩
        · exact absurd k1 h1
        · exact absurd k1 h1
        · rw [k4]
          simp only
          rw [hr']
      · rw [keysStayDistinct_iff]
        intro src hsrc
        simp only [hoisted, h1, if_false, Option.some.injEq] at hsrc
        subst hsrc
        exact ⟨hnd', hdc'⟩

theorem sameTree_refl (f : Field) : sameTree f f := by
  refine @Field.rec (fun f => sameTree f f) (fun o => sameItems o o) (fun l => sameMap l l)
    (fun p => sameItems p.2 p.2) ?_ ?_ ?_ ?_ ?_ ?_ f
  · intro ty items sub desc req h1 h2
    rw [sameTree_iff]
    exact ⟨rfl, h1, h2, rfl, rfl⟩
  · exact (sameItems_none _).mpr rfl
  · intro val h
    exact (sameItems_some _ _).mpr ⟨val, rfl, h⟩
  · exact (sameMap_nil _).mpr rfl
  · intro head tail h1 h2
    obtain ⟨key, c⟩ := head
    exact (sameMap_cons _ _ _ _).mpr ⟨c, [], tail, rfl, h1, h2⟩
  · intro k o h
    exact h

theorem sameItems_refl (o : Option Field) : sameItems o o := by
  cases o with
  | none => exact (sameItems_none _).mpr rfl
  | some a => exact (sameItems_some _ _).mpr ⟨a, rfl, sameTree_refl a⟩

theorem sameMap_refl (l : List (GoString × Option Field)) : sameMap l l :=
  ((sameTree_iff _ _).mp (sameTree_refl ⟨[], none, l, [], []⟩)).2.2.1

/-- C1 (the code at the failing input): the body of scenario 1 is left as it
is by the pass and lists "id" as required, yet its rendering tags the field
with the json name only; the marker is decided by the required list of the
child itself, as the rendering of a body shows whose child "id" lists "id" and
whose own required list is empty. -/
theorem generateStruct_required_marker :
    Array2Object scenario1 = .ok scenario1 ∧
    scenario1.IsRequired (str "id") = true ∧
    generateStruct scenario1 =
      .ok (str "struct \x7b\n\t\tId  int`json:\"id\"` // \n\t\x7d") ∧
    Array2Object requiredByChild = .ok requiredByChild ∧
    requiredByChild.IsRequired (str "id") = false ∧
    generateStruct requiredByChild =
      .ok (str ("struct \x7b\n\t\tId \tstruct \x7b\n\t\x7d " ++
        "`json:\"id\" binding:\"required\"` // \n\t\x7d")) := by
  refine ⟨rfl, rfl, ?_, rfl, rfl, ?_⟩
  · set_option maxRecDepth 4000 in rfl
  · set_option maxRecDepth 8000 in rfl

/-- C2 (counterexample): an array whose element descriptor has the keys "a"
and "* a".  The first pass succeeds and keeps under "a" the child visited
last; the same tree, with the map of the descriptor visited in the other order
by the second pass, is normalized to a tree with the other child under "a",
which is not the tree the first pass gave. -/
theorem Array2Object_not_idempotent_on_collision :
    Array2Object clash = .ok clashOnce ∧
    sameTree clashOnce clashOnceReordered ∧
    Array2Object clashOnceReordered = .ok clashTwice ∧
    ¬ sameTree clashOnce clashTwice := by
  refine ⟨rfl, ?_, rfl, ?_⟩
  · rw [sameTree_iff]
    refine ⟨rfl, ?_, sameMap_refl _, rfl, rfl⟩
    refine (sameItems_some _ _).mpr ⟨_, rfl, ?_⟩
    rw [sameTree_iff]
    refine ⟨rfl, (sameItems_none _).mpr rfl, ?_, rfl, rfl⟩
    refine (sameMap_cons _ _ _ _).mpr
      ⟨some (primitive "string"), [(str "* a", some (primitive "integer"))], [], rfl,
        sameItems_refl _, ?_⟩
    exact sameMap_refl _
  · intro h
    have h1 : sameMap [(str "a", some (primitive "integer"))]
        [(str "a", some (primitive "string"))] :=
      ((sameTree_iff _ _).mp h).2.2.1
    rw [sameMap_cons] at h1
    obtain ⟨c', l1, l2, h2, h3, _⟩ := h1
    cases l1 with
    | nil =>
      simp only [List.nil_append, List.cons.injEq, Prod.mk.injEq] at h2
      rw [← h2.1.2] at h3
      obtain ⟨b, hb, h5⟩ := (sameItems_some _ _).mp h3
      cases hb
      have h4 := ((sameTree_iff _ _).mp h5).1
      revert h4
      decide
    | cons x l1 =>
      simp only [List.cons_append, List.cons.injEq] at h2
      have := h2.2
      cases l1 <;> simp at this

/-- C2 (as the code has it): on a tree in which the keys of the element
descriptor of every visited array-typed node stay distinct after sanitization,
when the pass succeeds a second pass on the result succeeds and returns the
same tree; and this holds whatever the order in which the second pass visits
the maps: on the result listed in any other order it succeeds and returns the
same tree up to the order. -/
theorem Array2Object_idempotent (f g : Field) (hd : descriptorKeysDistinct f = true)
    (h : Array2Object f = .ok g) :
    Array2Object g = .ok g ∧
    ∀ g', sameTree g g' → ∃ g'', Array2Object g' = .ok g'' ∧ sameTree g g'' := by
  obtain ⟨h1, h2⟩ := idempotent_aux f hd g h
  exact ⟨h1, fun g' hg' => sameTree_normalized g h2 g g' h1 hg'⟩

/-- Witness of C2: an array with a decorated key, and an object two keys of
which collide. -/
theorem Array2Object_idempotent_witness :
    descriptorKeysDistinct decorated = true ∧
    Array2Object decorated = .ok decoratedAfter ∧
    Array2Object decoratedAfter = .ok decoratedAfter ∧
    descriptorKeysDistinct twoKeys = true ∧
    Array2Object twoKeys = .ok twoKeysAfter ∧
    Array2Object twoKeysAfter = .ok twoKeysAfter :=
  ⟨rfl, rfl, (Array2Object_idempotent decorated decoratedAfter rfl rfl).1,
    rfl, rfl, (Array2Object_idempotent twoKeys twoKeysAfter rfl rfl).1⟩

/-- Witness of C3 on the array `decorated`. -/
theorem Array2Object_hoists_witness :
    decorated.Type_ = str "array" ∧ Array2Object decorated = .ok decoratedAfter ∧
    decoratedAfter.Required = [str "id"] ∧ decoratedAfter.Description = str "node" :=
  ⟨rfl, rfl,
    (Array2Object_hoists decorated _ decoratedAfter rfl rfl rfl).1,
    (Array2Object_hoists decorated _ decoratedAfter rfl rfl rfl).2.1⟩

/-- C4 (counterexample): on an array of arrays of objects the pass succeeds
and changes nothing: the root adopts the empty children map of the inner
array, the inner array, being an element descriptor, is not visited and keeps
no children although its own descriptor has the key "x", and the root is the
only node reached through children maps. -/
theorem Array2Object_nested_arrays_not_hoisted :
    Array2Object nestedArrays = .ok nestedArrays ∧
    nestedArrays.SubField = [] ∧
    nestedArrays.nodes.map Field.Type_ = [str "array"] ∧
    ∃ I J, nestedArrays.Items = some I ∧ I.Type_ = str "array" ∧ I.Items = some J ∧
      I.SubField = [] ∧ keys J.SubField = [str "x"] :=
  ⟨rfl, rfl, rfl, _, _, rfl, rfl, rfl, rfl, rfl⟩

/-- Witness of C4 on the array `nestedDecorated`. -/
theorem Array2Object_hoists_at_visited_nodes_witness :
    Array2Object nestedDecorated = .ok nestedDecoratedAfter ∧
    ∃ I, nestedDecoratedAfter.Items = some I ∧
      nestedDecoratedAfter.Required = I.Required ∧
      nestedDecoratedAfter.Description = I.Description := by
  obtain ⟨I, h1, h2, h3, _⟩ :=
    Array2Object_hoists_at_visited_nodes nestedDecorated nestedDecoratedAfter rfl
      nestedDecoratedAfter (mem_nodes_self _) rfl
  exact ⟨rfl, I, h1, h2, h3⟩

/-- C5 (counterexample): an object without any array-typed node whose keys "a"
and "* a" sanitize to the same name.  The pass succeeds and leaves one child:
the other one is not kept under the sanitized form of its key.  And on an
object without any array-typed node whose one key "a" is a legal identifier
and has the value `null`, the pass does not return the input tree: it ends the
process on the nil child. -/
theorem Array2Object_drops_child_on_collision :
    (∀ n ∈ twoKeys.nodes, n.Type_ ≠ str "array") ∧
    Array2Object twoKeys = .ok twoKeysAfter ∧
    twoKeys.SubField.length = 2 ∧ twoKeysAfter.SubField.length = 1 ∧
    ¬ renamedOnly twoKeys twoKeysAfter ∧
    (∀ n ∈ nullProperty.nodes, n.Type_ ≠ str "array") ∧
    (∀ n ∈ nullProperty.nodes, ∀ name ∈ keys n.SubField, legalIdent name = true) ∧
    Array2Object nullProperty = .error .nilPointer := by
  refine ⟨by decide, rfl, rfl, rfl, ?_, by decide, by decide, rfl⟩
  intro h
  have h1 := ((renamedOnly_iff _ _).mp h).2.2.2.2
  rw [renamedOnlyAll_iff] at h1
  have := h1.length_eq
  revert this
  decide

/-- Witness of C5 on the object `plainObject`, whose keys are legal. -/
theorem Array2Object_without_arrays_witness :
    (∀ n ∈ plainObject.nodes, n.Type_ ≠ str "array") ∧
    keysStayDistinct plainObject = true ∧
    (∀ n ∈ plainObject.nodes, ∀ e ∈ n.SubField, e.2.isSome = true) ∧
    Array2Object plainObject = .ok plainObject :=
  ⟨by decide, rfl, by decide,
    (Array2Object_without_arrays plainObject (by decide) rfl).2 (by decide) (by decide)⟩

/-- Witness of C6 on the array `decorated`. -/
theorem Array2Object_keys_sanitized_witness :
    Array2Object decorated = .ok decoratedAfter ∧
    FilterRune (str "nodeNetwork") = .ok (str "nodeNetwork") :=
  ⟨rfl,
    ((Array2Object_keys_sanitized decorated decoratedAfter rfl).1 decoratedAfter
      (mem_nodes_self _) (str "nodeNetwork") (by decide)).2.2⟩

/-- Witness of C7: an array without element descriptor, alone and as a child. -/
theorem Array2Object_fails_iff_witness :
    arrayWithoutItems.Type_ = str "array" ∧ arrayWithoutItems.Items = none ∧
    Array2Object arrayWithoutItems = .error .missingItems ∧
    keysStayDistinct objectWithBadArray = true ∧ nullChild objectWithBadArray = false ∧
    ((∃ e, Array2Object objectWithBadArray = .error e) ↔
      malformed objectWithBadArray = true) ∧
    keysStayDistinct nullProperty = true ∧
    ((∃ e, Array2Object nullProperty = .error e) ↔
      (malformed nullProperty = true ∨ nullChild nullProperty = true)) :=
  ⟨rfl, rfl, (Array2Object_fails_iff arrayWithoutItems).1 rfl rfl, rfl, rfl,
    (Array2Object_fails_iff objectWithBadArray).2.2 rfl rfl, rfl,
    (Array2Object_fails_iff nullProperty).2.1 rfl⟩

/-- Witness of C9 on the key "* nodeNetwork". -/
theorem FilterRune_leftmost_run_witness :
    (∃ b ∈ str "* nodeNetwork", isWord b = true) ∧
    ∃ r pre post, FilterRune (str "* nodeNetwork") = .ok r ∧ r ≠ [] ∧
      (∀ b ∈ r, isWord b = true) ∧ str "* nodeNetwork" = pre ++ r ++ post ∧
      (∀ b ∈ pre, isWord b = false) ∧
      (post = [] ∨ ∃ b rest, post = b :: rest ∧ isWord b = false) :=
  ⟨⟨110, by decide, rfl⟩, FilterRune_leftmost_run _ ⟨110, by decide, rfl⟩⟩

/-! ## Sanitizer, capitalization and the declaration names -/

/-- C11: `FilterRune` is idempotent: when it succeeds on a text, it succeeds on
its result and returns it unchanged; and it returns every legal identifier
(non-empty, only ASCII letters, digits and underscore) as it is. -/
theorem FilterRune_idempotent (x : GoString) :
    (∀ r, FilterRune x = .ok r → FilterRune r = .ok r) ∧
    (legalIdent x = true → FilterRune x = .ok x) := by
  constructor
  · intro r hr
    obtain ⟨h1, h2⟩ := (FilterRune_ok_iff _ _).mp hr
    refine (FilterRune_ok_iff _ _).mpr ⟨?_, h2⟩
    rw [← h1, findWord_idem]
  · exact FilterRune_of_legal x

/-- Witness of C11 on the key "* nodeNetwork" and on its sanitized form. -/
theorem FilterRune_idempotent_witness :
    FilterRune (str "* nodeNetwork") = .ok (str "nodeNetwork") ∧
    FilterRune (str "nodeNetwork") = .ok (str "nodeNetwork") ∧
    legalIdent (str "node_1") = true ∧ FilterRune (str "node_1") = .ok (str "node_1") :=
  ⟨rfl, (FilterRune_idempotent (str "* nodeNetwork")).1 _ rfl, rfl,
    (FilterRune_idempotent (str "node_1")).2 rfl⟩

theorem UpperFirst_ascii (b : Nat) (rest : GoString) (hb : b < 128) :
    UpperFirst (b :: rest) = (if 97 ≤ b ∧ b ≤ 122 then b - 32 else b) :: rest := by
  unfold UpperFirst unicodeToUpper utf8EncodeRune
  by_cases h1 : 97 ≤ b ∧ b ≤ 122
  · have h2 : b - 32 < 128 := by omega
    simp [h1, h2]
  · have h3 : ¬ b = 181 := by omega
    have h4 : ¬ ((224 ≤ b ∧ b ≤ 246) ∨ (248 ≤ b ∧ b ≤ 254)) := by omega
    have h5 : ¬ b = 255 := by omega
    simp [h1, h3, h4, h5, hb]

/-- C12: `UpperFirst` of the empty string is the empty string; on a non-empty
string whose first byte is ASCII it keeps the length, replaces the first byte
by its upper-case form (a lower-case letter moves to the upper-case one, any
other byte stays) and keeps the rest.  The key "* nodeNetwork" sanitizes to
"nodeNetwork", which is capitalized to "NodeNetwork" and rendered so. -/
theorem UpperFirst_capitalizes (b : Nat) (rest : GoString) :
    UpperFirst (str "") = str "" ∧
    (b < 128 →
      (UpperFirst (b :: rest)).length = (b :: rest).length ∧
      UpperFirst (b :: rest) = (if 97 ≤ b ∧ b ≤ 122 then b - 32 else b) :: rest) ∧
    FilterRune (str "* nodeNetwork") = .ok (str "nodeNetwork") ∧
    UpperFirst (str "nodeNetwork") = str "NodeNetwork" ∧
    Array2Object decorated = .ok decoratedAfter ∧
    generateStruct decoratedAfter =
      .ok (str ("[]struct \x7b\n\t\tId  int`json:\"id\"` // " ++
        "\n\t\tNodeNetwork  string`json:\"nodeNetwork\"` // \n\t\x7d")) := by
  refine ⟨rfl, ?_, rfl, rfl, rfl, ?_⟩
  · intro hb
    rw [UpperFirst_ascii b rest hb]
    exact ⟨rfl, rfl⟩
  · set_option maxRecDepth 8000 in rfl

/-- Witness of C12 on the string "id". -/
theorem UpperFirst_capitalizes_witness :
    (105 : Nat) < 128 ∧ UpperFirst (str "id") = str "Id" ∧
    (UpperFirst (str "id")).length = 2 :=
  ⟨by decide, ((UpperFirst_capitalizes 105 [100]).2.1 (by decide)).2,
    ((UpperFirst_capitalizes 105 [100]).2.1 (by decide)).1⟩

/-- C13: the names of the declarations depend on the path alone; on a
non-empty path both methods drop exactly the first byte of the path (the
separator), capitalize what follows and append "ReqDto", respectively
"RespRto"; the path "//a" keeps its second separator. -/
theorem struct_names (b : Body) :
    (∀ c rest, b.Api.Path = c :: rest →
      b.GetReqStructName = .ok (UpperFirst rest ++ str "ReqDto") ∧
      b.GetRespStructName = .ok (UpperFirst rest ++ str "RespRto")) ∧
    (∀ b' : Body, b'.Api.Path = b.Api.Path →
      b'.GetReqStructName = b.GetReqStructName ∧
      b'.GetRespStructName = b.GetRespStructName) ∧
    (b.Api.Path = str "//a" →
      b.GetReqStructName = .ok (str "/aReqDto") ∧
      b.GetRespStructName = .ok (str "/aRespRto")) := by
  refine ⟨?_, ?_, ?_⟩
  · intro c rest h
    unfold Body.GetReqStructName Body.GetRespStructName
    rw [h]
    exact ⟨rfl, rfl⟩
  · intro b' h
    unfold Body.GetReqStructName Body.GetRespStructName
    rw [h]
    exact ⟨rfl, rfl⟩
  · intro h
    unfold Body.GetReqStructName Body.GetRespStructName
    rw [h]
    exact ⟨rfl, rfl⟩

/-- Witness of C13 on the path "/users". -/
theorem struct_names_witness :
    (⟨none, responseOnlyApi⟩ : Body).Api.Path = 47 :: str "users" ∧
    (⟨none, responseOnlyApi⟩ : Body).GetReqStructName = .ok (str "UsersReqDto") ∧
    (⟨none, responseOnlyApi⟩ : Body).GetRespStructName = .ok (str "UsersRespRto") :=
  ⟨rfl, ((struct_names ⟨none, responseOnlyApi⟩).1 47 (str "users") rfl).1,
    ((struct_names ⟨none, responseOnlyApi⟩).1 47 (str "users") rfl).2⟩

/-! ## The renderer -/

theorem TypeConvert_kind (t r : GoString) (h : TypeConvert t = .ok r) :
    (r = str "array" ↔ t = str "array") ∧ (r = str "object" ↔ t = str "object") := by
  rw [TypeConvert_eq_ite] at h
  split_ifs at h with h1 h2 h3 h4 h5 h6
  · cases h; subst h1; exact ⟨by decide, by decide⟩
  · cases h; subst h2; exact ⟨by decide, by decide⟩
  · cases h; subst h3; exact ⟨by decide, by decide⟩
  · cases h; subst h4; exact ⟨by decide, by decide⟩
  · cases h; subst h5; exact ⟨by decide, by decide⟩
  · cases h; subst h6; exact ⟨by decide, by decide⟩

theorem generateStruct_eq (f : Field) :
    generateStruct f =
      match TypeConvert f.Type_ with
      | .error e => .error e
      | .ok t =>
        match fieldLines (sortByKey (generateStructAll f.SubField)) with
        | .error e => .error e
        | .ok lines =>
          .ok ((if t = str "array" then str "[]" else []) ++ str "struct \x7b" ++ lines ++
            str "\n\t\x7d") := by
  obtain ⟨ty, items, sub, desc, req⟩ := f
  rfl

theorem mem_insertByKey {α : Type} (e x : GoString × α) (l : List (GoString × α)) :
    x ∈ insertByKey e l ↔ x = e ∨ x ∈ l := by
  induction l with
  | nil => simp [insertByKey]
  | cons y ys ih =>
    unfold insertByKey
    split
    · simp
    · simp only [List.mem_cons, ih]
      tauto

theorem mem_sortByKey {α : Type} (x : GoString × α) (l : List (GoString × α)) :
    x ∈ sortByKey l ↔ x ∈ l := by
  induction l with
  | nil => simp [sortByKey]
  | cons e rest ih => simp [sortByKey, mem_insertByKey, ih]

theorem insertByKey_map {α β : Type} (G : GoString × α → β) (e : GoString × α)
    (l : List (GoString × α)) :
    insertByKey (e.1, G e) (l.map fun x => (x.1, G x)) =
      (insertByKey e l).map fun x => (x.1, G x) := by
  induction l with
  | nil => simp [insertByKey]
  | cons y ys ih =>
    simp only [List.map_cons, insertByKey]
    split
    · simp
    · simp [ih]

theorem sortByKey_map {α β : Type} (G : GoString × α → β) (l : List (GoString × α)) :
    sortByKey (l.map fun x => (x.1, G x)) = (sortByKey l).map fun x => (x.1, G x) := by
  induction l with
  | nil => simp [sortByKey]
  | cons e rest ih =>
    simp only [List.map_cons, sortByKey]
    rw [ih, insertByKey_map]

theorem generateStructAll_eq (l : List (GoString × Option Field)) :
    generateStructAll l = l.map fun e => (e.1, (e.2, generateStructPtr e.2)) := by
  induction l with
  | nil => simp [generateStructAll]
  | cons e rest ih =>
    obtain ⟨k, c⟩ := e
    cases c with
    | none => simp [generateStructAll, generateStructPtr, ih]
    | some c => simp [generateStructAll, generateStructPtr, ih]

theorem exists_forall₂ {α β : Type} {R : α → β → Prop} (l : List α)
    (h : ∀ a ∈ l, ∃ b, R a b) : ∃ l', List.Forall₂ R l l' := by
  induction l with
  | nil => exact ⟨[], List.Forall₂.nil⟩
  | cons a rest ih =>
    obtain ⟨b, hb⟩ := h a (List.mem_cons_self _ _)
    obtain ⟨l', hl⟩ := ih fun x hx => h x (List.mem_cons_of_mem _ hx)
    exact ⟨b :: l', List.Forall₂.cons hb hl⟩

/-- The line of a field: the child is there; the line holds the nested
expansion when the type of the child is object or array, and the mapped type
name otherwise. -/
theorem fieldLine_ok_iff (key : GoString) (o : Option Field) (nested : Except Fatal GoString)
    (line : GoString) :
    fieldLine key o nested = .ok line ↔
      ∃ c, o = some c ∧
        (((c.Type_ = str "object" ∨ c.Type_ = str "array") ∧
            ∃ s, nested = .ok s ∧
              line = str "\n\t\t" ++ UpperFirst key ++ str " " ++ (str "\t" ++ s ++ str " ") ++
                fieldTag key c) ∨
          (¬ (c.Type_ = str "object" ∨ c.Type_ = str "array") ∧
            ∃ t, TypeConvert c.Type_ = .ok t ∧
              line = str "\n\t\t" ++ UpperFirst key ++ str " " ++ (str " " ++ t) ++
                fieldTag key c)) := by
  cases o with
  | none =>
    simp only [fieldLine]
    constructor
    · intro h; cases h
    · rintro ⟨c, h, _⟩; cases h
  | some c =>
    simp only [fieldLine, Option.some.injEq, exists_eq_left']
    cases ht : TypeConvert c.Type_ with
    | error e =>
      simp only
      constructor
      · intro h; cases h
      · rintro (⟨hty, _⟩ | ⟨_, t, h, _⟩)
        · rcases hty with h0 | h0
          · rw [h0] at ht; cases ht
          · rw [h0] at ht; cases ht
        · cases h
    | ok t =>
      simp only
      obtain ⟨hk1, hk2⟩ := TypeConvert_kind _ _ ht
      by_cases hty : c.Type_ = str "object" ∨ c.Type_ = str "array"
      · have hcond : t = str "object" ∨ t = str "array" := by
          rcases hty with h0 | h0
          · exact Or.inl (hk2.mpr h0)
          · exact Or.inr (hk1.mpr h0)
        simp only [hcond, if_true]
        cases hn : nested with
        | error e =>
          simp only
          constructor
          · intro h; cases h
          · rintro (⟨_, s, h, _⟩ | ⟨h, _⟩)
            · cases h
            · exact absurd hty h
        | ok s =>
          simp only [Except.ok.injEq]
          constructor
          · intro h; exact Or.inl ⟨hty, s, rfl, h.symm⟩
          · rintro (⟨_, s1, h1, h2⟩ | ⟨h, _⟩)
            · cases h1; exact h2.symm
            · exact absurd hty h
      · have hcond : ¬ (t = str "object" ∨ t = str "array") := by
          rintro (h0 | h0)
          · exact hty (Or.inl (hk2.mp h0))
          · exact hty (Or.inr (hk1.mp h0))
        simp only [hcond, if_false, Except.ok.injEq]
        constructor
        · intro h; exact Or.inr ⟨hty, t, rfl, h.symm⟩
        · rintro (⟨h, _⟩ | ⟨_, t1, h1, h2⟩)
          · exact absurd h hty
          · cases h1; exact h2.symm

theorem fieldLines_ok_iff (l : List (GoString × (Option Field × Except Fatal GoString)))
    (out : GoString) :
    fieldLines l = .ok out ↔
      ∃ lines, List.Forall₂ (fun e line => fieldLine e.1 e.2.1 e.2.2 = .ok line) l lines ∧
        out = lines.flatten := by
  induction l generalizing out with
  | nil =>
    simp only [fieldLines, Except.ok.injEq]
    constructor
    · intro h; exact ⟨[], List.Forall₂.nil, by rw [← h]; rfl⟩
    · rintro ⟨lines, h1, h2⟩
      cases h1
      rw [h2]; rfl
  | cons x rest ih =>
    obtain ⟨key, o, nested⟩ := x
    simp only [fieldLines]
    cases hl : fieldLine key o nested with
    | error e =>
      simp only
      constructor
      · intro h; cases h
      · rintro ⟨lines, h1, _⟩
        cases lines with
        | nil => cases h1
        | cons b l2 =>
          cases h1 with
          | cons hab _ =>
            simp only at hab
            rw [hl] at hab
            cases hab
    | ok line =>
      simp only
      cases hr : fieldLines rest with
      | error e =>
        simp only
        constructor
        · intro h; cases h
        · rintro ⟨lines, h1, _⟩
          cases lines with
          | nil => cases h1
          | cons b l2 =>
            cases h1 with
            | cons _ hrest =>
              have := (ih l2.flatten).mpr ⟨l2, hrest, rfl⟩
              rw [hr] at this
              cases this
      | ok more =>
        simp only [Except.ok.injEq]
        obtain ⟨lines0, h3, h4⟩ := (ih more).mp hr
        constructor
        · intro h
          refine ⟨line :: lines0, List.Forall₂.cons hl h3, ?_⟩
          rw [← h, h4]
          rfl
        · rintro ⟨lines, h1, h2⟩
          cases lines with
          | nil => cases h1
          | cons b l2 =>
            cases h1 with
            | cons hab hrest =>
              simp only at hab
              rw [hl] at hab
              cases hab
              have := (ih l2.flatten).mpr ⟨l2, hrest, rfl⟩
              rw [hr] at this
              cases this
              rw [h2]
              rfl

/-- The expansion of the template on a node, its children taken in key order,
each with the expansion of the template on the child itself. -/
theorem generateStruct_ok_iff (f : Field) (out : GoString) :
    generateStruct f = .ok out ↔
      ∃ t lines, TypeConvert f.Type_ = .ok t ∧
        List.Forall₂ (fun e line => ∃ c, e.2 = some c ∧
            (((c.Type_ = str "object" ∨ c.Type_ = str "array") ∧
                ∃ s, generateStruct c = .ok s ∧
                  line = str "\n\t\t" ++ UpperFirst e.1 ++ str " " ++
                    (str "\t" ++ s ++ str " ") ++ fieldTag e.1 c) ∨
              (¬ (c.Type_ = str "object" ∨ c.Type_ = str "array") ∧
                ∃ t', TypeConvert c.Type_ = .ok t' ∧
                  line = str "\n\t\t" ++ UpperFirst e.1 ++ str " " ++ (str " " ++ t') ++
                    fieldTag e.1 c)))
          (sortByKey f.SubField) lines ∧
        out = (if f.Type_ = str "array" then str "[]" else []) ++ str "struct \x7b" ++
          lines.flatten ++ str "\n\t\x7d" := by
  have hlines : ∀ lines : List GoString,
      List.Forall₂ (fun e line => fieldLine e.1 e.2.1 e.2.2 = .ok line)
        (sortByKey (generateStructAll f.SubField)) lines ↔
      List.Forall₂ (fun e line => ∃ c, e.2 = some c ∧
            (((c.Type_ = str "object" ∨ c.Type_ = str "array") ∧
                ∃ s, generateStruct c = .ok s ∧
                  line = str "\n\t\t" ++ UpperFirst e.1 ++ str " " ++
                    (str "\t" ++ s ++ str " ") ++ fieldTag e.1 c) ∨
              (¬ (c.Type_ = str "object" ∨ c.Type_ = str "array") ∧
                ∃ t', TypeConvert c.Type_ = .ok t' ∧
                  line = str "\n\t\t" ++ UpperFirst e.1 ++ str " " ++ (str " " ++ t') ++
                    fieldTag e.1 c)))
          (sortByKey f.SubField) lines := by
    intro lines
    rw [generateStructAll_eq, sortByKey_map (fun e => (e.2, generateStructPtr e.2)),
      List.forall₂_map_left_iff]
    constructor
    · intro h
      refine h.imp ?_
      intro e line he
      obtain ⟨c, hc, h1⟩ := (fieldLine_ok_iff _ _ _ _).mp he
      simp only at hc
      refine ⟨c, hc, ?_⟩
      simp only [hc, generateStructPtr] at h1
      exact h1
    · intro h
      refine h.imp ?_
      rintro e line ⟨c, hc, h1⟩
      refine (fieldLine_ok_iff _ _ _ _).mpr ⟨c, hc, ?_⟩
      simp only [hc, generateStructPtr]
      exact h1
  rw [generateStruct_eq]
  cases ht : TypeConvert f.Type_ with
  | error e =>
    simp only
    constructor
    · intro h; cases h
    · rintro ⟨t, lines, h, _⟩; cases h
  | ok t =>
    simp only
    have hk := (TypeConvert_kind _ _ ht).1
    have hpre : (if t = str "array" then str "[]" else []) =
        (if f.Type_ = str "array" then str "[]" else []) := by
      by_cases ha : f.Type_ = str "array"
      · rw [if_pos ha, if_pos (hk.mpr ha)]
      · rw [if_neg ha, if_neg fun h0 => ha (hk.mp h0)]
    cases hl : fieldLines (sortByKey (generateStructAll f.SubField)) with
    | error e =>
      simp only
      constructor
      · intro h; cases h
      · rintro ⟨t1, lines, _, h2, _⟩
        have := (fieldLines_ok_iff _ lines.flatten).mpr ⟨lines, (hlines lines).mpr h2, rfl⟩
        rw [hl] at this
        cases this
    | ok text =>
      simp only [Except.ok.injEq]
      obtain ⟨lines0, h3, h4⟩ := (fieldLines_ok_iff _ _).mp hl
      constructor
      · intro h
        refine ⟨t, lines0, rfl, (hlines lines0).mp h3, ?_⟩
        rw [← h, hpre, h4]
      · rintro ⟨t1, lines, _, h2, h5⟩
        have := (fieldLines_ok_iff _ lines.flatten).mpr ⟨lines, (hlines lines).mpr h2, rfl⟩
        rw [hl] at this
        cases this
        rw [h5, hpre]

theorem inVocabulary_iff (t : GoString) :
    inVocabulary t = true ↔ ∃ r, TypeConvert t = .ok r := by
  unfold inVocabulary TypeConvert
  cases mapGet YAPIType t with
  | none => simp
  | some v => simp

/-- Induction along the children maps: a property holds of every tree if it
holds of a node whenever it holds of the nodes its children map points to. -/
theorem children_induction (P : Field → Prop)
    (step : ∀ f, (∀ e ∈ f.SubField, ∀ c, e.2 = some c → P c) → P f) :
    ∀ f, P f := by
  intro f
  refine @Field.rec
    (fun f => P f)
    (fun o => ∀ c, o = some c → P c)
    (fun l => ∀ e ∈ l, ∀ c, e.2 = some c → P c)
    (fun p => ∀ c, p.2 = some c → P c)
    ?_ ?_ ?_ ?_ ?_ ?_ f
  · intro ty items sub desc req _ hsub
    exact step _ hsub
  · intro c hc; cases hc
  · intro val hval c hc
    cases hc
    exact hval
  · intro e he; cases he
  · intro head tail hh ht e he
    rcases List.mem_cons.mp he with rfl | he
    · exact hh
    · exact ht e he
  · intro k o ho c hc
    exact ho c hc

theorem typesKnownAll_iff (l : List (GoString × Option Field)) :
    typesKnownAll l = true ↔
      ∀ e ∈ l, ∃ c, e.2 = some c ∧
        ((c.Type_ = str "object" ∨ c.Type_ = str "array") → typesKnown c = true) ∧
        (¬ (c.Type_ = str "object" ∨ c.Type_ = str "array") → inVocabulary c.Type_ = true) := by
  induction l with
  | nil => simp [typesKnownAll]
  | cons e rest ih =>
    obtain ⟨k, c⟩ := e
    cases c with
    | none => simp [typesKnownAll]
    | some c =>
      simp only [typesKnownAll, Bool.and_eq_true, ih, List.mem_cons, forall_eq_or_imp,
        Option.some.injEq, exists_eq_left']
      by_cases h : c.Type_ = str "object" ∨ c.Type_ = str "array"
      · simp [h]
      · simp [h]

theorem typesKnown_iff (f : Field) :
    typesKnown f = true ↔ inVocabulary f.Type_ = true ∧ typesKnownAll f.SubField = true := by
  obtain ⟨ty, items, sub, desc, req⟩ := f
  rw [typesKnown]
  simp

/-- The template succeeds on a node exactly when every type it meets is in the
vocabulary and every child it meets is there. -/
theorem generateStruct_succeeds_iff (f : Field) :
    (∃ s, generateStruct f = .ok s) ↔ typesKnown f = true := by
  refine children_induction
    (fun f => (∃ s, generateStruct f = .ok s) ↔ typesKnown f = true) ?_ f
  intro f ih
  rw [typesKnown_iff, typesKnownAll_iff, inVocabulary_iff]
  constructor
  · rintro ⟨s, hs⟩
    obtain ⟨t, lines, ht, hl, _⟩ := (generateStruct_ok_iff f s).mp hs
    refine ⟨⟨t, ht⟩, ?_⟩
    intro e he
    obtain ⟨line, _, c, hc, h1⟩ := forall₂_mem_left hl e ((mem_sortByKey e _).mpr he)
    refine ⟨c, hc, ?_, ?_⟩
    · intro hty
      rcases h1 with ⟨_, s1, h2, _⟩ | ⟨h2, _⟩
      · exact (ih e he c hc).mp ⟨s1, h2⟩
      · exact absurd hty h2
    · intro hty
      rcases h1 with ⟨h2, _⟩ | ⟨_, t1, h2, _⟩
      · exact absurd h2 hty
      · exact (inVocabulary_iff _).mpr ⟨t1, h2⟩
  · rintro ⟨⟨t, ht⟩, hall⟩
    have hex : ∀ e ∈ sortByKey f.SubField, ∃ line, ∃ c, e.2 = some c ∧
        (((c.Type_ = str "object" ∨ c.Type_ = str "array") ∧
            ∃ s, generateStruct c = .ok s ∧
              line = str "\n\t\t" ++ UpperFirst e.1 ++ str " " ++
                (str "\t" ++ s ++ str " ") ++ fieldTag e.1 c) ∨
          (¬ (c.Type_ = str "object" ∨ c.Type_ = str "array") ∧
            ∃ t', TypeConvert c.Type_ = .ok t' ∧
              line = str "\n\t\t" ++ UpperFirst e.1 ++ str " " ++ (str " " ++ t') ++
                fieldTag e.1 c)) := by
      intro e he
      have he' := (mem_sortByKey e _).mp he
      obtain ⟨c, hc, h1, h2⟩ := hall e he'
      by_cases hty : c.Type_ = str "object" ∨ c.Type_ = str "array"
      · obtain ⟨s, hs⟩ := (ih e he' c hc).mpr (h1 hty)
        exact ⟨_, c, hc, Or.inl ⟨hty, s, hs, rfl⟩⟩
      · obtain ⟨t', ht'⟩ := (inVocabulary_iff _).mp (h2 hty)
        exact ⟨_, c, hc, Or.inr ⟨hty, t', ht', rfl⟩⟩
    obtain ⟨lines, hl⟩ := exists_forall₂ _ hex
    exact ⟨_, (generateStruct_ok_iff f _).mpr ⟨t, lines, ht, hl, rfl⟩⟩

/-- C14: the rendering of a node succeeds exactly when its type is in the
table and every child, taken in key order, is there and has a line; the text
starts with "[]struct {" exactly when the type of the node is "array" and with
"struct {" otherwise, followed by the lines of the children and the closing
brace; the line of a child holds the rendering of the child itself, as a
nested structure, exactly when the type of the child is "object" or "array",
and the mapped type name otherwise.  The body of scenario 2 is rendered as a
"[]struct {" with the one field Name of type string, tagged with the json name
"name" and no required marker; a body with a nested object and a nested array
is rendered with the nested "struct {" and "[]struct {" in its lines. -/
theorem generateStruct_markers (f : Field) (out : GoString) :
    (generateStruct f = .ok out ↔
      ∃ t lines, TypeConvert f.Type_ = .ok t ∧
        List.Forall₂ (fun e line => ∃ c, e.2 = some c ∧
            (((c.Type_ = str "object" ∨ c.Type_ = str "array") ∧
                ∃ s, generateStruct c = .ok s ∧
                  line = str "\n\t\t" ++ UpperFirst e.1 ++ str " " ++
                    (str "\t" ++ s ++ str " ") ++
                    (if c.IsRequired e.1 then
                      str "`json:\"" ++ e.1 ++ str "\" binding:\"required\"` // " ++
                        c.Description
                    else str "`json:\"" ++ e.1 ++ str "\"` // " ++ c.Description)) ∨
              (¬ (c.Type_ = str "object" ∨ c.Type_ = str "array") ∧
                ∃ t', TypeConvert c.Type_ = .ok t' ∧
                  line = str "\n\t\t" ++ UpperFirst e.1 ++ str " " ++ (str " " ++ t') ++
                    (if c.IsRequired e.1 then
                      str "`json:\"" ++ e.1 ++ str "\" binding:\"required\"` // " ++
                        c.Description
                    else str "`json:\"" ++ e.1 ++ str "\"` // " ++ c.Description))))
          (sortByKey f.SubField) lines ∧
        out = (if f.Type_ = str "array" then str "[]" else []) ++ str "struct \x7b" ++
          lines.flatten ++ str "\n\t\x7d") ∧
    (generateStruct f = .ok out →
      ((∃ rest, out = str "[]" ++ str "struct \x7b" ++ rest) ↔ f.Type_ = str "array") ∧
      ((∃ rest, out = str "struct \x7b" ++ rest) ↔ f.Type_ ≠ str "array")) ∧
    Array2Object scenario2 = .ok scenario2After ∧
    generateStruct scenario2After =
      .ok (str "[]struct \x7b\n\t\tName  string`json:\"name\"` // \n\t\x7d") ∧
    Array2Object nestedBody = .ok nestedBodyAfter ∧
    generateStruct nestedBodyAfter =
      .ok (str ("struct \x7b\n\t\tAge  int`json:\"age\"` // " ++
        "\n\t\tOwner \tstruct \x7b\n\t\tName  string`json:\"name\"` // \n\t\x7d " ++
        "`json:\"owner\"` // who" ++
        "\n\t\tTags \t[]struct \x7b\n\t\tId  int`json:\"id\"` // \n\t\x7d " ++
        "`json:\"tags\"` // \n\t\x7d")) := by
  refine ⟨generateStruct_ok_iff f out, ?_, rfl, ?_, rfl, ?_⟩
  · intro h
    obtain ⟨t, lines, _, _, hout⟩ := (generateStruct_ok_iff f out).mp h
    have h1 : str "struct \x7b" = 115 :: str "truct \x7b" := rfl
    have h2 : str "[]" = [91, 93] := rfl
    by_cases ha : f.Type_ = str "array"
    · rw [if_pos ha] at hout
      refine ⟨⟨fun _ => ha, fun _ => ⟨lines.flatten ++ str "\n\t\x7d", ?_⟩⟩, ?_⟩
      · rw [hout]; simp only [List.append_assoc]
      · constructor
        · rintro ⟨rest, hr⟩
          rw [hout, h1, h2] at hr
          simp at hr
        · intro h0; exact absurd ha h0
    · rw [if_neg ha] at hout
      refine ⟨⟨?_, fun h0 => absurd h0 ha⟩, ⟨fun _ => ha, fun _ => ?_⟩⟩
      · rintro ⟨rest, hr⟩
        rw [hout, h1, h2] at hr
        simp at hr
      · refine ⟨lines.flatten ++ str "\n\t\x7d", ?_⟩
        rw [hout]; simp only [List.nil_append, List.append_assoc]
  · set_option maxRecDepth 8000 in rfl
  · set_option maxRecDepth 32000 in rfl

/-- Witness of C14 on the normalized body of scenario 2, an array, and on a
normalized object. -/
theorem generateStruct_markers_witness :
    generateStruct scenario2After =
      .ok (str "[]struct \x7b\n\t\tName  string`json:\"name\"` // \n\t\x7d") ∧
    ((∃ rest, str "[]struct \x7b\n\t\tName  string`json:\"name\"` // \n\t\x7d" =
        str "[]" ++ str "struct \x7b" ++ rest) ↔ scenario2After.Type_ = str "array") ∧
    generateStruct scenario1 =
      .ok (str "struct \x7b\n\t\tId  int`json:\"id\"` // \n\t\x7d") ∧
    ((∃ rest, str "struct \x7b\n\t\tId  int`json:\"id\"` // \n\t\x7d" =
        str "struct \x7b" ++ rest) ↔ scenario1.Type_ ≠ str "array") := by
  have h0 : generateStruct scenario2After =
      .ok (str "[]struct \x7b\n\t\tName  string`json:\"name\"` // \n\t\x7d") := by
    set_option maxRecDepth 8000 in rfl
  have h1 : generateStruct scenario1 =
      .ok (str "struct \x7b\n\t\tId  int`json:\"id\"` // \n\t\x7d") := by
    set_option maxRecDepth 8000 in rfl
  exact ⟨h0, ((generateStruct_markers scenario2After _).2.1 h0).1, h1,
    ((generateStruct_markers scenario1 _).2.1 h1).2⟩

/-! ## Declarations of an Api and selection of the kinds -/

/-- C15 (counterexample): the request body of `unknownTypeApi` is not empty and
parses, to a node of type "date"; `TemplateReqStruct` ends the process on the
unknown type and returns no list. -/
theorem TemplateReqStruct_fails_on_parsed_body :
    unknownTypeApi.ReqBody ≠ [] ∧
    sampleUnmarshal unknownTypeApi.ReqBody = some (some (primitive "date")) ∧
    unknownTypeApi.RespBody = [] ∧
    unknownTypeApi.TemplateReqStruct sampleUnmarshal = .error (.unknownType (str "date")) := by
  refine ⟨by decide, rfl, rfl, ?_⟩
  set_option maxRecDepth 8000 in rfl

/-- A body text that sets no field of the schema, as the empty object, parses
and leaves the embedded tree nil: `template` dereferences it in the pass,
before the template text, which guards the tree with `if .Field`, is
executed. -/
theorem template_nil_tree (a : Api) (base : TemplateText) :
    (⟨none, a⟩ : Body).template base = .error .nilPointer ∧
    sampleUnmarshal emptyObjectApi.ReqBody = some none ∧
    emptyObjectApi.TemplateReqStruct sampleUnmarshal = .error .nilPointer := by
  refine ⟨rfl, rfl, ?_⟩
  set_option maxRecDepth 8000 in rfl

/-- The rendering of a body: the tree is there, the pass succeeds on it, the
path gives a name and the template succeeds on the normalized tree. -/
theorem Body_template_iff (b : Body) (base : TemplateText) (text : GoString) :
    b.template base = .ok text ↔
      ∃ f g name s, b.Field = some f ∧ Array2Object f = .ok g ∧
        base.structName b = .ok name ∧ generateStruct g = .ok s ∧
        text = str "// title: " ++ b.Api.Title ++ str "\n// method: " ++ b.Api.Method ++
          str "    path: " ++ b.Api.Path ++ str "\n" ++ str "type " ++ name ++ str " " ++
          s ++ str "\n" := by
  unfold Body.template
  cases hf : b.Field with
  | none =>
    simp only
    constructor
    · intro h; cases h
    · rintro ⟨f, _, _, _, h1, _⟩; cases h1
  | some f =>
    simp only
    cases hg : Array2Object f with
    | error e =>
      simp only
      constructor
      · intro h; cases h
      · rintro ⟨f1, g, _, _, h1, h2, _⟩
        cases h1
        rw [hg] at h2
        cases h2
    | ok g =>
      simp only
      cases hn : base.structName b with
      | error e =>
        simp only
        constructor
        · intro h; cases h
        · rintro ⟨_, _, _, _, _, _, h3, _⟩
          cases h3
      | ok name =>
        simp only
        cases hs : generateStruct g with
        | error e =>
          simp only
          constructor
          · intro h; cases h
          · rintro ⟨f1, g1, _, _, h1, h2, _, h4, _⟩
            cases h1
            rw [hg] at h2
            cases h2
            rw [hs] at h4
            cases h4
        | ok s =>
          simp only [Except.ok.injEq]
          constructor
          · intro h
            exact ⟨f, g, name, s, rfl, hg, rfl, hs, h.symm⟩
          · rintro ⟨f1, g1, name1, s1, h1, h2, h3, h4, h5⟩
            cases h1
            rw [hg] at h2
            cases h2
            cases h3
            rw [hs] at h4
            cases h4
            exact h5.symm

theorem structName_ok_iff (b : Body) (base : TemplateText) :
    (∃ name, base.structName b = .ok name) ↔ b.Api.Path ≠ [] := by
  cases base <;>
  · simp only [TemplateText.structName, Body.GetReqStructName, Body.GetRespStructName]
    cases b.Api.Path with
    | nil => simp
    | cons c rest => simp

/-- A body with a tree is rendered exactly when the path is not empty, the pass
succeeds on the tree and every type the renderer meets in the normalized tree
is in the vocabulary. -/
theorem template_succeeds_iff (f : Field) (a : Api) (base : TemplateText) :
    (∃ text, (⟨some f, a⟩ : Body).template base = .ok text) ↔
      a.Path ≠ [] ∧ ∃ g, Array2Object f = .ok g ∧ typesKnown g = true := by
  constructor
  · rintro ⟨text, h⟩
    obtain ⟨f1, g, name, s, h1, h2, h3, h4, _⟩ := (Body_template_iff _ _ _).mp h
    cases h1
    exact ⟨(structName_ok_iff _ base).mp ⟨name, h3⟩, g, h2,
      (generateStruct_succeeds_iff g).mp ⟨s, h4⟩⟩
  · rintro ⟨hp, g, hg, ht⟩
    obtain ⟨name, hname⟩ := (structName_ok_iff (⟨some f, a⟩ : Body) base).mpr hp
    obtain ⟨s, hs⟩ := (generateStruct_succeeds_iff g).mpr ht
    exact ⟨_, (Body_template_iff _ _ _).mpr ⟨f, g, name, s, rfl, hg, hname, hs, rfl⟩⟩

theorem declaration_step (unmarshal : GoString → Option (Option Field)) (a : Api)
    (bodyText : GoString) (base : TemplateText) (result ds : List GoString) :
    declarationStep
      (if bodyText = [] then .ok none
        else match unmarshal bodyText with
          | none => .error (.malformedJSON bodyText)
          | some field => .ok (some ⟨field, a⟩)) result base = .ok ds ↔
      ∃ part, ds = result ++ part ∧
        ((bodyText = [] ∧ part = []) ∨
          (bodyText ≠ [] ∧ ∃ field text, unmarshal bodyText = some field ∧
            (⟨field, a⟩ : Body).template base = .ok text ∧ part = [text])) := by
  by_cases hb : bodyText = []
  · rw [if_pos hb]
    simp only [declarationStep, Except.ok.injEq]
    constructor
    · intro h
      exact ⟨[], by rw [← h]; simp, Or.inl ⟨hb, rfl⟩⟩
    · rintro ⟨part, h1, (⟨_, h2⟩ | ⟨h2, _⟩)⟩
      · rw [h1, h2]; simp
      · exact absurd hb h2
  · rw [if_neg hb]
    cases hu : unmarshal bodyText with
    | none =>
      simp only [declarationStep]
      constructor
      · intro h; cases h
      · rintro ⟨part, _, (⟨h2, _⟩ | ⟨_, field, text, h3, _⟩)⟩
        · exact absurd h2 hb
        · cases h3
    | some field =>
      simp only [declarationStep]
      cases ht : (⟨field, a⟩ : Body).template base with
      | error e =>
        simp only
        constructor
        · intro h; cases h
        · rintro ⟨part, _, (⟨h2, _⟩ | ⟨_, field1, text, h3, h4, _⟩)⟩
          · exact absurd h2 hb
          · cases h3
            rw [ht] at h4
            cases h4
      | ok text =>
        simp only [Except.ok.injEq]
        constructor
        · intro h
          exact ⟨[text], h.symm, Or.inr ⟨hb, field, text, rfl, ht, rfl⟩⟩
        · rintro ⟨part, h1, (⟨h2, _⟩ | ⟨_, field1, text1, h3, h4, h5⟩)⟩
          · exact absurd h2 hb
          · cases h3
            rw [ht] at h4
            cases h4
            rw [h1, h5]

/-- The declarations of an Api, as a sum of the two directions. -/
theorem TemplateReqStruct_iff (unmarshal : GoString → Option (Option Field)) (a : Api)
    (ds : List GoString) :
    a.TemplateReqStruct unmarshal = .ok ds ↔
      ∃ reqPart respPart, ds = reqPart ++ respPart ∧
        ((a.ReqBody = [] ∧ reqPart = []) ∨
          (a.ReqBody ≠ [] ∧ ∃ field text, unmarshal a.ReqBody = some field ∧
            (⟨field, a⟩ : Body).template .ReqBodyText = .ok text ∧ reqPart = [text])) ∧
        ((a.RespBody = [] ∧ respPart = []) ∨
          (a.RespBody ≠ [] ∧ ∃ field text, unmarshal a.RespBody = some field ∧
            (⟨field, a⟩ : Body).template .RespBodyText = .ok text ∧ respPart = [text])) := by
  have hreq : ∀ result, declarationStep (a.GetReqBody unmarshal) [] .ReqBodyText = .ok result ↔
      ∃ part, result = [] ++ part ∧ _ :=
    fun result => declaration_step unmarshal a a.ReqBody .ReqBodyText [] result
  have hresp : ∀ result,
      declarationStep (a.GetRespBody unmarshal) result .RespBodyText = .ok ds ↔
        ∃ part, ds = result ++ part ∧ _ :=
    fun result => declaration_step unmarshal a a.RespBody .RespBodyText result ds
  unfold Api.TemplateReqStruct
  cases h1 : declarationStep (a.GetReqBody unmarshal) [] .ReqBodyText with
  | error e =>
    simp only
    constructor
    · intro h; cases h
    · rintro ⟨reqPart, respPart, _, h2, _⟩
      have := (hreq reqPart).mpr ⟨reqPart, by simp, h2⟩
      rw [h1] at this
      cases this
  | ok result =>
    simp only
    obtain ⟨part, hp1, hp2⟩ := (hreq result).mp h1
    simp only [List.nil_append] at hp1
    subst hp1
    rw [hresp result]
    constructor
    · rintro ⟨respPart, h2, h3⟩
      exact ⟨result, respPart, h2, hp2, h3⟩
    · rintro ⟨reqPart, respPart, h2, h3, h4⟩
      have := (hreq reqPart).mpr ⟨reqPart, by simp, h3⟩
      rw [h1] at this
      cases this
      exact ⟨respPart, h2, h4⟩

/-- C15 (as the code has it): for an Api each non-empty body text of which
parses to a schema tree, `TemplateReqStruct` returns a list exactly when, for
each non-empty body text, the path is not empty, the pass succeeds on the tree
and every type the renderer meets in the normalized tree is in the
vocabulary; the list then holds one declaration per non-empty body text, the
rendering of the request body before that of the response body, so that its
length is the number of non-empty body texts; with both texts empty it returns
the empty list, and with the request text empty it begins with the response
declaration. -/
theorem TemplateReqStruct_declarations (unmarshal : GoString → Option (Option Field))
    (a : Api)
    (hreq : a.ReqBody ≠ [] → ∃ f, unmarshal a.ReqBody = some (some f))
    (hresp : a.RespBody ≠ [] → ∃ f, unmarshal a.RespBody = some (some f)) :
    ((∃ ds, a.TemplateReqStruct unmarshal = .ok ds) ↔
      (a.ReqBody ≠ [] → a.Path ≠ [] ∧ ∀ f, unmarshal a.ReqBody = some (some f) →
        ∃ g, Array2Object f = .ok g ∧ typesKnown g = true) ∧
      (a.RespBody ≠ [] → a.Path ≠ [] ∧ ∀ f, unmarshal a.RespBody = some (some f) →
        ∃ g, Array2Object f = .ok g ∧ typesKnown g = true)) ∧
    (∀ ds, a.TemplateReqStruct unmarshal = .ok ds →
      ds.length = (if a.ReqBody = [] then 0 else 1) + (if a.RespBody = [] then 0 else 1) ∧
      ∃ reqPart respPart, ds = reqPart ++ respPart ∧
        ((a.ReqBody = [] ∧ reqPart = []) ∨
          (a.ReqBody ≠ [] ∧ ∃ f text, unmarshal a.ReqBody = some (some f) ∧
            (⟨some f, a⟩ : Body).template .ReqBodyText = .ok text ∧ reqPart = [text])) ∧
        ((a.RespBody = [] ∧ respPart = []) ∨
          (a.RespBody ≠ [] ∧ ∃ f text, unmarshal a.RespBody = some (some f) ∧
            (⟨some f, a⟩ : Body).template .RespBodyText = .ok text ∧
            respPart = [text]))) ∧
    (a.ReqBody = [] → a.RespBody = [] → a.TemplateReqStruct unmarshal = .ok []) := by
  -- one direction of the Api: what the fetch and the rendering need
  have side : ∀ (bodyText : GoString) (base : TemplateText),
      (bodyText ≠ [] → ∃ f, unmarshal bodyText = some (some f)) →
      ((∃ part, (bodyText = [] ∧ part = []) ∨
          (bodyText ≠ [] ∧ ∃ field text, unmarshal bodyText = some field ∧
            (⟨field, a⟩ : Body).template base = .ok text ∧ part = [text])) ↔
        (bodyText ≠ [] → a.Path ≠ [] ∧ ∀ f, unmarshal bodyText = some (some f) →
          ∃ g, Array2Object f = .ok g ∧ typesKnown g = true)) := by
    intro bodyText base hp
    constructor
    · rintro ⟨part, (⟨h1, _⟩ | ⟨_, field, text, h2, h3, _⟩)⟩
      · intro h0; exact absurd h1 h0
      · intro h0
        obtain ⟨f, hf⟩ := hp h0
        rw [hf] at h2
        cases h2
        obtain ⟨h4, h5⟩ := (template_succeeds_iff f a base).mp ⟨text, h3⟩
        refine ⟨h4, ?_⟩
        intro f1 hf1
        rw [hf] at hf1
        cases hf1
        exact h5
    · intro h
      by_cases h0 : bodyText = []
      · exact ⟨[], Or.inl ⟨h0, rfl⟩⟩
      · obtain ⟨f, hf⟩ := hp h0
        obtain ⟨h4, h5⟩ := h h0
        obtain ⟨text, ht⟩ := (template_succeeds_iff f a base).mpr ⟨h4, h5 f hf⟩
        exact ⟨[text], Or.inr ⟨h0, some f, text, hf, ht, rfl⟩⟩
  refine ⟨?_, ?_, ?_⟩
  · rw [← side a.ReqBody .ReqBodyText hreq, ← side a.RespBody .RespBodyText hresp]
    constructor
    · rintro ⟨ds, h⟩
      obtain ⟨reqPart, respPart, _, h2, h3⟩ := (TemplateReqStruct_iff unmarshal a ds).mp h
      exact ⟨⟨reqPart, h2⟩, ⟨respPart, h3⟩⟩
    · rintro ⟨⟨reqPart, h2⟩, ⟨respPart, h3⟩⟩
      exact ⟨_, (TemplateReqStruct_iff unmarshal a _).mpr ⟨reqPart, respPart, rfl, h2, h3⟩⟩
  · intro ds h
    obtain ⟨reqPart, respPart, h1, h2, h3⟩ := (TemplateReqStruct_iff unmarshal a ds).mp h
    have part : ∀ (bodyText : GoString) (base : TemplateText) (part : List GoString),
        (bodyText ≠ [] → ∃ f, unmarshal bodyText = some (some f)) →
        ((bodyText = [] ∧ part = []) ∨
          (bodyText ≠ [] ∧ ∃ field text, unmarshal bodyText = some field ∧
            (⟨field, a⟩ : Body).template base = .ok text ∧ part = [text])) →
        part.length = (if bodyText = [] then 0 else 1) ∧
        ((bodyText = [] ∧ part = []) ∨
          (bodyText ≠ [] ∧ ∃ f text, unmarshal bodyText = some (some f) ∧
            (⟨some f, a⟩ : Body).template base = .ok text ∧ part = [text])) := by
      intro bodyText base part hp hpart
      rcases hpart with ⟨h4, h5⟩ | ⟨h4, field, text, h5, h6, h7⟩
      · rw [h5, if_pos h4]
        exact ⟨rfl, Or.inl ⟨h4, rfl⟩⟩
      · obtain ⟨f, hf⟩ := hp h4
        rw [hf] at h5
        cases h5
        rw [h7, if_neg h4]
        exact ⟨rfl, Or.inr ⟨h4, f, text, hf, h6, rfl⟩⟩
    obtain ⟨p1, p2⟩ := part a.ReqBody .ReqBodyText reqPart hreq h2
    obtain ⟨q1, q2⟩ := part a.RespBody .RespBodyText respPart hresp h3
    refine ⟨?_, reqPart, respPart, h1, p2, q2⟩
    rw [h1, List.length_append, p1, q1]
  · intro h1 h2
    exact (TemplateReqStruct_iff unmarshal a []).mpr
      ⟨[], [], rfl, Or.inl ⟨h1, rfl⟩, Or.inl ⟨h2, rfl⟩⟩

/-- Witness of C15: an Api with a response body only, one with both bodies and
one with no body. -/
theorem TemplateReqStruct_declarations_witness :
    (responseOnlyApi.ReqBody = [] ∧
      sampleUnmarshal responseOnlyApi.RespBody = some (some scenario2)) ∧
    responseOnlyApi.TemplateReqStruct sampleUnmarshal =
      .ok [str ("// title: list users\n// method: GET    path: /users\n" ++
        "type UsersRespRto []struct \x7b\n\t\tName  string`json:\"name\"` // \n\t\x7d\n")] ∧
    ([str ("// title: list users\n// method: GET    path: /users\n" ++
        "type UsersRespRto []struct \x7b\n\t\tName  string`json:\"name\"` // \n\t\x7d\n")]
      : List GoString).length =
      (if responseOnlyApi.ReqBody = [] then 0 else 1) +
        (if responseOnlyApi.RespBody = [] then 0 else 1) ∧
    (∃ ds, bothBodiesApi.TemplateReqStruct sampleUnmarshal = .ok ds) ∧
    noBodyApi.TemplateReqStruct sampleUnmarshal = .ok [] := by
  have h0 : responseOnlyApi.TemplateReqStruct sampleUnmarshal =
      .ok [str ("// title: list users\n// method: GET    path: /users\n" ++
        "type UsersRespRto []struct \x7b\n\t\tName  string`json:\"name\"` // \n\t\x7d\n")] := by
    set_option maxRecDepth 16000 in rfl
  have hr : responseOnlyApi.ReqBody ≠ [] →
      ∃ f, sampleUnmarshal responseOnlyApi.ReqBody = some (some f) :=
    fun h => absurd rfl h
  have hs : responseOnlyApi.RespBody ≠ [] →
      ∃ f, sampleUnmarshal responseOnlyApi.RespBody = some (some f) :=
    fun _ => ⟨scenario2, rfl⟩
  have hb1 : sampleUnmarshal bothBodiesApi.ReqBody = some (some scenario1) := rfl
  have hb2 : sampleUnmarshal bothBodiesApi.RespBody = some (some scenario2) := rfl
  refine ⟨⟨rfl, rfl⟩, h0,
    ((TemplateReqStruct_declarations sampleUnmarshal responseOnlyApi hr hs).2.1 _ h0).1,
    ?_,
    (TemplateReqStruct_declarations sampleUnmarshal noBodyApi
      (fun h => absurd rfl h) (fun h => absurd rfl h)).2.2 rfl rfl⟩
  refine (TemplateReqStruct_declarations sampleUnmarshal bothBodiesApi
    (fun _ => ⟨_, hb1⟩) (fun _ => ⟨_, hb2⟩)).1.mpr ⟨?_, ?_⟩
  · intro _
    refine ⟨by decide, ?_⟩
    intro f hf
    rw [hb1] at hf
    cases hf
    exact ⟨scenario1, rfl, rfl⟩
  · intro _
    refine ⟨by decide, ?_⟩
    intro f hf
    rw [hb2] at hf
    cases hf
    exact ⟨scenario2After, rfl, rfl⟩

theorem unmarshalLoop_eq (c : GoString) (kinds result : List Kind) (names : List GoString) :
    unmarshalLoop c (kinds.map some) result names =
      .ok (result ++ kinds.filter (fun k => decide (c = [] ∨ k.Name = c)),
        names ++ kinds.map Kind.Name) := by
  induction kinds generalizing result names with
  | nil => simp [unmarshalLoop]
  | cons kind rest ih =>
    simp only [List.map_cons]
    unfold unmarshalLoop
    by_cases h : c ≠ [] ∧ c ≠ kind.Name
    · rw [if_pos h, ih]
      have hk : ¬ (c = [] ∨ kind.Name = c) := by
        rintro (h0 | h0)
        · exact h.1 h0
        · exact h.2 h0.symm
      simp [List.filter_cons, hk]
    · rw [if_neg h, ih]
      have hk : c = [] ∨ kind.Name = c := by
        by_contra hne
        apply h
        exact ⟨fun h0 => hne (Or.inl h0), fun h0 => hne (Or.inr h0.symm)⟩
      simp [List.filter_cons, hk]

theorem unmarshalLoop_null (c : GoString) (temp : List (Option Kind)) (result : List Kind)
    (names : List GoString) (h : none ∈ temp) :
    unmarshalLoop c temp result names = .error .nilPointer := by
  induction temp generalizing result names with
  | nil => cases h
  | cons k rest ih =>
    cases k with
    | none => rfl
    | some kind =>
      have hrest : none ∈ rest := by
        rcases List.mem_cons.mp h with h0 | h0
        · cases h0
        · exact h0
      unfold unmarshalLoop
      split
      · exact ih _ _ hrest
      · exact ih _ _ hrest

/-- C16 (counterexample): the document `[{"name":"user"}, null]` parses, to a
list whose second element is nil.  With the classification "user" the kinds
whose name is the classification are not none, and with no classification
neither are the kinds of the document; in both cases `Unmarshal` returns no
list: it ends the process on the nil element. -/
theorem Unmarshal_fails_on_null_kind :
    sampleDecode (str "[\x7b\"name\":\"user\"\x7d,null]") = some kindsWithNull ∧
    kindsWithNull = [some ⟨str "user", []⟩, none] ∧
    ((kindsWithNull.filterMap id).filter fun k => decide (k.Name = str "user")).length = 1 ∧
    Unmarshal sampleDecode (str "user") (str "[\x7b\"name\":\"user\"\x7d,null]") =
      .error .nilPointer ∧
    Unmarshal sampleDecode (str "") (str "[\x7b\"name\":\"user\"\x7d,null]") =
      .error .nilPointer :=
  ⟨rfl, rfl, rfl, rfl, rfl⟩

/-- C16 (as the code has it): on a document that decodes to a list none of
whose elements is nil, the list `kinds` of kinds, `Unmarshal` keeps, in the
order of the document, every kind when no classification is given and exactly
the kinds whose name is the classification otherwise; it returns the kept
kinds when there is one, and ends the process exactly when there is none,
reporting the names of all the kinds of the document in their order.  On a
document that decodes to a list with a nil element it ends the process on that
element. -/
theorem Unmarshal_classification (decode : GoString → Option (List (Option Kind)))
    (classification apiText : GoString) (temp : List (Option Kind))
    (h : decode apiText = some temp) :
    (∀ kinds : List Kind, temp = kinds.map some →
      (classification = [] →
        kinds.filter (fun k => decide (classification = [] ∨ k.Name = classification)) =
          kinds) ∧
      (classification ≠ [] →
        kinds.filter (fun k => decide (classification = [] ∨ k.Name = classification)) =
          kinds.filter fun k => decide (k.Name = classification)) ∧
      (∀ r, Unmarshal decode classification apiText = .ok r ↔
        r = kinds.filter (fun k => decide (classification = [] ∨ k.Name = classification)) ∧
          r ≠ []) ∧
      ((∃ e, Unmarshal decode classification apiText = .error e) ↔
        kinds.filter (fun k => decide (classification = [] ∨ k.Name = classification)) =
          []) ∧
      (kinds.filter (fun k => decide (classification = [] ∨ k.Name = classification)) = [] →
        Unmarshal decode classification apiText =
          .error (.emptySelection (kinds.map Kind.Name)))) ∧
    (none ∈ temp → Unmarshal decode classification apiText = .error .nilPointer) := by
  constructor
  · intro kinds hk
    subst hk
    have hU : Unmarshal decode classification apiText =
        match kinds.filter
          (fun k => decide (classification = [] ∨ k.Name = classification)) with
        | [] => .error (.emptySelection (kinds.map Kind.Name))
        | kind :: result => .ok (kind :: result) := by
      unfold Unmarshal
      rw [h]
      simp only [unmarshalLoop_eq, List.nil_append]
      cases kinds.filter (fun k => decide (classification = [] ∨ k.Name = classification)) <;>
        rfl
    refine ⟨?_, ?_, ?_, ?_, ?_⟩
    · intro hc
      simp [hc]
    · intro hc
      simp [hc]
    · intro r
      rw [hU]
      cases hk : kinds.filter
          (fun k => decide (classification = [] ∨ k.Name = classification)) with
      | nil =>
        simp only
        constructor
        · intro h0; cases h0
        · rintro ⟨h1, h2⟩; exact absurd h1 h2
      | cons kind result =>
        simp only [Except.ok.injEq]
        constructor
        · intro h0; exact ⟨h0.symm, by rw [← h0]; simp⟩
        · rintro ⟨h1, _⟩; exact h1.symm
    · rw [hU]
      cases hk : kinds.filter
          (fun k => decide (classification = [] ∨ k.Name = classification)) with
      | nil => simp
      | cons kind result => simp
    · intro hk
      rw [hU, hk]
  · intro hn
    unfold Unmarshal
    rw [h]
    simp only [unmarshalLoop_null classification temp [] [] hn]

/-- Witness of C16 on a document of the kinds user, system, user. -/
theorem Unmarshal_classification_witness :
    sampleDecode (str "doc") = some sampleKinds ∧
    (Unmarshal sampleDecode (str "system") (str "doc")).toOption.map (List.map Kind.Name) =
      some [str "system"] ∧
    (Unmarshal sampleDecode (str "user") (str "doc")).toOption.map (List.map Kind.Name) =
      some [str "user", str "user"] ∧
    Unmarshal sampleDecode (str "order") (str "doc") =
      .error (.emptySelection [str "user", str "system", str "user"]) := by
  have h := (Unmarshal_classification sampleDecode (str "order") (str "doc") sampleKinds rfl).1
    [⟨str "user", [bothBodiesApi]⟩, ⟨str "system", [noBodyApi]⟩, ⟨str "user", []⟩] rfl
  exact ⟨rfl, rfl, rfl, h.2.2.2.2 rfl⟩

/-- C17: the rendering of a body succeeds exactly when the body has a tree, the
pass succeeds on it, the path gives a name and the template succeeds on the
normalized tree; the text is then the comment block with the title, the
method and the path of the owning Api, the header `type <name> ` with the
request name for the request text and the response name for the response
text, the expanded structure, and a line end. -/
theorem template_text (b : Body) (base : TemplateText) (text : GoString) :
    (b.template base = .ok text ↔
      ∃ f g name s, b.Field = some f ∧ Array2Object f = .ok g ∧
        base.structName b = .ok name ∧ generateStruct g = .ok s ∧
        text = str "// title: " ++ b.Api.Title ++ str "\n// method: " ++ b.Api.Method ++
          str "    path: " ++ b.Api.Path ++ str "\n" ++ str "type " ++ name ++ str " " ++
          s ++ str "\n") ∧
    TemplateText.ReqBodyText.structName b = b.GetReqStructName ∧
    TemplateText.RespBodyText.structName b = b.GetRespStructName ∧
    (⟨some scenario1, bothBodiesApi⟩ : Body).template .ReqBodyText =
      .ok (str ("// title: add user\n// method: POST    path: /users\n" ++
        "type UsersReqDto struct \x7b\n\t\tId  int`json:\"id\"` // \n\t\x7d\n")) := by
  refine ⟨Body_template_iff b base text, rfl, rfl, ?_⟩
  set_option maxRecDepth 16000 in rfl

/-! ## Names, required lists and number of children after the pass -/

/-- The keys of every node after a successful pass: pairwise distinct,
non-empty and made of word characters. -/
theorem nodes_keys_spec (f : Field) :
    ∀ g, Array2Object f = .ok g → ∀ n ∈ g.nodes,
      (keys n.SubField).Nodup ∧
      ∀ name ∈ keys n.SubField, name ≠ [] ∧ ∀ b ∈ name, isWord b = true := by
  refine visit_induction
    (fun f => ∀ g, Array2Object f = .ok g → ∀ n ∈ g.nodes,
      (keys n.SubField).Nodup ∧
      ∀ name ∈ keys n.SubField, name ≠ [] ∧ ∀ b ∈ name, isWord b = true) ?_ f
  intro f ih g h n hn
  obtain ⟨src, hsrc, hr⟩ := Array2Object_children f g h
  obtain ⟨s1, _, _⟩ := rebuild_spec _ _ hr
  rw [nodes_eq, List.mem_cons, mem_nodesAll] at hn
  rcases hn with rfl | ⟨e', he', c', hc', hn⟩
  · refine ⟨s1, ?_⟩
    intro name hname
    obtain ⟨e', he', rfl⟩ := List.mem_map.mp hname
    obtain ⟨key, c, c1, _, _, hk, h0, _⟩ := rebuild_child _ _ hr e' he'
    rw [← hk]
    exact ⟨h0, fun b hb => findWord_word b hb⟩
  · obtain ⟨key, c, c1, hmem, h2, _, _, h3⟩ := rebuild_child _ _ hr e' he'
    rw [hc'] at h2
    cases h2
    exact ih src hsrc _ hmem c rfl c' h3 n hn

theorem isWord_lt (b : Nat) (h : isWord b = true) : b < 128 := by
  unfold isWord at h
  simp only [Bool.or_eq_true, Bool.and_eq_true, decide_eq_true_eq, beq_iff_eq] at h
  omega

/-- Two different sanitized keys are capitalized to the same name exactly when
they differ in the case of their first letter only. -/
theorem UpperFirst_collision (k1 k2 : GoString)
    (h1 : k1 ≠ [] ∧ ∀ b ∈ k1, isWord b = true) (h2 : k2 ≠ [] ∧ ∀ b ∈ k2, isWord b = true)
    (hne : k1 ≠ k2) :
    UpperFirst k1 = UpperFirst k2 ↔
      ∃ c t, 97 ≤ c ∧ c ≤ 122 ∧
        ((k1 = c :: t ∧ k2 = (c - 32) :: t) ∨ (k1 = (c - 32) :: t ∧ k2 = c :: t)) := by
  constructor
  · intro h
    cases k1 with
    | nil => exact absurd rfl h1.1
    | cons b1 t1 =>
      cases k2 with
      | nil => exact absurd rfl h2.1
      | cons b2 t2 =>
        have hb1 := isWord_lt b1 (h1.2 b1 (List.mem_cons_self _ _))
        have hb2 := isWord_lt b2 (h2.2 b2 (List.mem_cons_self _ _))
        rw [UpperFirst_ascii b1 t1 hb1, UpperFirst_ascii b2 t2 hb2] at h
        simp only [List.cons.injEq] at h
        obtain ⟨hu, ht⟩ := h
        subst ht
        have hbne : b1 ≠ b2 := by
          intro h0
          apply hne
          rw [h0]
        by_cases hl1 : 97 ≤ b1 ∧ b1 ≤ 122
        · by_cases hl2 : 97 ≤ b2 ∧ b2 ≤ 122
          · rw [if_pos hl1, if_pos hl2] at hu
            omega
          · rw [if_pos hl1, if_neg hl2] at hu
            exact ⟨b1, t1, hl1.1, hl1.2, Or.inl ⟨rfl, by rw [hu]⟩⟩
        · by_cases hl2 : 97 ≤ b2 ∧ b2 ≤ 122
          · rw [if_neg hl1, if_pos hl2] at hu
            exact ⟨b2, t1, hl2.1, hl2.2, Or.inr ⟨by rw [hu], rfl⟩⟩
          · rw [if_neg hl1, if_neg hl2] at hu
            exact absurd hu hbne
  · rintro ⟨c, t, hc1, hc2, (⟨rfl, rfl⟩ | ⟨rfl, rfl⟩)⟩
    · rw [UpperFirst_ascii c t (by omega), UpperFirst_ascii (c - 32) t (by omega)]
      have h3 : ¬ (97 ≤ c - 32 ∧ c - 32 ≤ 122) := by omega
      simp only [if_pos (And.intro hc1 hc2), if_neg h3]
    · rw [UpperFirst_ascii c t (by omega), UpperFirst_ascii (c - 32) t (by omega)]
      have h3 : ¬ (97 ≤ c - 32 ∧ c - 32 ≤ 122) := by omega
      simp only [if_pos (And.intro hc1 hc2), if_neg h3]

/-- C18 (counterexample): an object with the keys "Id" and "id" is left as it
is by the pass; the two keys are distinct and both are emitted under the name
"Id", so that the rendered structure has two fields of that name. -/
theorem emitted_names_collide :
    Array2Object caseClash = .ok caseClash ∧
    keys caseClash.SubField = [str "Id", str "id"] ∧
    (keys caseClash.SubField).Nodup ∧
    (keys caseClash.SubField).map UpperFirst = [str "Id", str "Id"] ∧
    ¬ ((keys caseClash.SubField).map UpperFirst).Nodup ∧
    generateStruct caseClash =
      .ok (str ("struct \x7b\n\t\tId  string`json:\"Id\"` // " ++
        "\n\t\tId  int`json:\"id\"` // \n\t\x7d")) := by
  refine ⟨rfl, rfl, by decide, rfl, by decide, ?_⟩
  set_option maxRecDepth 8000 in rfl

/-- C18 (as the code has it): after a successful pass, at every node reached
through children maps the sanitized child keys are pairwise distinct, and two
different keys of a node are emitted under the same field name exactly when
they differ in the case of their first letter only. -/
theorem emitted_names (f g : Field) (h : Array2Object f = .ok g) :
    ∀ n ∈ g.nodes,
      (keys n.SubField).Nodup ∧
      ∀ k1 ∈ keys n.SubField, ∀ k2 ∈ keys n.SubField, k1 ≠ k2 →
        (UpperFirst k1 = UpperFirst k2 ↔
          ∃ c t, 97 ≤ c ∧ c ≤ 122 ∧
            ((k1 = c :: t ∧ k2 = (c - 32) :: t) ∨ (k1 = (c - 32) :: t ∧ k2 = c :: t))) := by
  intro n hn
  obtain ⟨h1, h2⟩ := nodes_keys_spec f g h n hn
  exact ⟨h1, fun k1 hk1 k2 hk2 hne => UpperFirst_collision k1 k2 (h2 k1 hk1) (h2 k2 hk2) hne⟩

/-- Witness of C18 on the array `decorated`. -/
theorem emitted_names_witness :
    Array2Object decorated = .ok decoratedAfter ∧
    (keys decoratedAfter.SubField).Nodup ∧
    ¬ UpperFirst (str "nodeNetwork") = UpperFirst (str "id") := by
  have h := emitted_names decorated decoratedAfter rfl decoratedAfter (mem_nodes_self _)
  refine ⟨rfl, h.1, ?_⟩
  intro h0
  obtain ⟨c, t, _, _, h1⟩ :=
    (h.2 (str "nodeNetwork") (by decide) (str "id") (by decide) (by decide)).mp h0
  have e1 : str "nodeNetwork" = 110 :: str "odeNetwork" := rfl
  have e2 : str "id" = 105 :: str "d" := rfl
  rw [e1, e2] at h1
  rcases h1 with ⟨h2, h3⟩ | ⟨h2, h3⟩
  · simp only [List.cons.injEq] at h2 h3
    omega
  · simp only [List.cons.injEq] at h2 h3
    omega

theorem isRequiredLoop_iff (l : List GoString) (field : GoString) :
    isRequiredLoop l field = true ↔ field ∈ l := by
  induction l with
  | nil => simp [isRequiredLoop]
  | cons v rest ih =>
    unfold isRequiredLoop
    by_cases h : v = field
    · simp [h]
    · rw [if_neg h, ih]
      simp only [List.mem_cons]
      constructor
      · intro h1; exact Or.inr h1
      · rintro (h1 | h1)
        · exact absurd h1.symm h
        · exact h1

/-- C19: the pass leaves the entries of the required list as they are (the list
of a non-array node is its own, that of an array node is the list of its
element descriptor), while it sanitizes the keys; `IsRequired` is membership
in the list.  So when the sanitized form of a key of the renamed map is not
itself in the list, the node has a child under that name and does not report
it as required, whether or not the original key is listed; the key
"* nodeNetwork" listed as "* nodeNetwork" is not required under the name
"nodeNetwork". -/
theorem required_not_sanitized (f g : Field) (h : Array2Object f = .ok g) :
    (f.Type_ ≠ str "array" → g.Required = f.Required) ∧
    (∀ I, f.Type_ = str "array" → f.Items = some I → g.Required = I.Required) ∧
    (∀ name, g.IsRequired name = true ↔ name ∈ g.Required) ∧
    (∀ src, hoisted f = some src → ∀ key ∈ keys src, ∀ name, FilterRune key = .ok name →
      name ∉ g.Required → name ∈ keys g.SubField ∧ g.IsRequired name = false) ∧
    Array2Object decoratedRequired = .ok decoratedRequiredAfter ∧
    decoratedRequiredAfter.IsRequired (str "* nodeNetwork") = true ∧
    decoratedRequiredAfter.IsRequired (str "nodeNetwork") = false := by
  have hmem : ∀ name, g.IsRequired name = true ↔ name ∈ g.Required := fun name =>
    isRequiredLoop_iff g.Required name
  have hkeys : ∀ src children, hoisted f = some src →
      rebuild (Array2ObjectAll src) = .ok children → g.SubField = children →
      ∀ key ∈ keys src, ∀ name, FilterRune key = .ok name →
        name ∉ g.Required → name ∈ keys g.SubField ∧ g.IsRequired name = false := by
    intro src children _ hr hg key hkey name hname hnot
    obtain ⟨_, _, s3⟩ := rebuild_spec _ _ hr
    obtain ⟨e, he, rfl⟩ := List.mem_map.mp hkey
    constructor
    · rw [hg, ← ((FilterRune_ok_iff _ _).mp hname).1]
      exact (s3 e he).2
    · cases hr : g.IsRequired name with
      | false => rfl
      | true => exact absurd ((hmem name).mp hr) hnot
  refine ⟨?_, ?_, hmem, ?_, rfl, rfl, rfl⟩
  · intro hty
    rcases Array2Object_cases f with ⟨h1, _, _, _⟩ | ⟨I, h1, _, _, _⟩ | ⟨_, _, h4⟩
    · exact absurd h1 hty
    · exact absurd h1 hty
    · rw [h4] at h
      cases hr : rebuild (Array2ObjectAll f.SubField) with
      | error e => rw [hr] at h; cases h
      | ok children =>
        rw [hr] at h
        simp only [Except.ok.injEq] at h
        rw [← h]
  · intro I hty hI
    exact (array_spec f I g hty hI h).1
  · intro src hsrc
    rcases Array2Object_cases f with ⟨_, _, _, h4⟩ | ⟨I, _, _, h3, h4⟩ | ⟨_, h3, h4⟩
    · rw [h4] at h; cases h
    · rw [h4] at h
      cases hr : rebuild (Array2ObjectAll I.SubField) with
      | error e => rw [hr] at h; cases h
      | ok children =>
        rw [hr] at h
        simp only [Except.ok.injEq] at h
        rw [h3] at hsrc
        cases hsrc
        exact hkeys _ children h3 hr (by rw [← h])
    · rw [h4] at h
      cases hr : rebuild (Array2ObjectAll f.SubField) with
      | error e => rw [hr] at h; cases h
      | ok children =>
        rw [hr] at h
        simp only [Except.ok.injEq] at h
        rw [h3] at hsrc
        cases hsrc
        exact hkeys _ children h3 hr (by rw [← h])

/-- Witness of C19 on the object `decoratedRequired`. -/
theorem required_not_sanitized_witness :
    Array2Object decoratedRequired = .ok decoratedRequiredAfter ∧
    decoratedRequiredAfter.Required = decoratedRequired.Required ∧
    str "nodeNetwork" ∈ keys decoratedRequiredAfter.SubField ∧
    decoratedRequiredAfter.IsRequired (str "nodeNetwork") = false := by
  have h := required_not_sanitized decoratedRequired decoratedRequiredAfter rfl
  have h4 := h.2.2.2.1 decoratedRequired.SubField rfl (str "* nodeNetwork") (by decide)
    (str "nodeNetwork") rfl (by decide)
  exact ⟨rfl, h.1 (by decide), h4.1, h4.2⟩

/-- C20: after a successful pass the number of children of a node is the number
of distinct sanitized names of the keys of the map renamed there (every key
of which sanitizes); it is at most the number of entries of that map, and
equal to it exactly when no two entries take the same name, that is, the keys
being those of a map, when sanitization is injective on them; the keys "a"
and "* a" leave one child. -/
theorem children_count (f g : Field) (src : List (GoString × Option Field))
    (h : Array2Object f = .ok g) (hs : hoisted f = some src) :
    (∀ e ∈ src, FilterRune e.1 = .ok (findWord e.1)) ∧
    g.SubField.length = ((src.map fun e => findWord e.1).dedup).length ∧
    g.SubField.length ≤ src.length ∧
    (g.SubField.length = src.length ↔ (src.map fun e => findWord e.1).Nodup) ∧
    ((keys src).Nodup →
      ((src.map fun e => findWord e.1).Nodup ↔
        ∀ k1 ∈ keys src, ∀ k2 ∈ keys src, findWord k1 = findWord k2 → k1 = k2)) ∧
    Array2Object twoKeys = .ok twoKeysAfter ∧ twoKeysAfter.SubField.length = 1 := by
  have main : ∀ children, rebuild (Array2ObjectAll src) = .ok children →
      g.SubField = children →
      (∀ e ∈ src, FilterRune e.1 = .ok (findWord e.1)) ∧
      g.SubField.length = ((src.map fun e => findWord e.1).dedup).length := by
    intro children hr hg
    obtain ⟨s1, s2, s3⟩ := rebuild_spec _ _ hr
    refine ⟨fun e he => (FilterRune_ok_iff _ _).mpr ⟨rfl, (s3 e he).1⟩, ?_⟩
    have hperm : (keys children).Perm ((src.map fun e => findWord e.1).dedup) := by
      rw [List.perm_ext_iff_of_nodup s1 (List.nodup_dedup _)]
      intro name
      rw [List.mem_dedup]
      constructor
      · intro hname
        obtain ⟨e', he', rfl⟩ := List.mem_map.mp hname
        obtain ⟨l1, key, c, l2, hsrc, hk, _, _, _⟩ := s2 e' he'
        rw [← hk]
        exact List.mem_map.mpr ⟨(key, c), by rw [hsrc]; simp, rfl⟩
      · intro hname
        obtain ⟨e, he, rfl⟩ := List.mem_map.mp hname
        exact (s3 e he).2
    rw [hg, ← hperm.length_eq]
    simp [keys]
  have hlen : (∀ e ∈ src, FilterRune e.1 = .ok (findWord e.1)) ∧
      g.SubField.length = ((src.map fun e => findWord e.1).dedup).length := by
    rcases Array2Object_cases f with ⟨_, _, _, h4⟩ | ⟨I, _, _, h3, h4⟩ | ⟨_, h3, h4⟩
    · rw [h4] at h; cases h
    · rw [h4] at h
      cases hr : rebuild (Array2ObjectAll I.SubField) with
      | error e => rw [hr] at h; cases h
      | ok children =>
        rw [hr] at h
        simp only [Except.ok.injEq] at h
        rw [h3] at hs
        cases hs
        exact main children hr (by rw [← h])
    · rw [h4] at h
      cases hr : rebuild (Array2ObjectAll f.SubField) with
      | error e => rw [hr] at h; cases h
      | ok children =>
        rw [hr] at h
        simp only [Except.ok.injEq] at h
        rw [h3] at hs
        cases hs
        exact main children hr (by rw [← h])
  have hsub := List.dedup_sublist (src.map fun e => findWord e.1)
  have hle : ((src.map fun e => findWord e.1).dedup).length ≤ src.length := by
    have := hsub.length_le
    simpa using this
  refine ⟨hlen.1, hlen.2, by rw [hlen.2]; exact hle, ?_, ?_, rfl, rfl⟩
  · rw [hlen.2]
    constructor
    · intro heq
      have h1 : (src.map fun e => findWord e.1).dedup = src.map fun e => findWord e.1 :=
        hsub.eq_of_length (by simpa using heq)
      exact List.dedup_eq_self.mp h1
    · intro hn
      rw [List.dedup_eq_self.mpr hn]
      simp
  · intro hk
    have h1 : (src.map fun e => findWord e.1) = (keys src).map findWord := by
      simp [keys, Function.comp_def]
    rw [h1, List.nodup_map_iff_inj_on hk]

/-- Witness of C20 on the object `twoKeys`. -/
theorem children_count_witness :
    Array2Object twoKeys = .ok twoKeysAfter ∧ hoisted twoKeys = some twoKeys.SubField ∧
    twoKeysAfter.SubField.length = 1 ∧ twoKeys.SubField.length = 2 ∧
    ¬ (twoKeys.SubField.map fun e => findWord e.1).Nodup := by
  have h := children_count twoKeys twoKeysAfter twoKeys.SubField rfl rfl
  refine ⟨rfl, rfl, rfl, rfl, ?_⟩
  intro hn
  have := h.2.2.2.1.mpr hn
  revert this
  decide

end Yapi2go
